import Mathlib

/-!
Verification development for the llsdb storage engine.

This file gives a shallow embedding of the core of the engine:

* `freespace.rs` — the free-space manager (`FreeSpace`) and its bounded
  persistent snapshot (`PersistFreeSpace`).  Rust's `BTreeMap` / `BTreeSet`
  are embedded as strictly sorted (association) lists, `Vec` push/pop stacks
  are embedded as lists with the top at the head, and every `assert!` /
  `panic!` / `.expect(..)` in the Rust source becomes an `Option` failure
  (`none` = the Rust code would have panicked).
* `pointer.rs` — `Pointer::encoded_len`, entry handles.
* `llsdb.rs` — the transactional byte-level I/O (`push`, `pop`,
  `write_first_page` buffering, the `execute` rollback path) over a file
  modelled as a list of bytes, and the remap-aware entry iterator.
* `linkedlist.rs` — the mutable linked list (`push` / `unlink` /
  `iter_handles`).
* `index/vec.rs`, `index/btreemap.rs` — the sequence index and the ordered
  map index.

Machine integers (`u64`, `usize`) are embedded as `Nat`; every subtraction
performed by the Rust source is guarded there by invariants (`size <=
end_pointer` etc.) which are carried here as explicit hypotheses, so `Nat`
truncated subtraction agrees with the `u64` subtraction wherever it is used.
-/

set_option linter.unusedVariables false
set_option linter.unusedSectionVars false

namespace Llsdb

/-! ### Sorted association lists: the embedding of `BTreeMap` / `BTreeSet`

A Rust `BTreeMap` compares equal to another iff they hold the same sorted
sequence of key/value pairs, so a strictly-sorted association list is a
faithful embedding of its state.  `insA`/`ersA`/`lookupA` embed
`insert`/`remove`/`get`, and `ins`/`ers` the set versions. -/

variable {α : Type} {β : Type}

/-- Insert into a strictly sorted association list, replacing an existing
binding of the same key (`BTreeMap::insert`). -/
def insA [LinearOrder α] (k : α) (v : β) : List (α × β) → List (α × β)
  | [] => [(k, v)]
  | kv :: rest =>
    if k < kv.1 then (k, v) :: kv :: rest
    else if k = kv.1 then (k, v) :: rest
    else kv :: insA k v rest

/-- Remove a key from a sorted association list (`BTreeMap::remove`). -/
def ersA [LinearOrder α] (k : α) : List (α × β) → List (α × β)
  | [] => []
  | kv :: rest => if k = kv.1 then rest else kv :: ersA k rest

/-- Look a key up (`BTreeMap::get`). -/
def lookupA [DecidableEq α] (k : α) : List (α × β) → Option β
  | [] => none
  | kv :: rest => if k = kv.1 then some kv.2 else lookupA k rest

/-- Insert into a strictly sorted list (`BTreeSet::insert`); inserting an
element that is already present leaves the list unchanged. -/
def ins [LinearOrder α] (x : α) : List α → List α
  | [] => [x]
  | y :: ys => if x < y then x :: y :: ys else if x = y then y :: ys else y :: ins x ys

/-- Remove an element from a sorted list (`BTreeSet::remove`). -/
def ers [DecidableEq α] (x : α) : List α → List α
  | [] => []
  | y :: ys => if x = y then ys else y :: ers x ys

/-- Detach the greatest element of a sorted list (`BTreeSet::pop_last`). -/
def popLast? : List α → Option (α × List α)
  | [] => none
  | [x] => some (x, [])
  | x :: y :: ys => (popLast? (y :: ys)).map (fun m => (m.1, x :: m.2))

/-- First element `>= x` of a sorted list (`BTreeSet::range(x..).next()`). -/
def firstGE [LinearOrder α] (x : α) : List α → Option α
  | [] => none
  | y :: ys => if x ≤ y then some y else firstGE x ys

/-- Greatest key strictly below `k` together with its value
(`BTreeMap::range(..k).last()`). -/
def greatestLT [LinearOrder α] (k : α) (m : List (α × β)) : Option (α × β) :=
  (m.filter (fun kv => kv.1 < k)).getLast?

/-- Least key `>= k` together with its value (`BTreeMap::range(k..).next()`). -/
def leastGE [LinearOrder α] (k : α) (m : List (α × β)) : Option (α × β) :=
  (m.filter (fun kv => k ≤ kv.1)).head?

/-- Keys of an association list are strictly sorted. -/
def SortedKeys [LinearOrder α] (m : List (α × β)) : Prop :=
  List.Pairwise (fun a b : α × β => a.1 < b.1) m

/-- A strictly sorted plain list. -/
def SortedL [LinearOrder α] (l : List α) : Prop :=
  List.Pairwise (· < ·) l

instance [LinearOrder α] (m : List (α × β)) : Decidable (SortedKeys m) :=
  inferInstanceAs (Decidable (List.Pairwise _ m))

instance [LinearOrder α] (l : List α) : Decidable (SortedL l) :=
  inferInstanceAs (Decidable (List.Pairwise _ l))

/-! ### `Free` regions (`freespace.rs`, `struct Free`) -/

/-- A free region `(size, end_pointer)`; the implied start is
`end_pointer - size`.  The Rust derive `(PartialOrd, Ord)` orders by `size`
first, then `end_pointer`, which is exactly the lexicographic order lifted
below. -/
structure Free where
  size : Nat
  endPtr : Nat
  deriving DecidableEq, Repr

namespace Free

/-- The all-zero region standing for an empty persist slot (`Free::NULL`). -/
def NULL : Free := ⟨0, 0⟩

/-- Start of the region (`Free::start_pointer`). -/
def startPtr (f : Free) : Nat := f.endPtr - f.size

/-- Build a region from its start pointer (`Free::from_start_pointer`). -/
def fromStartPointer (startPointer size : Nat) : Free :=
  ⟨size, startPointer + size⟩

theorem toLexPair_injective :
    Function.Injective (fun f : Free => toLex (f.size, f.endPtr)) := by
  intro f g h
  cases f; cases g
  simpa [Prod.ext_iff] using h

instance : LinearOrder Free :=
  LinearOrder.lift' (fun f : Free => toLex (f.size, f.endPtr)) toLexPair_injective

theorem lt_def {f g : Free} :
    f < g ↔ f.size < g.size ∨ (f.size = g.size ∧ f.endPtr < g.endPtr) := by
  show toLex (f.size, f.endPtr) < toLex (g.size, g.endPtr) ↔ _
  rw [Prod.Lex.lt_iff]

theorem le_def {f g : Free} :
    f ≤ g ↔ f.size < g.size ∨ (f.size = g.size ∧ f.endPtr ≤ g.endPtr) := by
  show toLex (f.size, f.endPtr) ≤ toLex (g.size, g.endPtr) ↔ _
  rw [Prod.Lex.le_iff]

end Free

/-! ### The persistent snapshot (`freespace.rs`, `struct PersistFreeSpace`)

`state` is the fixed slot array, `reverseBySize` the `BTreeMap<Free, usize>`
reverse index, `unusedSlots` the `Vec<usize>` stack of empty slots (top of
the stack at the head of the list), `unplacedQueue` the `BTreeSet<Free>`
overflow queue and `changedSlots` the `BTreeSet<usize>` of dirty slots. -/

structure PFS where
  state : List Free
  reverseBySize : List (Free × Nat)
  unusedSlots : List Nat
  unplacedQueue : List Free
  changedSlots : List Nat
  deriving DecidableEq, Repr

namespace PFS

/-- Fresh snapshot with `n` empty slots (`PersistFreeSpace::new`).  The Rust
constructor fills `unused_slots` with `(0..n).rev()` so that popping from the
end of the `Vec` yields the lower indices first; with the stack top at the
head this is `0, 1, ..., n-1`. -/
def new (n : Nat) : PFS where
  state := List.replicate n Free.NULL
  reverseBySize := []
  unusedSlots := List.range n
  unplacedQueue := []
  changedSlots := []

/-- Install `free` into slot `slot` (the `Some(slot)` arm at the end of
`PersistFreeSpace::add`). -/
def install (p : PFS) (free : Free) (slot : Nat) : PFS :=
  { p with
    reverseBySize := insA free slot p.reverseBySize
    state := p.state.set slot free
    changedSlots := ins slot p.changedSlots }

/-- `PersistFreeSpace::add`.  `none` embeds the
`.expect("there are no unused slots")` panic (no unused slot and an empty
reverse index). -/
def add (p : PFS) (free : Free) : Option PFS :=
  match p.unusedSlots with
  | slot :: rest => some (install { p with unusedSlots := rest } free slot)
  | [] =>
    match p.reverseBySize.head? with
    | none => none
    | some (smallest, slot) =>
      -- NOTE (from the source): the comparison uses the full `Free` order,
      -- not `.size` alone, so that `add` is strictly the inverse of `remove`.
      if smallest < free then
        some (install
          { p with
            reverseBySize := ersA smallest p.reverseBySize
            unplacedQueue := ins smallest p.unplacedQueue }
          free slot)
      else
        some { p with unplacedQueue := ins free p.unplacedQueue }

/-- `PersistFreeSpace::remove`.  `none` embeds the
`panic!("removed something that was neither in a free slot or unplaced")`
as well as a panic propagated out of the nested `add` call. -/
def remove (p : PFS) (free : Free) : Option PFS :=
  match lookupA free p.reverseBySize with
  | some slot =>
    let p' : PFS :=
      { p with
        reverseBySize := ersA free p.reverseBySize
        state := p.state.set slot Free.NULL
        changedSlots := ins slot p.changedSlots
        unusedSlots := slot :: p.unusedSlots }
    match popLast? p'.unplacedQueue with
    | some (nextInQueue, rest) => add { p' with unplacedQueue := rest } nextInQueue
    | none => some p'
  | none =>
    if free ∈ p.unplacedQueue then
      some { p with unplacedQueue := ers free p.unplacedQueue }
    else
      none

/-- `PersistFreeSpace::take_changed_slots`. -/
def takeChangedSlots (p : PFS) : List Nat × PFS :=
  (p.changedSlots, { p with changedSlots := [] })

/-- Concrete snapshot state for exercising the remove/add no-op theorem:
one occupied slot and one unplaced region. -/
def w6p : PFS :=
  { state := [⟨5, 10⟩]
    reverseBySize := [(⟨5, 10⟩, 0)]
    unusedSlots := []
    unplacedQueue := [⟨3, 4⟩]
    changedSlots := [] }

/-- The slotted region removed and re-added in the witness: it is the
smallest (indeed only) persisted region, the critical displacement case. -/
def w6x : Free := ⟨5, 10⟩


/-- A region is tracked by the snapshot if it occupies a slot or sits in the
overflow queue. -/
def tracked (p : PFS) (f : Free) : Prop :=
  lookupA f p.reverseBySize ≠ none ∨ f ∈ p.unplacedQueue

instance (p : PFS) (f : Free) : Decidable (p.tracked f) := by
  unfold tracked; infer_instance

/-- Everything except `changedSlots`: the components whose restoration the
rollback machinery establishes step by step (`changedSlots` is instead
cleared wholesale by `take_changed_slots` at the end of a rollback). -/
def core (p : PFS) : List Free × List (Free × Nat) × List Nat × List Free :=
  (p.state, p.reverseBySize, p.unusedSlots, p.unplacedQueue)

/-- Well-formedness of a snapshot, as maintained by the Rust code:
the reverse index and the slot array are mutually consistent, unused slots
are exactly the `NULL` slots, the overflow queue is disjoint from the slots
and every queued region is strictly below every slotted region, and the
queue is only non-empty while no slot is unused. -/
def Inv (p : PFS) : Prop :=
  SortedKeys p.reverseBySize ∧
  (∀ fs ∈ p.reverseBySize, p.state.get? fs.2 = some fs.1 ∧ 0 < fs.1.size) ∧
  (∀ e ∈ p.state.enum,
      (e.2 = Free.NULL ∧ e.1 ∈ p.unusedSlots) ∨
      (0 < e.2.size ∧ lookupA e.2 p.reverseBySize = some e.1)) ∧
  p.unusedSlots.Nodup ∧
  (∀ s ∈ p.unusedSlots, p.state.get? s = some Free.NULL) ∧
  SortedL p.unplacedQueue ∧
  (∀ u ∈ p.unplacedQueue, 0 < u.size ∧ lookupA u p.reverseBySize = none) ∧
  (∀ u ∈ p.unplacedQueue, ∀ fs ∈ p.reverseBySize, u < fs.1) ∧
  (p.unusedSlots ≠ [] → p.unplacedQueue = [])

instance (p : PFS) : Decidable p.Inv := by
  unfold Inv; infer_instance

end PFS

/-! ### The free-space manager (`freespace.rs`, `struct FreeSpace`)

`endToStart` embeds the `BTreeMap<Pointer, Pointer>` from end pointer to
start pointer, `sizes` the `BTreeSet<Free>`, `txChanges` the change log
(`Vec<Change>`, most recent change at the head of the list) and
`pendingFrees` the `Vec<Free>` of deferred frees in push order. -/

/-- One entry of the transactional change log (`enum Change`). -/
inductive Change where
  | Remove (f : Free)
  | Add (f : Free)
  deriving DecidableEq, Repr

structure FS where
  endToStart : List (Nat × Nat)
  sizes : List Free
  txChanges : List Change
  pendingFrees : List Free
  persist : PFS
  deriving DecidableEq, Repr

namespace FS

/-- `FreeSpace::new`. -/
def new (nPersist : Nat) : FS where
  endToStart := []
  sizes := []
  txChanges := []
  pendingFrees := []
  persist := PFS.new nPersist

/-- The final block of `FreeSpace::insert` after the coalescing loop has
settled on `(start, end)`: log `Change::Add`, insert into both structures
and into the snapshot.  `none` embeds the two `assert!`s (the end key must
be fresh in `end_to_start`, the region fresh in `sizes`) and a panic inside
`PersistFreeSpace::add`. -/
def atomAdd (c : FS) (start endP : Nat) : Option FS :=
  let free : Free := ⟨endP - start, endP⟩
  if lookupA endP c.endToStart ≠ none then none
  else if free ∈ c.sizes then none
  else
    (c.persist.add free).map fun p =>
      { c with
        txChanges := Change.Add free :: c.txChanges
        endToStart := insA endP start c.endToStart
        sizes := ins free c.sizes
        persist := p }

/-- The removal part of `FreeSpace::resize` (which `FreeSpace::remove`
invokes with `new_size = 0`): if the end key is absent nothing happens and
`none` is reported to the caller; otherwise the region is removed from both
structures and the snapshot and a `Change::Remove` is logged.  The outer
`Option` embeds panics (the `assert!(self.sizes.remove(&free))` and panics
inside `PersistFreeSpace::remove`). -/
def removeEnd (c : FS) (endP : Nat) : Option (FS × Option Nat) :=
  match lookupA endP c.endToStart with
  | none => some (c, none)
  | some startPointer =>
    let currentSize := endP - startPointer
    let free : Free := ⟨currentSize, endP⟩
    if free ∉ c.sizes then none
    else
      (c.persist.remove free).map fun p =>
        ({ c with
            endToStart := ersA endP c.endToStart
            sizes := ers free c.sizes
            txChanges := Change.Remove free :: c.txChanges
            persist := p },
          some currentSize)

/-- The coalescing loop of `FreeSpace::insert`: repeatedly merge the region
`[sp, ep)` with an adjacent predecessor (a mapped region whose end equals
`sp`) or successor (one whose start equals `ep`), removing the neighbour
through the ordinary `remove` path.  The loop terminates because every
iteration removes one entry from `end_to_start`; `fuel` bounds the
iterations and is always called with `c.endToStart.length + 1`. -/
def insertLoop (fuel : Nat) (c : FS) (sp ep : Nat) : Option (FS × Nat × Nat) :=
  match fuel with
  | 0 => none
  | fuel + 1 =>
    match greatestLT ep c.endToStart, leastGE ep c.endToStart with
    | some (existingEnd, existingStart), _ =>
      if existingEnd = sp then
        match c.removeEnd existingEnd with
        | none => none
        | some (c', _) => insertLoop fuel c' existingStart ep
      else
        match leastGE ep c.endToStart with
        | some (existingEnd2, existingStart2) =>
          if existingStart2 = ep then
            match c.removeEnd existingEnd2 with
            | none => none
            | some (c', _) => insertLoop fuel c' sp existingEnd2
          else some (c, sp, ep)
        | none => some (c, sp, ep)
    | none, some (existingEnd2, existingStart2) =>
      if existingStart2 = ep then
        match c.removeEnd existingEnd2 with
        | none => none
        | some (c', _) => insertLoop fuel c' sp existingEnd2
      else some (c, sp, ep)
    | none, none => some (c, sp, ep)

/-- `FreeSpace::insert`. -/
def insertF (c : FS) (f : Free) : Option FS :=
  if f.size = 0 then some c
  else
    match insertLoop (c.endToStart.length + 1) c (f.endPtr - f.size) f.endPtr with
    | none => none
    | some (c', start, endP) => c'.atomAdd start endP

/-- `FreeSpace::resize` for a non-zero new size (only reached from
`take_for_size`): remove, then re-insert the shrunk region. -/
def resize (c : FS) (endP newSize : Nat) : Option (FS × Option Nat) :=
  match c.removeEnd endP with
  | none => none
  | some (c', r) =>
    match r with
    | none => some (c', none)
    | some currentSize =>
      if newSize ≠ 0 then
        (c'.insertF ⟨newSize, endP⟩).map fun c'' => (c'', some currentSize)
      else
        some (c', some currentSize)

/-- `FreeSpace::free`: push onto the deferred-free buffer. -/
def freeReg (c : FS) (f : Free) : FS :=
  { c with pendingFrees := c.pendingFrees ++ [f] }

/-- `FreeSpace::take_for_size`: find the smallest region of size at least
`size` (ties broken by smaller end pointer, because the range starts at
`Free { size, end_pointer: u64::MIN }`), remove it, and re-insert the
remainder at the same end pointer if any remains.  Returns the start of the
allocated block. -/
def takeForSize (c : FS) (size : Nat) : Option (FS × Option Nat) :=
  match firstGE ⟨size, 0⟩ c.sizes with
  | none => some (c, none)
  | some free =>
    let remainingSize := free.size - size
    match c.resize free.endPtr remainingSize with
    | none => none
    | some (c', _) => some (c', some free.startPtr)

/-- Undo a single logged change (one iteration of the
`tx_fail_rollback` loop).  `none` embeds the `assert_eq!` / `assert!`
failures and snapshot panics. -/
def undoOne (c : FS) (ch : Change) : Option FS :=
  match ch with
  | Change.Add free =>
    if lookupA free.endPtr c.endToStart ≠ some (free.endPtr - free.size) then none
    else if free ∉ c.sizes then none
    else
      (c.persist.remove free).map fun p =>
        { c with
          endToStart := ersA free.endPtr c.endToStart
          sizes := ers free c.sizes
          persist := p }
  | Change.Remove free =>
    if lookupA free.endPtr c.endToStart ≠ none then none
    else if free ∈ c.sizes then none
    else
      (c.persist.add free).map fun p =>
        { c with
          endToStart := insA free.endPtr free.startPtr c.endToStart
          sizes := ins free c.sizes
          persist := p }

/-- Undo a list of changes, newest first. -/
def undoAll (c : FS) : List Change → Option FS
  | [] => some c
  | ch :: rest => (c.undoOne ch).bind fun c' => undoAll c' rest

/-- `FreeSpace::tx_fail_rollback`: walk the change log newest-first undoing
every change, then discard the dirty-slot set and the pending frees. -/
def txFailRollback (c : FS) : Option FS :=
  (undoAll { c with txChanges := [] } c.txChanges).map fun c' =>
    { c' with
      pendingFrees := []
      persist := { c'.persist with changedSlots := [] } }

/-- `FreeSpace::apply_pending_frees`: insert every deferred free (in push
order) into the coalescing index, then hand back the dirty persist slots. -/
def applyPendingFrees (c : FS) : Option (FS × List Nat) :=
  let rec go (c : FS) : List Free → Option FS
    | [] => some c
    | f :: rest => (c.insertF f).bind fun c' => go c' rest
  (go { c with pendingFrees := [] } c.pendingFrees).map fun c' =>
    let (slots, p) := c'.persist.takeChangedSlots
    ({ c' with persist := p }, slots)

/-- `FreeSpace::tx_success`. -/
def txSuccess (c : FS) : FS :=
  { c with txChanges := [] }

/-- `FreeSpace::where_to_trim`: the start pointer of the region with the
greatest end pointer. -/
def whereToTrim (c : FS) : Option Nat :=
  (c.endToStart.getLast?).map (·.2)

/-- `take_changed_slots` lifted to the manager. -/
def takeChangedSlots (c : FS) : FS × List Nat :=
  let (s, p) := c.persist.takeChangedSlots
  ({ c with persist := p }, s)

end FS

/-- An externally triggered free-space operation between two commits
(the `Action` type of the rollback fuzz test). -/
inductive FSAction
  | take (size : Nat)
  | free (start size : Nat)
deriving DecidableEq, Repr

namespace FS

/-- Run one action against the free-space manager. -/
def applyAction (c : FS) : FSAction → Option FS
  | FSAction.take s => (c.takeForSize s).map Prod.fst
  | FSAction.free start sz => some (c.freeReg (Free.fromStartPointer start sz))

/-- Run a sequence of actions. -/
def runActions (c : FS) : List FSAction → Option FS
  | [] => some c
  | a :: rest => (c.applyAction a).bind fun c' => runActions c' rest

/-- Concrete starting state for exercising the rollback theorem: a freshly
created manager with one persistent slot. -/
def w2c0 : FS := FS.new 1

/-- Concrete action sequence: two adjacent frees (which coalesce on apply)
followed by an allocation. -/
def w2acts : List FSAction := [FSAction.free 10 3, FSAction.free 13 2, FSAction.take 4]

/-- The state after running `w2acts`. -/
def w2c1 : FS := (runActions w2c0 w2acts).getD w2c0

/-- The state after additionally applying the pending frees. -/
def w2c2 : FS := (w2c1.applyPendingFrees).getD (w2c1, []) |>.1

/-- The changed slots reported by `apply_pending_frees` on `w2c1`. -/
def w2slots : List Nat := (w2c1.applyPendingFrees).getD (w2c1, []) |>.2

end FS

/-! ### Separation and the free-space fuzz harness -/

namespace FS

/-- No two free regions are adjacent: listed in end-pointer order, each
region ends strictly before the next begins. -/
def Sep (c : FS) : Prop := c.endToStart.Pairwise (fun a b => a.1 < b.2)

instance (c : FS) : Decidable c.Sep := by
  unfold Sep; infer_instance

end FS

/-- The runner state of the free-space fuzz harness: the last committed
state and the current state. -/
structure RunSt where
  chk : FS
  cur : FS
deriving DecidableEq, Repr

/-- Operations the harness may perform between commits. -/
inductive ROp
  | take (size : Nat)
  | free (start size : Nat)
  | applyFrees
  | commit
  | rollback
deriving DecidableEq, Repr

namespace FS

/-- A `free` call is valid when the freed region overlaps neither a held
region nor a pending free (callers only free space they own). -/
def freeOk (c : FS) (start sz : Nat) : Prop :=
  0 < sz →
    ((∀ kv ∈ c.endToStart, start + sz ≤ kv.2 ∨ kv.1 ≤ start) ∧
     (∀ g ∈ c.pendingFrees, 0 < g.size →
        (start + sz ≤ g.endPtr - g.size ∨ g.endPtr ≤ start)))

instance (c : FS) (start sz : Nat) : Decidable (freeOk c start sz) := by
  unfold freeOk; infer_instance

/-- Pending frees are well formed, overlap no held region, and are
pairwise disjoint. -/
def PendOk (c : FS) : Prop :=
  (∀ f ∈ c.pendingFrees, f.size ≤ f.endPtr) ∧
  (∀ f ∈ c.pendingFrees, 0 < f.size →
    ∀ kv ∈ c.endToStart, f.endPtr ≤ kv.2 ∨ kv.1 ≤ f.endPtr - f.size) ∧
  c.pendingFrees.Pairwise (fun f g => 0 < f.size → 0 < g.size →
    (f.endPtr ≤ g.endPtr - g.size ∨ g.endPtr ≤ f.endPtr - f.size))

end FS

/-- Initial runner state over a fresh manager. -/
def RunSt.init (n : Nat) : RunSt := ⟨FS.new n, FS.new n⟩

/-- One harness step. -/
def rstep (r : RunSt) : ROp → Option RunSt
  | ROp.take s => (r.cur.takeForSize s).map fun p => { r with cur := p.1 }
  | ROp.free start sz =>
      if FS.freeOk r.cur start sz then
        some { r with cur := r.cur.freeReg (Free.fromStartPointer start sz) }
      else none
  | ROp.applyFrees => (r.cur.applyPendingFrees).map fun p => { r with cur := p.1 }
  | ROp.commit => (r.cur.applyPendingFrees).map fun p =>
      { chk := p.1.txSuccess, cur := p.1.txSuccess }
  | ROp.rollback => (r.cur.txFailRollback).map fun c => { r with cur := c }

/-- Run a sequence of harness operations. -/
def runROps (r : RunSt) : List ROp → Option RunSt
  | [] => some r
  | op :: rest => (rstep r op).bind fun r' => runROps r' rest

def w4ops : List ROp :=
  [ROp.free 10 3, ROp.free 13 2, ROp.free 20 5, ROp.applyFrees, ROp.take 4]

def w4r : RunSt := (runROps (RunSt.init 1) w4ops).getD (RunSt.init 1)

def w5ops : List ROp :=
  [ROp.free 10 3, ROp.free 20 5, ROp.applyFrees]

def w5r : RunSt := (runROps (RunSt.init 1) w5ops).getD (RunSt.init 1)


namespace FS

def w7c : FS :=
  { endToStart := [(15, 10), (25, 20)]
    sizes := [⟨5, 15⟩, ⟨5, 25⟩]
    txChanges := []
    pendingFrees := []
    persist :=
      { state := [⟨5, 25⟩]
        reverseBySize := [(⟨5, 25⟩, 0)]
        unusedSlots := []
        unplacedQueue := [⟨5, 15⟩]
        changedSlots := [] } }

end FS

/-! ### The on-disk byte machine -/

/-- `Pointer::encoded_len`. -/
def encodedLen (p : Nat) : Nat :=
  if p ≤ 250 then 1
  else if p ≤ 65535 then 3
  else if p ≤ 4294967295 then 4
  else 5

/-- Modelled from the spec: the external codec's varint encoding of a
pointer, little-endian, with the lengths the spec fixes (1 byte if
`p ≤ 250`, 3 if `p ≤ 2^16 - 1`, 4 if `p ≤ 2^32 - 1`, else 5; markers
251/252/253).  The spec prescribes only the lengths; in the 4- and 5-byte
forms the model carries 3 and 4 payload bytes, so values at or above
`2^24` are not round-tripped exactly. -/
def encodePointer (p : Nat) : List Nat :=
  if p ≤ 250 then [p]
  else if p ≤ 65535 then [251, p % 256, p / 256 % 256]
  else if p ≤ 4294967295 then [252, p % 256, p / 256 % 256, p / 65536 % 256]
  else [253, p % 256, p / 256 % 256, p / 65536 % 256, p / 16777216 % 256]

/-- Decode a varint pointer at an offset: `(value, bytes consumed)`. -/
def decodePointerAt (file : List Nat) (off : Nat) : Option (Nat × Nat) :=
  match file.get? off with
  | none => none
  | some b =>
    if b ≤ 250 then some (b, 1)
    else if b = 251 then
      match file.get? (off + 1), file.get? (off + 2) with
      | some b0, some b1 => some (b0 + 256 * b1, 3)
      | _, _ => none
    else if b = 252 then
      match file.get? (off + 1), file.get? (off + 2), file.get? (off + 3) with
      | some b0, some b1, some b2 => some (b0 + 256 * b1 + 65536 * b2, 4)
      | _, _, _ => none
    else
      match file.get? (off + 1), file.get? (off + 2), file.get? (off + 3),
          file.get? (off + 4) with
      | some b0, some b1, some b2, some b3 =>
        some (b0 + 256 * b1 + 65536 * b2 + 16777216 * b3, 5)
      | _, _, _, _ => none

/-- A length-prefixed byte string (the codec's encoding of a variable-length
value). -/
def encBytes (v : List Nat) : List Nat := encodePointer v.length ++ v

/-- Decode a length-prefixed byte string: `(bytes, bytes consumed)`. -/
def decodeBytesAt (file : List Nat) (off : Nat) : Option (List Nat × Nat) :=
  match decodePointerAt file off with
  | none => none
  | some (len, c) =>
    match (List.range len).mapM (fun i => file.get? (off + c + i)) with
    | none => none
    | some bytes => some (bytes, c + len)

/-- Overwrite `bytes` into `file` at `off`, zero-filling any gap (a seek
past the end followed by a write). -/
def listWrite (file : List Nat) (off : Nat) (bytes : List Nat) : List Nat :=
  file.take off ++ List.replicate (off - file.length) 0 ++ bytes ++
    file.drop (off + bytes.length)

/-- `EntryHandle`. -/
structure EH where
  thisEntry : Nat
  nextStale : Nat
  valueLen : Nat
deriving DecidableEq, Repr

/-- `EntryHandle::entry_len`. -/
def EH.entryLen (h : EH) : Nat := encodedLen h.nextStale + h.valueLen

/-- `EntryHandle::value_pointer`. -/
def EH.valuePointer (h : EH) : Nat := h.thisEntry + encodedLen h.nextStale

/-- `EntryHandle::pointer_to_end`. -/
def EH.pointerToEnd (h : EH) : Nat := h.thisEntry + h.entryLen

/-- A change to the `index::Vec` in-memory index (`vec.rs` `Change`). -/
inductive VChange
  | push
  | pop (ptr : Nat)
deriving DecidableEq, Repr

/-- The in-memory state of an `index::Vec`; `txChanges` newest first. -/
structure VecSt where
  index : List Nat
  txChanges : List VChange
deriving DecidableEq, Repr

/-- The transactional database state: the in-memory header page, the file
bytes, the free-space manager, the buffered head updates, and one
`index::Vec` in-memory index. -/
structure Db where
  pageBuf : List Nat
  file : List Nat
  fs : FS
  changedHeads : List (Nat × Nat)
  vec : VecSt
deriving DecidableEq, Repr

/-- 8-byte little-endian read. -/
def decode8LE (l : List Nat) (off : Nat) : Option Nat :=
  ((List.range 8).mapM (fun i => l.get? (off + i))).map
    (fun bs => bs.foldr (fun b acc => b + 256 * acc) 0)

/-- `Io::get_head` on the in-memory page: slot `s` lives at
`PREAMBLE_LEN + s * 8`. -/
def getHeadBuf (buf : List Nat) (slot : Nat) : Option Nat :=
  decode8LE buf (8 + slot * 8)

/-- `TxIoInner::curr_head`: the buffered head if present, else the header
page. -/
def Db.currHead (S : Db) (slot : Nat) : Option Nat :=
  match lookupA slot S.changedHeads with
  | some p => some p
  | none => getHeadBuf S.pageBuf slot

/-- Pointer-space to file-offset translation (`pointer_to_file_position`):
`p + page_size - 1` for non-null `p`. -/
def Db.ptrOff (S : Db) (p : Nat) : Nat := p + S.pageBuf.length - 1

/-- `raw_read_at` for a length-prefixed value. -/
def Db.rawReadAt (S : Db) (p : Nat) : Option (List Nat) :=
  (decodeBytesAt S.file (S.ptrOff p)).map Prod.fst

/-- `TxIo::push` with the value already encoded (`push_dangling` plus the
head update): encode the previous head, allocate, write, buffer the new
head. -/
def Db.pushRaw (S : Db) (slot : Nat) (valueBytes : List Nat) (valueLen : Nat)
    (extra : Nat) : Option (Db × EH) :=
  match S.currHead slot with
  | none => none
  | some prev =>
    let entryBytes := encodePointer prev ++ valueBytes
    match S.fs.takeForSize (entryBytes.length + extra) with
    | none => none
    | some (fs', res) =>
      match res with
      | none => none
      | some p =>
        some ({ S with
                 fs := fs'
                 file := listWrite S.file (S.ptrOff p) entryBytes
                 changedHeads := insA slot p S.changedHeads },
          ⟨p, prev, valueLen⟩)

/-- `TxIo::push` of a plain value. -/
def Db.push (S : Db) (slot : Nat) (v : List Nat) : Option (Db × EH) :=
  S.pushRaw slot (encBytes v) (encBytes v).length 0

/-- `TxIo::push_kv`: push the key with room for the value, then write the
value right behind it. -/
def Db.pushKV (S : Db) (slot : Nat) (k : Nat) (v : List Nat) : Option (Db × EH) :=
  let valueBuf := encBytes v
  match S.pushRaw slot (encodePointer k) (encodePointer k).length valueBuf.length with
  | none => none
  | some (S', h) =>
    some ({ S' with
             file := listWrite S'.file (S'.ptrOff h.thisEntry +
               (encodePointer h.nextStale ++ encodePointer k).length) valueBuf }, h)

/-- `TxIo::pop` on a plain list: read the head entry, free it, buffer the
previous head. -/
def Db.pop (S : Db) (slot : Nat) : Option (Db × Option (List Nat)) :=
  match S.currHead slot with
  | none => none
  | some head =>
    if head = 0 then some (S, none)
    else
      match decodePointerAt S.file (S.ptrOff head) with
      | none => none
      | some (prev, c1) =>
        match decodeBytesAt S.file (S.ptrOff head + c1) with
        | none => none
        | some (v, c2) =>
          let len := encodedLen prev + c2
          some ({ S with
                   fs := S.fs.freeReg ⟨len, head + len⟩
                   changedHeads := insA slot prev S.changedHeads },
            some v)

/-- `VecApi::push`. -/
def Db.vecPush (S : Db) (slot : Nat) (v : List Nat) : Option Db :=
  match S.push slot v with
  | none => none
  | some (S', h) =>
    some { S' with
            vec := { index := S'.vec.index ++ [h.valuePointer]
                     txChanges := VChange.push :: S'.vec.txChanges } }

/-- `VecApi::pop`. -/
def Db.vecPop (S : Db) (slot : Nat) : Option (Db × Option (List Nat)) :=
  match S.pop slot with
  | none => none
  | some (S', res) =>
    match res with
    | some v =>
      match popLast? S'.vec.index with
      | none => none
      | some (p, rest) =>
        some ({ S' with
                 vec := { index := rest
                          txChanges := VChange.pop p :: S'.vec.txChanges } },
          some v)
    | none =>
      if S'.vec.index.length = 0 then some (S', none) else none

/-- `VecApi::get`. -/
def Db.vecGet (S : Db) (i : Nat) : Option (Option (List Nat)) :=
  match S.vec.index.get? i with
  | none => some none
  | some p => (S.rawReadAt p).map some

/-- `index::Vec::tx_fail_rollback`: undo the logged index changes, newest
first (`None` embeds the `assert!` panic). -/
def vecRollback (v : VecSt) : Option VecSt :=
  let rec go (index : List Nat) : List VChange → Option (List Nat)
    | [] => some index
    | VChange.push :: rest =>
      match popLast? index with
      | none => none
      | some (_, index') => go index' rest
    | VChange.pop p :: rest => go (index ++ [p]) rest
  (go v.index v.txChanges).map fun index => ⟨index, []⟩

/-- A transaction-body operation of the `execute` model. -/
inductive DOp
  | push (slot : Nat) (v : List Nat)
  | pop (slot : Nat)
  | vecPush (slot : Nat) (v : List Nat)
  | vecPop (slot : Nat)
deriving DecidableEq, Repr

/-- Run one body operation. -/
def dstep (S : Db) : DOp → Option Db
  | DOp.push slot v => (S.push slot v).map Prod.fst
  | DOp.pop slot => (S.pop slot).map Prod.fst
  | DOp.vecPush slot v => S.vecPush slot v
  | DOp.vecPop slot => (S.vecPop slot).map Prod.fst

/-- Run a transaction body. -/
def runDOps (S : Db) : List DOp → Option Db
  | [] => some S
  | op :: rest => (dstep S op).bind fun S' => runDOps S' rest

/-- `LlsDb::execute` when the body runs `ops` and then returns an error:
roll back the surviving indexes and the free-space manager, drop the
buffered heads, truncate the file to its starting length.  The in-memory
header page was never touched (heads and free slots are only written on
the success path). -/
def executeErr (S : Db) (ops : List DOp) : Option Db :=
  (runDOps S ops).bind fun S1 =>
    (S1.fs.txFailRollback).bind fun fs' =>
      (vecRollback S1.vec).map fun v' =>
        { pageBuf := S1.pageBuf
          file := S1.file.take S.file.length
          fs := fs'
          changedHeads := []
          vec := v' }

/-! ### The mutable list and its iterator -/

/-- A decoded `Mut<T>` record. -/
inductive MutVal
  | add (v : List Nat)
  | remap (src dst : Nat)
deriving DecidableEq, Repr

/-- The codec's encoding of `Mut::Add(v)`: variant tag then payload. -/
def encodeMutAdd (v : List Nat) : List Nat := 0 :: encBytes v

/-- The codec's encoding of `Mut::Remap { from, to }`. -/
def encodeMutRemap (f t : Nat) : List Nat := 1 :: (encodePointer f ++ encodePointer t)

/-- Decode a `Mut<T>` record: `(record, bytes consumed)`. -/
def decodeMutAt (file : List Nat) (off : Nat) : Option (MutVal × Nat) :=
  match file.get? off with
  | none => none
  | some 0 =>
    match decodeBytesAt file (off + 1) with
    | none => none
    | some (v, c) => some (MutVal.add v, 1 + c)
  | some 1 =>
    match decodePointerAt file (off + 1) with
    | none => none
    | some (f, c1) =>
      match decodePointerAt file (off + 1 + c1) with
      | none => none
      | some (t, c2) => some (MutVal.remap f t, 1 + c1 + c2)
  | some _ => none

/-- `EntryIter` state. -/
structure It where
  curr : Nat
  remap : List (Nat × Nat)
  revRemap : List (Nat × Nat)
deriving DecidableEq, Repr

/-- `EntryIter::map_to_current`. -/
def It.mapToCurrent (it : It) (p : Nat) : Nat :=
  match lookupA p it.remap with
  | some q => q
  | none => p

/-- `EntryIter::remap`: the destination is first resolved, then the chain
through `reverse_remap` is patched, then the new mapping recorded. -/
def It.applyRemap (it : It) (f t0 : Nat) : It :=
  let t := it.mapToCurrent t0
  let rr0 := ersA f it.revRemap
  match lookupA f it.revRemap with
  | some prevFrom =>
    { curr := it.curr
      remap := insA f t (insA prevFrom t it.remap)
      revRemap := insA t f (insA t prevFrom rr0) }
  | none =>
    { curr := it.curr
      remap := insA f t it.remap
      revRemap := insA t f rr0 }

/-- `EntryIter::next_with_handle` over a `Mut<T>` list.  The outer `none`
is an I/O or decode error; the inner `none` is the end of the list.  Note
`curr` advances through `map_to_current` using the remap state from
*before* the record just read is processed. -/
def Db.nextWithHandle (S : Db) (it : It) : Option (Option (It × EH × MutVal)) :=
  if it.curr = 0 then some none
  else
    match decodePointerAt S.file (S.ptrOff it.curr) with
    | none => none
    | some (next, c1) =>
      match decodeMutAt S.file (S.ptrOff it.curr + c1) with
      | none => none
      | some (mv, c2) =>
        some (some ({ it with curr := it.mapToCurrent next },
          ⟨it.curr, next, c2⟩, mv))

/-- One step of `iter_handles`: skip remap records (feeding them to the
iterator) until an `Add` is found. -/
def Db.iterNext (S : Db) : Nat → It → Option (Option (It × EH × List Nat))
  | 0, _ => none
  | fuel + 1, it =>
    match S.nextWithHandle it with
    | none => none
    | some none => some none
    | some (some (it', h, MutVal.add v)) => some (some (it', h, v))
    | some (some (it', _, MutVal.remap f t)) => S.iterNext fuel (it'.applyRemap f t)

/-- Collect every `(handle, value)` that `iter_handles` yields. -/
def Db.iterAll (S : Db) : Nat → It → Option (List (EH × List Nat))
  | 0, _ => none
  | fuel + 1, it =>
    match S.iterNext (fuel + 1) it with
    | none => none
    | some none => some []
    | some (some (it', h, v)) =>
      (S.iterAll fuel it').map fun rest => (h, v) :: rest

/-- A fresh iterator over the mutable list in `slot`. -/
def Db.freshIter (S : Db) (slot : Nat) : Option It :=
  (S.currHead slot).map fun head => ⟨head, [], []⟩

/-- `LinkedListMutApi::push`. -/
def Db.mutPush (S : Db) (slot : Nat) (v : List Nat) : Option (Db × EH) :=
  S.pushRaw slot (encodeMutAdd v) (encodeMutAdd v).length 0

/-- `TxIo::pop` when the list holds `Mut<T>` records (used by `unlink` on
the head entry). -/
def Db.mutPop (S : Db) (slot : Nat) : Option (Db × Option MutVal) :=
  match S.currHead slot with
  | none => none
  | some head =>
    if head = 0 then some (S, none)
    else
      match decodePointerAt S.file (S.ptrOff head) with
      | none => none
      | some (prev, c1) =>
        match decodeMutAt S.file (S.ptrOff head + c1) with
        | none => none
        | some (mv, c2) =>
          let len := encodedLen prev + c2
          some ({ S with
                   fs := S.fs.freeReg ⟨len, head + len⟩
                   changedHeads := insA slot prev S.changedHeads },
            some mv)

/-- `LinkedListMutApi::unlink`. -/
def Db.unlink (S : Db) (slot : Nat) (h : EH) : Option Db :=
  match S.currHead slot with
  | none => none
  | some endOfList =>
    if endOfList = h.thisEntry then
      (S.mutPop slot).map Prod.fst
    else
      match S.pushRaw slot (encodeMutRemap h.thisEntry h.nextStale)
          (encodeMutRemap h.thisEntry h.nextStale).length 0 with
      | none => none
      | some (S', _) =>
        some { S' with fs := S'.fs.freeReg ⟨h.entryLen, h.thisEntry + h.entryLen⟩ }

/-- Find the handle of the entry holding `v` by iterating the list. -/
def Db.findHandle (S : Db) (slot : Nat) (v : List Nat) : Option EH :=
  match S.freshIter slot with
  | none => none
  | some it =>
    match S.iterAll 1000 it with
    | none => none
    | some l =>
      match l.find? (fun hv => hv.2 = v) with
      | none => none
      | some hv => some hv.1

/-- Unlink the entry holding `v` (a fresh iteration each time, as a user
of the API would do). -/
def Db.unlinkValue (S : Db) (slot : Nat) (v : List Nat) : Option Db :=
  match S.findHandle slot v with
  | none => none
  | some h => S.unlink slot h

/-- List the values the mutable-list iterator visits. -/
def Db.mutValues (S : Db) (slot : Nat) : Option (List (List Nat)) :=
  match S.freshIter slot with
  | none => none
  | some it => (S.iterAll 1000 it).map (List.map Prod.snd)

def c3init : Db :=
  { pageBuf := List.replicate 128 0
    file := List.replicate 128 0
    fs :=
      { endToStart := [(1001, 1)]
        sizes := [⟨1000, 1001⟩]
        txChanges := []
        pendingFrees := []
        persist :=
          { state := [⟨1000, 1001⟩]
            reverseBySize := [(⟨1000, 1001⟩, 0)]
            unusedSlots := []
            unplacedQueue := []
            changedSlots := [] } }
    changedHeads := []
    vec := ⟨[], []⟩ }

def c3scenario : Option (List (List Nat)) :=
  ((c3init.mutPush 0 [10]).map Prod.fst).bind fun S1 =>
    ((S1.mutPush 0 [11]).map Prod.fst).bind fun S2 =>
      ((S2.mutPush 0 [12]).map Prod.fst).bind fun S3 =>
        ((S3.mutPush 0 [13]).map Prod.fst).bind fun S4 =>
          (S4.unlinkValue 0 [11]).bind fun S5 =>
            (S5.unlinkValue 0 [12]).bind fun S6 =>
              (S6.unlinkValue 0 [13]).bind fun S7 =>
                S7.mutValues 0

/-- A change to the ordered-map in-memory index (`btreemap.rs` `Change`). -/
inductive BtChange
  | insert (key : Nat) (prevValue : Option EH)
deriving DecidableEq, Repr

/-- The in-memory state of an `index::BTreeMap`; `txChanges` newest
first. -/
structure BtSt where
  index : List (Nat × EH)
  txChanges : List BtChange
deriving DecidableEq, Repr

/-- `BTreeMapApi::insert`. -/
def btInsert (S : Db) (bt : BtSt) (slot k : Nat) (v : List Nat) :
    Option (Db × BtSt × Option (List Nat)) :=
  match lookupA k bt.index with
  | some h =>
    match S.rawReadAt h.pointerToEnd with
    | none => none
    | some existing =>
      if existing ≠ v then
        match S.pushKV slot k v with
        | none => none
        | some (S', h') =>
          some (S', { index := insA k h' bt.index
                      txChanges := BtChange.insert k (some h) :: bt.txChanges },
            some existing)
      else some (S, bt, some existing)
  | none =>
    match S.pushKV slot k v with
    | none => none
    | some (S', h') =>
      some (S', { index := insA k h' bt.index
                  txChanges := BtChange.insert k none :: bt.txChanges }, none)

def w9S : Db :=
  { pageBuf := List.replicate 128 0
    file := List.replicate 128 0 ++ [0, 7, 1, 42]
    fs := c3init.fs
    changedHeads := []
    vec := ⟨[], []⟩ }

def w9bt : BtSt := ⟨[(7, ⟨1, 0, 1⟩)], []⟩

def w10S : Db :=
  { pageBuf := List.replicate 128 0
    file := List.replicate 128 0 ++ [0, 1, 42]
    fs := c3init.fs
    changedHeads := []
    vec := ⟨[2], []⟩ }

def w1S : Db :=
  { pageBuf := List.replicate 128 0
    file := List.replicate 128 0 ++ List.replicate 12 7
    fs :=
      { endToStart := [(5, 3), (13, 10)]
        sizes := [⟨2, 5⟩, ⟨3, 13⟩]
        txChanges := []
        pendingFrees := []
        persist :=
          { state := [⟨3, 13⟩]
            reverseBySize := [(⟨3, 13⟩, 0)]
            unusedSlots := []
            unplacedQueue := [⟨2, 5⟩]
            changedSlots := [] } }
    changedHeads := []
    vec := ⟨[], []⟩ }

def w1ops : List DOp := [DOp.push 0 [9]]

def w1S2 : Db := (executeErr w1S w1ops).getD w1S




/-! ### Lemmas about the sorted-list embedding of `BTreeSet` -/

section SetLemmas

variable [LinearOrder α] [DecidableEq α]

theorem mem_ins {x y : α} {l : List α} : y ∈ ins x l ↔ y = x ∨ y ∈ l := by
  induction l with
  | nil => simp [ins]
  | cons a as ih =>
    simp only [ins]
    split
    · simp [List.mem_cons]
    · split
      · subst_vars
        simp only [List.mem_cons]
        constructor
        · rintro (h | h) <;> simp [h]
        · rintro (h | h | h) <;> simp [h]
      · simp only [List.mem_cons, ih]
        tauto

theorem sorted_ins {x : α} {l : List α} (h : SortedL l) : SortedL (ins x l) := by
  induction l with
  | nil => simp [ins, SortedL]
  | cons a as ih =>
    simp only [SortedL, List.pairwise_cons] at h
    simp only [ins]
    split
    · exact List.Pairwise.cons
        (by intro b hb; rcases List.mem_cons.mp hb with h' | h'
            · exact h' ▸ ‹x < a›
            · exact lt_trans ‹x < a› (h.1 b h'))
        (List.Pairwise.cons h.1 h.2)
    · split
      · subst_vars; exact List.Pairwise.cons h.1 h.2
      · refine List.Pairwise.cons ?_ (ih h.2)
        intro b hb
        rcases mem_ins.mp hb with h' | h'
        · subst h'
          rcases lt_trichotomy a b with hlt | heq | hgt
          · exact hlt
          · exact absurd heq.symm ‹¬ b = a›
          · exact absurd hgt ‹¬ b < a›
        · exact h.1 b h'

theorem ers_sublist (x : α) (l : List α) : List.Sublist (ers x l) l := by
  induction l with
  | nil => simp [ers]
  | cons a as ih =>
    simp only [ers]
    split
    · exact List.sublist_cons_self _ _
    · exact List.Sublist.cons₂ a ih

theorem sorted_ers {x : α} {l : List α} (h : SortedL l) : SortedL (ers x l) :=
  List.Pairwise.sublist (ers_sublist x l) h

theorem mem_of_mem_ers {x y : α} {l : List α} (h : y ∈ ers x l) : y ∈ l :=
  (ers_sublist x l).subset h

theorem ers_ins_of_not_mem {x : α} {l : List α} (h : x ∉ l) : ers x (ins x l) = l := by
  induction l with
  | nil => simp [ins, ers]
  | cons a as ih =>
    have hxa : x ≠ a := fun he => h (he ▸ List.mem_cons_self _ _)
    have hxas : x ∉ as := fun hm => h (List.mem_cons_of_mem _ hm)
    simp only [ins]
    rcases lt_trichotomy x a with hlt | heq | hgt
    · rw [if_pos hlt]
      simp [ers]
    · exact absurd heq hxa
    · rw [if_neg (not_lt_of_gt hgt), if_neg hxa]
      simp only [ers]
      rw [if_neg hxa, ih hxas]

theorem ins_ers_of_mem {x : α} {l : List α} (hs : SortedL l) (h : x ∈ l) :
    ins x (ers x l) = l := by
  induction l with
  | nil => simp at h
  | cons a as ih =>
    simp only [SortedL, List.pairwise_cons] at hs
    simp only [ers]
    by_cases hxa : x = a
    · subst hxa
      rw [if_pos rfl]
      cases as with
      | nil => simp [ins]
      | cons b bs =>
        have hab : x < b := hs.1 b (List.mem_cons_self _ _)
        simp [ins, hab]
    · rw [if_neg hxa]
      have hxas : x ∈ as := by
        rcases List.mem_cons.mp h with h' | h'
        · exact absurd h' hxa
        · exact h'
      have hax : a < x := by
        have := hs.1 x hxas
        exact this
      simp only [ins]
      rw [if_neg (by exact not_lt_of_gt hax), if_neg hxa]
      rw [ih hs.2 hxas]

theorem mem_ers_of_ne {x y : α} {l : List α} (hm : y ∈ l) (hne : y ≠ x) :
    y ∈ ers x l := by
  induction l with
  | nil => simp at hm
  | cons a as ih =>
    simp only [ers]
    split
    · subst_vars
      rcases List.mem_cons.mp hm with h' | h'
      · exact absurd h' hne
      · exact h'
    · rcases List.mem_cons.mp hm with h' | h'
      · exact h' ▸ List.mem_cons_self _ _
      · exact List.mem_cons_of_mem _ (ih h')

end SetLemmas

/-! ### Lemmas about the sorted-association-list embedding of `BTreeMap` -/

section MapLemmas

variable [LinearOrder α] [DecidableEq α] {β : Type}

theorem lookupA_insA_self {k : α} {v : β} {m : List (α × β)} :
    lookupA k (insA k v m) = some v := by
  induction m with
  | nil => simp [insA, lookupA]
  | cons kv rest ih =>
    simp only [insA]
    split
    · simp [lookupA]
    · split
      · simp [lookupA]
      · have hk : k ≠ kv.1 := ‹¬ k = kv.1›
        simp only [lookupA]
        rw [if_neg hk]
        exact ih

theorem lookupA_insA_ne {k k' : α} {v : β} {m : List (α × β)} (h : k' ≠ k) :
    lookupA k' (insA k v m) = lookupA k' m := by
  induction m with
  | nil => simp [insA, lookupA, h]
  | cons kv rest ih =>
    simp only [insA]
    split
    · simp only [lookupA]
      rw [if_neg h]
    · split
      · simp only [lookupA]
        rw [if_neg h, if_neg (by rw [← ‹k = kv.1›]; exact h)]
      · simp only [lookupA]
        split
        · rfl
        · exact ih

theorem ersA_insA_of_not_mem {k : α} {v : β} {m : List (α × β)}
    (h : lookupA k m = none) : ersA k (insA k v m) = m := by
  induction m with
  | nil => simp [insA, ersA]
  | cons kv rest ih =>
    simp only [lookupA] at h
    split at h
    · exact absurd h (by simp)
    · have hk : k ≠ kv.1 := ‹¬ k = kv.1›
      simp only [insA]
      rcases lt_trichotomy k kv.1 with hlt | heq | hgt
      · rw [if_pos hlt]
        simp [ersA]
      · exact absurd heq hk
      · rw [if_neg (not_lt_of_gt hgt), if_neg hk]
        simp only [ersA]
        rw [if_neg hk, ih h]

theorem ersA_sublist (k : α) (m : List (α × β)) : List.Sublist (ersA k m) m := by
  induction m with
  | nil => simp [ersA]
  | cons kv rest ih =>
    simp only [ersA]
    split
    · exact List.sublist_cons_self _ _
    · exact List.Sublist.cons₂ kv ih

theorem sortedKeys_ersA {k : α} {m : List (α × β)} (h : SortedKeys m) :
    SortedKeys (ersA k m) :=
  List.Pairwise.sublist (ersA_sublist k m) h

theorem mem_of_mem_ersA {k : α} {kv : α × β} {m : List (α × β)} (h : kv ∈ ersA k m) :
    kv ∈ m :=
  (ersA_sublist k m).subset h

theorem mem_ersA_of_ne {k : α} {kv : α × β} {m : List (α × β)} (hm : kv ∈ m)
    (hne : kv.1 ≠ k) : kv ∈ ersA k m := by
  induction m with
  | nil => simp at hm
  | cons a rest ih =>
    simp only [ersA]
    split
    · subst_vars
      rcases List.mem_cons.mp hm with h' | h'
      · exact absurd (by rw [h']) hne
      · exact h'
    · rcases List.mem_cons.mp hm with h' | h'
      · exact h' ▸ List.mem_cons_self _ _
      · exact List.mem_cons_of_mem _ (ih h')

theorem mem_insA_elim {k : α} {v : β} {kv : α × β} {m : List (α × β)}
    (hb : kv ∈ insA k v m) : kv.1 = k ∨ kv ∈ m := by
  induction m with
  | nil =>
    simp only [insA, List.mem_singleton] at hb
    exact Or.inl (by rw [hb])
  | cons c cs ih =>
    simp only [insA] at hb
    split at hb
    · rcases List.mem_cons.mp hb with h' | h'
      · exact Or.inl (by rw [h'])
      · exact Or.inr h'
    · split at hb
      · rcases List.mem_cons.mp hb with h' | h'
        · exact Or.inl (by rw [h', ‹k = c.1›])
        · exact Or.inr (List.mem_cons_of_mem _ h')
      · rcases List.mem_cons.mp hb with h' | h'
        · exact Or.inr (h' ▸ List.mem_cons_self _ _)
        · rcases ih h' with h'' | h''
          · exact Or.inl h''
          · exact Or.inr (List.mem_cons_of_mem _ h'')

theorem sortedKeys_insA {k : α} {v : β} {m : List (α × β)} (h : SortedKeys m) :
    SortedKeys (insA k v m) := by
  induction m with
  | nil => simp [insA, SortedKeys]
  | cons kv rest ih =>
    simp only [SortedKeys, List.pairwise_cons] at h
    simp only [insA]
    split
    · refine List.Pairwise.cons ?_ (List.Pairwise.cons h.1 h.2)
      intro b hb
      rcases List.mem_cons.mp hb with h' | h'
      · exact h' ▸ ‹k < kv.1›
      · exact lt_trans ‹k < kv.1› (h.1 b h')
    · split
      · refine List.Pairwise.cons ?_ h.2
        intro b hb
        rw [‹k = kv.1›]
        exact h.1 b hb
      · have hgtk : kv.1 < k := by
          rcases lt_trichotomy k kv.1 with h3 | h3 | h3
          · exact absurd h3 ‹¬ k < kv.1›
          · exact absurd h3 ‹¬ k = kv.1›
          · exact h3
        refine List.Pairwise.cons ?_ (ih h.2)
        intro b hb
        rcases mem_insA_elim hb with h' | h'
        · exact h' ▸ hgtk
        · exact h.1 b h'

theorem lookupA_mem {k : α} {v : β} {m : List (α × β)}
    (h : lookupA k m = some v) : (k, v) ∈ m := by
  induction m with
  | nil => simp [lookupA] at h
  | cons kv rest ih =>
    simp only [lookupA] at h
    split at h
    · obtain rfl : kv.2 = v := by simpa using h
      subst_vars
      exact List.mem_cons_self _ _
    · exact List.mem_cons_of_mem _ (ih h)

theorem mem_lookupA {k : α} {v : β} {m : List (α × β)} (hs : SortedKeys m)
    (h : (k, v) ∈ m) : lookupA k m = some v := by
  induction m with
  | nil => simp at h
  | cons kv rest ih =>
    simp only [SortedKeys, List.pairwise_cons] at hs
    simp only [lookupA]
    rcases List.mem_cons.mp h with h' | h'
    · rw [← h']
      simp
    · have : kv.1 < k := hs.1 (k, v) h'
      rw [if_neg (ne_of_gt this)]
      exact ih hs.2 h'

theorem lookupA_eq_none_iff {k : α} {m : List (α × β)} :
    lookupA k m = none ↔ ∀ kv ∈ m, kv.1 ≠ k := by
  induction m with
  | nil => simp [lookupA]
  | cons kv rest ih =>
    simp only [lookupA]
    split
    · simp only [reduceCtorEq, false_iff, not_forall]
      exact ⟨kv, List.mem_cons_self _ _, by simp [‹k = kv.1›.symm]⟩
    · rw [ih]
      constructor
      · intro h kv' h'
        rcases List.mem_cons.mp h' with h'' | h''
        · rw [h'']
          exact fun he => ‹¬ k = kv.1› he.symm
        · exact h kv' h''
      · intro h kv' h'
        exact h kv' (List.mem_cons_of_mem _ h')

theorem lookupA_ersA_ne {k k' : α} {m : List (α × β)} (h : k' ≠ k) :
    lookupA k' (ersA k m) = lookupA k' m := by
  induction m with
  | nil => simp [ersA]
  | cons kv rest ih =>
    simp only [ersA, lookupA]
    split
    · rw [if_neg (by rw [‹k = kv.1›] at h; exact h)]
    · simp only [lookupA]
      split
      · rfl
      · exact ih

theorem lookupA_ersA_self {k : α} {m : List (α × β)} (hs : SortedKeys m) :
    lookupA k (ersA k m) = none := by
  induction m with
  | nil => simp [ersA, lookupA]
  | cons kv rest ih =>
    simp only [SortedKeys, List.pairwise_cons] at hs
    simp only [ersA]
    split
    · rw [lookupA_eq_none_iff]
      intro kv' h'
      have := hs.1 kv' h'
      rw [← ‹k = kv.1›] at this
      exact ne_of_gt this
    · simp only [lookupA]
      rw [if_neg ‹¬ k = kv.1›]
      exact ih hs.2

theorem insA_ersA_of_lookup {k : α} {v : β} {m : List (α × β)} (hs : SortedKeys m)
    (h : lookupA k m = some v) : insA k v (ersA k m) = m := by
  induction m with
  | nil => simp [lookupA] at h
  | cons kv rest ih =>
    simp only [SortedKeys, List.pairwise_cons] at hs
    simp only [lookupA] at h
    simp only [ersA]
    split at h
    · obtain rfl : kv.2 = v := by simpa using h
      rw [if_pos ‹k = kv.1›]
      cases rest with
      | nil =>
        simp [insA, ‹k = kv.1›]
      | cons b bs =>
        have hkb : k < b.1 := by
          rw [‹k = kv.1›]
          exact hs.1 b (List.mem_cons_self _ _)
        simp only [insA]
        rw [if_pos hkb, ‹k = kv.1›]
    · have hk : ¬ k = kv.1 := ‹¬ k = kv.1›
      rw [if_neg hk]
      have hkvk : kv.1 < k := hs.1 (k, v) (lookupA_mem h)
      simp only [insA]
      rw [if_neg (not_lt_of_gt hkvk), if_neg hk, ih hs.2 h]

theorem insA_head?_of_min {k : α} {v : β} {m : List (α × β)}
    (h : ∀ kv ∈ m, k < kv.1) : (insA k v m).head? = some (k, v) := by
  cases m with
  | nil => simp [insA]
  | cons kv rest =>
    simp only [insA]
    rw [if_pos (h kv (List.mem_cons_self _ _))]
    rfl

theorem popLast?_eq_append {l : List α} {m : α} {rest : List α}
    (h : popLast? l = some (m, rest)) : l = rest ++ [m] := by
  induction l generalizing rest with
  | nil => simp [popLast?] at h
  | cons a as ih =>
    cases as with
    | nil =>
      simp only [popLast?, Option.some.injEq, Prod.mk.injEq] at h
      rw [← h.1, ← h.2]
      rfl
    | cons b bs =>
      simp only [popLast?, Option.map_eq_some'] at h
      obtain ⟨⟨m', rest'⟩, h1, h2⟩ := h
      obtain ⟨rfl, rfl⟩ : m' = m ∧ a :: rest' = rest := by
        constructor
        · exact congrArg Prod.fst h2
        · exact congrArg Prod.snd h2
      rw [List.cons_append]
      rw [ih h1]

theorem popLast?_none_iff {l : List α} : popLast? l = none ↔ l = [] := by
  induction l with
  | nil => simp [popLast?]
  | cons a as ih =>
    cases as with
    | nil => simp [popLast?]
    | cons b bs =>
      simp only [popLast?, Option.map_eq_none']
      simp [ih]

theorem ins_append_max {m : α} {rest : List α}
    (hs : SortedL (rest ++ [m])) : ins m rest = rest ++ [m] := by
  induction rest with
  | nil => simp [ins]
  | cons a as ih =>
    simp only [SortedL, List.cons_append, List.pairwise_cons] at hs
    have ham : a < m := hs.1 m (by simp)
    simp only [ins, List.cons_append]
    rw [if_neg (not_lt_of_gt ham), if_neg (ne_of_gt ham)]
    rw [ih hs.2]

theorem popLast?_ins_of_max {x : α} {l : List α}
    (hs : SortedL l) (h : ∀ y ∈ l, y < x) : popLast? (ins x l) = some (x, l) := by
  induction l with
  | nil => simp [ins, popLast?]
  | cons a as ih =>
    simp only [SortedL, List.pairwise_cons] at hs
    have hax : a < x := h a (List.mem_cons_self _ _)
    simp only [ins]
    rw [if_neg (not_lt_of_gt hax), if_neg (ne_of_gt hax)]
    have ih' := ih hs.2 (fun y hy => h y (List.mem_cons_of_mem _ hy))
    cases hcase : ins x as with
    | nil =>
      exfalso
      have : x ∈ ins x as := mem_ins.mpr (Or.inl rfl)
      rw [hcase] at this
      simp at this
    | cons c cs =>
      simp only [popLast?]
      rw [← hcase, ih']
      rfl

theorem set_get?_self {l : List α} {n : Nat} {a : α} (h : l.get? n = some a) :
    l.set n a = l := by
  induction l generalizing n with
  | nil => simp [List.set]
  | cons x xs ih =>
    cases n with
    | zero =>
      simp only [List.get?] at h
      obtain rfl : x = a := by simpa using h
      rfl
    | succ n =>
      simp only [List.get?] at h
      simp [List.set, ih h]

theorem get?_set_self {l : List α} {n : Nat} {a : α} (h : n < l.length) :
    (l.set n a).get? n = some a := by
  induction l generalizing n with
  | nil => simp at h
  | cons x xs ih =>
    cases n with
    | zero => rfl
    | succ n =>
      simp only [List.length_cons, Nat.succ_lt_succ_iff] at h
      simpa [List.set] using ih h

theorem get?_set_ne {l : List α} {n m : Nat} {a : α} (h : m ≠ n) :
    (l.set n a).get? m = l.get? m := by
  induction l generalizing n m with
  | nil => simp [List.set]
  | cons x xs ih =>
    cases n with
    | zero =>
      cases m with
      | zero => exact absurd rfl h
      | succ m => rfl
    | succ n =>
      cases m with
      | zero => rfl
      | succ m =>
        simpa [List.set] using ih (fun he => h (by rw [he]))

theorem set_set_same {l : List α} {n : Nat} {a b : α} :
    (l.set n a).set n b = l.set n b := by
  induction l generalizing n with
  | nil => simp [List.set]
  | cons x xs ih =>
    cases n with
    | zero => rfl
    | succ n => simpa [List.set] using ih

theorem mem_enum_get? {x : Nat × α} {l : List α} :
    x ∈ l.enum ↔ l.get? x.1 = some x.2 := by
  rw [List.mem_enum_iff_getElem?, ← List.get?_eq_getElem?]

theorem mem_insA_pair {k : α} {v : β} {kv : α × β} {m : List (α × β)}
    (hb : kv ∈ insA k v m) : kv = (k, v) ∨ kv ∈ m := by
  induction m with
  | nil => simpa [insA] using hb
  | cons c cs ih =>
    simp only [insA] at hb
    split at hb
    · rcases List.mem_cons.mp hb with h' | h'
      · exact Or.inl h'
      · exact Or.inr h'
    · split at hb
      · rcases List.mem_cons.mp hb with h' | h'
        · exact Or.inl h'
        · exact Or.inr (List.mem_cons_of_mem _ h')
      · rcases List.mem_cons.mp hb with h' | h'
        · exact Or.inr (h' ▸ List.mem_cons_self _ _)
        · rcases ih h' with h'' | h''
          · exact Or.inl h''
          · exact Or.inr (List.mem_cons_of_mem _ h'')

theorem not_mem_ers_self {x : α} {l : List α} (hs : SortedL l) :
    x ∉ ers x l := by
  induction l with
  | nil => simp [ers]
  | cons a as ih =>
    simp only [SortedL, List.pairwise_cons] at hs
    simp only [ers]
    by_cases hxa : x = a
    · rw [if_pos hxa]
      intro hmem
      rw [hxa] at hmem
      exact absurd (hs.1 a hmem) (lt_irrefl a)
    · rw [if_neg hxa]
      intro hmem
      rcases List.mem_cons.mp hmem with h' | h'
      · exact hxa h'
      · exact ih hs.2 h'

theorem sortedL_nodup {l : List α} (hs : SortedL l) : l.Nodup :=
  hs.imp ne_of_lt

theorem lt_of_get?_some {l : List α} {n : Nat} {a : α} (h : l.get? n = some a) :
    n < l.length := by
  induction l generalizing n with
  | nil => simp [List.get?] at h
  | cons x xs ih =>
    cases n with
    | zero => simp
    | succ n =>
      simp only [List.get?] at h
      simpa [Nat.succ_lt_succ_iff] using ih h

end MapLemmas

/-! ### Correctness of the persistent snapshot operations -/

namespace PFS

/-- `PersistFreeSpace::add` of an untracked, non-trivial region preserves the
snapshot invariant, extends the tracked set by exactly that region, and keeps
the slot count. -/
theorem add_spec {p q : PFS} {f : Free} (hinv : p.Inv) (hfr : ¬ p.tracked f)
    (hpos : 0 < f.size) (hadd : p.add f = some q) :
    q.Inv ∧ (∀ g, q.tracked g ↔ g = f ∨ p.tracked g) ∧
      q.state.length = p.state.length := by
  obtain ⟨st, rev, un, upq, cs⟩ := p
  obtain ⟨h1, h2, h3, h4, h5, h6, h7, h8, h9⟩ := hinv
  dsimp only at h1 h2 h3 h4 h5 h6 h7 h8 h9
  have hfrev : lookupA f rev = none := by
    rcases hl : lookupA f rev with _ | s
    · rfl
    · exact absurd (Or.inl (by simp [tracked, hl])) hfr
  have hfupq : f ∉ upq := fun hm => hfr (Or.inr hm)
  rcases un with _ | ⟨slot, rest⟩
  · -- no unused slot
    rcases rev with _ | ⟨⟨sm, sl⟩, tl⟩
    · simp [add] at hadd
    · have hsmall : ∀ fs ∈ tl, sm < fs.1 :=
        fun fs hfs => (List.pairwise_cons.mp h1).1 fs hfs
      have hsl : st.get? sl = some sm ∧ 0 < sm.size :=
        h2 (sm, sl) (List.mem_cons_self _ _)
      have hsllen : sl < st.length := lt_of_get?_some hsl.1
      simp only [add, List.head?] at hadd
      by_cases hcmp : sm < f
      · -- the new region displaces the smallest slotted one
        rw [if_pos hcmp] at hadd
        have hq := Option.some.inj hadd
        subst hq
        have hers : ersA sm ((sm, sl) :: tl) = tl := by
          simp [ersA]
        have hfsm : f ≠ sm := ne_of_gt hcmp
        refine ⟨⟨?_, ?_, ?_, ?_, ?_, ?_, ?_, ?_, ?_⟩, ?_, ?_⟩
        · -- sorted reverse index
          simp only [install, hers]
          exact sortedKeys_insA (List.Pairwise.sublist (List.sublist_cons_self _ _) h1)
        · -- reverse index consistent with the slot array
          simp only [install, hers]
          intro fs hfs
          rcases mem_insA_pair hfs with rfl | hfs'
          · exact ⟨get?_set_self hsllen, hpos⟩
          · have hmem : fs ∈ (sm, sl) :: tl := List.mem_cons_of_mem _ hfs'
            have h2fs := h2 fs hmem
            have hne : fs.2 ≠ sl := by
              intro he
              have : fs.1 = sm := by
                have := h2fs.1
                rw [he, hsl.1] at this
                exact (Option.some.inj this).symm
              have : sm < sm := by
                have := hsmall fs hfs'
                rw [‹fs.1 = sm›] at this
                exact this
              exact absurd this (lt_irrefl _)
            rw [get?_set_ne hne]
            exact h2fs
        · -- slot array consistent with reverse index / unused slots
          simp only [install, hers]
          intro e he
          rw [mem_enum_get?] at he
          by_cases hesl : e.1 = sl
          · right
            rw [hesl, get?_set_self hsllen] at he
            have he2 : e.2 = f := (Option.some.inj he).symm
            rw [he2]
            exact ⟨hpos, by rw [hesl]; exact lookupA_insA_self⟩
          · rw [get?_set_ne hesl] at he
            have h3e := h3 e (mem_enum_get?.mpr he)
            rcases h3e with ⟨hnull, hmem⟩ | ⟨hepos, hlook⟩
            · simp at hmem
            · right
              refine ⟨hepos, ?_⟩
              have hef : e.2 ≠ f := by
                intro hef
                rw [hef, hfrev] at hlook
                exact Option.noConfusion hlook
              have hesm : e.2 ≠ sm := by
                intro hesm
                rw [hesm] at hlook
                have : lookupA sm ((sm, sl) :: tl) = some sl := by simp [lookupA]
                rw [this] at hlook
                have : sl = e.1 := Option.some.inj hlook
                exact hesl (this ▸ rfl)
              rw [lookupA_insA_ne hef]
              rw [show lookupA e.2 tl = lookupA e.2 ((sm, sl) :: tl) from by
                simp only [lookupA]
                rw [if_neg hesm]]
              exact hlook
        · -- unused slots distinct
          simp only [install]
          exact List.nodup_nil
        · -- unused slots are NULL
          simp only [install]
          intro s hs
          simp at hs
        · -- unplaced queue sorted
          simp only [install]
          exact sorted_ins h6
        · -- unplaced regions positive and unslotted
          simp only [install, hers]
          intro u hu
          rcases mem_ins.mp hu with rfl | hu'
          · refine ⟨hsl.2, ?_⟩
            rw [lookupA_insA_ne (ne_of_lt hcmp)]
            rw [lookupA_eq_none_iff]
            intro kv hkv he
            have := hsmall kv hkv
            rw [he] at this
            exact absurd this (lt_irrefl _)
          · refine ⟨(h7 u hu').1, ?_⟩
            have huf : u ≠ f := by
              intro he
              exact hfupq (he ▸ hu')
            have husm : u ≠ sm :=
              ne_of_lt ((h8 u hu') (sm, sl) (List.mem_cons_self _ _))
            rw [lookupA_insA_ne huf]
            rw [lookupA_eq_none_iff]
            intro kv hkv he
            have h7u := (h7 u hu').2
            rw [lookupA_eq_none_iff] at h7u
            exact h7u kv (List.mem_cons_of_mem _ hkv) he
        · -- unplaced strictly below slotted
          simp only [install, hers]
          intro u hu fs hfs
          rcases mem_insA_pair hfs with rfl | hfs'
          · rcases mem_ins.mp hu with rfl | hu'
            · exact hcmp
            · exact lt_trans ((h8 u hu') (sm, sl) (List.mem_cons_self _ _)) hcmp
          · rcases mem_ins.mp hu with rfl | hu'
            · exact hsmall fs hfs'
            · exact (h8 u hu') fs (List.mem_cons_of_mem _ hfs')
        · -- queue empty while slots unused
          simp only [install]
          intro hne
          exact absurd rfl hne
        · -- tracked set grows by exactly f
          intro g
          simp only [tracked, install, hers]
          constructor
          · rintro (hlook | hmem)
            · by_cases hgf : g = f
              · exact Or.inl hgf
              · rw [lookupA_insA_ne hgf] at hlook
                right
                left
                simp only [lookupA]
                by_cases hgsm : g = sm
                · rw [if_pos hgsm]
                  simp
                · rw [if_neg hgsm]
                  exact hlook
            · rcases mem_ins.mp hmem with rfl | hmem'
              · right
                left
                simp [lookupA]
              · exact Or.inr (Or.inr hmem')
          · rintro (rfl | hlook | hmem)
            · exact Or.inl (by rw [lookupA_insA_self]; simp)
            · simp only [lookupA] at hlook
              by_cases hgsm : g = sm
              · exact Or.inr (mem_ins.mpr (Or.inl hgsm))
              · rw [if_neg hgsm] at hlook
                left
                have hgf : g ≠ f := by
                  intro he
                  rw [he] at hlook
                  have : lookupA f tl = none := by
                    rw [lookupA_eq_none_iff]
                    intro kv hkv hkvf
                    rw [lookupA_eq_none_iff] at hfrev
                    exact hfrev kv (List.mem_cons_of_mem _ hkv) hkvf
                  rw [this] at hlook
                  exact hlook rfl
                rw [lookupA_insA_ne hgf]
                exact hlook
            · exact Or.inr (mem_ins.mpr (Or.inr hmem))
        · simp [install]
      · -- the new region joins the unplaced queue
        rw [if_neg hcmp] at hadd
        have hq := Option.some.inj hadd
        subst hq
        have hfsm : f ≠ sm := by
          intro he
          rw [he] at hfrev
          simp [lookupA] at hfrev
        have hflt : f < sm := lt_of_le_of_ne (le_of_not_lt hcmp) hfsm
        refine ⟨⟨h1, h2, ?_, h4, h5, sorted_ins h6, ?_, ?_, ?_⟩, ?_, rfl⟩
        · exact h3
        · intro u hu
          rcases mem_ins.mp hu with rfl | hu'
          · exact ⟨hpos, hfrev⟩
          · exact h7 u hu'
        · intro u hu fs hfs
          rcases mem_ins.mp hu with rfl | hu'
          · rcases List.mem_cons.mp hfs with rfl | hfs'
            · exact hflt
            · exact lt_trans hflt (hsmall fs hfs')
          · exact (h8 u hu') fs hfs
        · intro hne
          exact absurd rfl hne
        · intro g
          simp only [tracked]
          constructor
          · rintro (hlook | hmem)
            · exact Or.inr (Or.inl hlook)
            · rcases mem_ins.mp hmem with rfl | hmem'
              · exact Or.inl rfl
              · exact Or.inr (Or.inr hmem')
          · rintro (rfl | hlook | hmem)
            · exact Or.inr (mem_ins.mpr (Or.inl rfl))
            · exact Or.inl hlook
            · exact Or.inr (mem_ins.mpr (Or.inr hmem))
  · -- an unused slot is available
    have hupq0 : upq = [] := h9 (by simp)
    subst hupq0
    simp only [add] at hadd
    have hq := Option.some.inj hadd
    subst hq
    have hslotNull : st.get? slot = some Free.NULL := h5 slot (List.mem_cons_self _ _)
    have hslotlen : slot < st.length := lt_of_get?_some hslotNull
    have hslotrest : slot ∉ rest := (List.nodup_cons.mp h4).1
    refine ⟨⟨?_, ?_, ?_, ?_, ?_, ?_, ?_, ?_, ?_⟩, ?_, ?_⟩
    · simp only [install]
      exact sortedKeys_insA h1
    · simp only [install]
      intro fs hfs
      rcases mem_insA_pair hfs with rfl | hfs'
      · exact ⟨get?_set_self hslotlen, hpos⟩
      · have h2fs := h2 fs hfs'
        have hne : fs.2 ≠ slot := by
          intro he
          have hnulleq : Free.NULL = fs.1 := by
            have hx := h2fs.1
            rw [he, hslotNull] at hx
            exact Option.some.inj hx
          have hp := h2fs.2
          rw [← hnulleq] at hp
          simp [Free.NULL] at hp
        rw [get?_set_ne hne]
        exact h2fs
    · simp only [install]
      intro e he
      rw [mem_enum_get?] at he
      by_cases hesl : e.1 = slot
      · right
        rw [hesl, get?_set_self hslotlen] at he
        have he2 : e.2 = f := (Option.some.inj he).symm
        rw [he2]
        exact ⟨hpos, by rw [hesl]; exact lookupA_insA_self⟩
      · rw [get?_set_ne hesl] at he
        have h3e := h3 e (mem_enum_get?.mpr he)
        rcases h3e with ⟨hnull, hmem⟩ | ⟨hepos, hlook⟩
        · left
          refine ⟨hnull, ?_⟩
          rcases List.mem_cons.mp hmem with he' | he'
          · exact absurd he' hesl
          · exact he'
        · right
          refine ⟨hepos, ?_⟩
          have hef : e.2 ≠ f := by
            intro hef
            rw [hef, hfrev] at hlook
            exact Option.noConfusion hlook
          rw [lookupA_insA_ne hef]
          exact hlook
    · simp only [install]
      exact (List.nodup_cons.mp h4).2
    · simp only [install]
      intro s hs
      rw [get?_set_ne (by intro he; exact hslotrest (he ▸ hs))]
      exact h5 s (List.mem_cons_of_mem _ hs)
    · simp only [install]
      exact h6
    · simp only [install]
      intro u hu
      simp at hu
    · simp only [install]
      intro u hu
      simp at hu
    · intro hne
      simp [install]
    · intro g
      simp only [tracked, install]
      constructor
      · rintro (hlook | hmem)
        · by_cases hgf : g = f
          · exact Or.inl hgf
          · rw [lookupA_insA_ne hgf] at hlook
            exact Or.inr (Or.inl hlook)
        · simp at hmem
      · rintro (rfl | hlook | hmem)
        · exact Or.inl (by rw [lookupA_insA_self]; simp)
        · by_cases hgf : g = f
          · exact Or.inl (by rw [hgf, lookupA_insA_self]; simp)
          · exact Or.inl (by rw [lookupA_insA_ne hgf]; exact hlook)
        · simp at hmem
    · simp [install]

/-- `PersistFreeSpace::remove` of a region preserves the snapshot invariant,
succeeds only on tracked regions, shrinks the tracked set by exactly that
region, and keeps the slot count. -/
theorem remove_spec {p q : PFS} {f : Free} (hinv : p.Inv) (hrem : p.remove f = some q) :
    q.Inv ∧ p.tracked f ∧ (∀ g, q.tracked g ↔ g ≠ f ∧ p.tracked g) ∧
      q.state.length = p.state.length := by
  obtain ⟨st, rev, un, upq, cs⟩ := p
  obtain ⟨h1, h2, h3, h4, h5, h6, h7, h8, h9⟩ := hinv
  dsimp only at h1 h2 h3 h4 h5 h6 h7 h8 h9
  rcases hlook : lookupA f rev with _ | slot
  · -- the region is not slotted: it must sit in the unplaced queue
    simp only [remove] at hrem
    rw [hlook] at hrem
    by_cases hmem : f ∈ upq
    · rw [if_pos hmem] at hrem
      have hq := Option.some.inj hrem
      subst hq
      have hfree := h7 f hmem
      refine ⟨⟨h1, h2, h3, h4, h5, sorted_ers h6, ?_, ?_, ?_⟩, Or.inr hmem, ?_, rfl⟩
      · intro u hu
        exact h7 u (mem_of_mem_ers hu)
      · intro u hu
        exact h8 u (mem_of_mem_ers hu)
      · intro hne
        rw [h9 hne]
        simp [ers]
      · intro g
        simp only [tracked]
        constructor
        · rintro (hg | hg)
          · refine ⟨?_, Or.inl hg⟩
            intro he
            rw [he, hlook] at hg
            exact hg rfl
          · refine ⟨?_, Or.inr (mem_of_mem_ers hg)⟩
            intro he
            rw [he] at hg
            exact not_mem_ers_self h6 hg
        · rintro ⟨hne, hg | hg⟩
          · exact Or.inl hg
          · exact Or.inr (mem_ers_of_ne hg hne)
    · rw [if_neg hmem] at hrem
      exact Option.noConfusion hrem
  · -- the region occupies a slot
    have hfmem : (f, slot) ∈ rev := lookupA_mem hlook
    have hfst := h2 (f, slot) hfmem
    have hslotlen : slot < st.length := lt_of_get?_some hfst.1
    simp only [remove] at hrem
    rw [hlook] at hrem
    simp only [] at hrem
    rcases hpop : popLast? upq with _ | ⟨u, rest⟩
    · -- empty unplaced queue: just clear the slot
      have hupq0 : upq = [] := popLast?_none_iff.mp hpop
      subst hupq0
      rw [hpop] at hrem
      have hq := Option.some.inj hrem
      subst hq
      have hslotun : slot ∉ un := by
        intro hin
        have := h5 slot hin
        rw [hfst.1] at this
        have : f = Free.NULL := Option.some.inj this
        rw [this] at hfst
        simp [Free.NULL] at hfst
      refine ⟨⟨?_, ?_, ?_, ?_, ?_, ?_, ?_, ?_, ?_⟩, Or.inl (by rw [hlook]; simp), ?_, ?_⟩
      · exact sortedKeys_ersA h1
      · intro fs hfs
        have hfs' := mem_of_mem_ersA hfs
        have h2fs := h2 fs hfs'
        have hne : fs.2 ≠ slot := by
          intro he
          have : fs.1 = f := by
            have hx := h2fs.1
            rw [he, hfst.1] at hx
            exact (Option.some.inj hx).symm
          have : lookupA fs.1 (ersA f rev) = some fs.2 :=
            mem_lookupA (sortedKeys_ersA h1) hfs
          rw [‹fs.1 = f›, lookupA_ersA_self h1] at this
          exact Option.noConfusion this
        rw [get?_set_ne hne]
        exact h2fs
      · intro e he
        rw [mem_enum_get?] at he
        by_cases hesl : e.1 = slot
        · left
          rw [hesl, get?_set_self hslotlen] at he
          have he2 : e.2 = Free.NULL := (Option.some.inj he).symm
          exact ⟨he2, by rw [hesl]; exact List.mem_cons_self _ _⟩
        · rw [get?_set_ne hesl] at he
          have h3e := h3 e (mem_enum_get?.mpr he)
          rcases h3e with ⟨hnull, hmem⟩ | ⟨hepos, hlooke⟩
          · exact Or.inl ⟨hnull, List.mem_cons_of_mem _ hmem⟩
          · right
            refine ⟨hepos, ?_⟩
            have hef : e.2 ≠ f := by
              intro hef
              rw [hef, hlook] at hlooke
              exact hesl (Option.some.inj hlooke).symm
            rw [lookupA_ersA_ne hef]
            exact hlooke
      · exact List.nodup_cons.mpr ⟨hslotun, h4⟩
      · intro s hs
        rcases List.mem_cons.mp hs with rfl | hs'
        · exact get?_set_self hslotlen
        · rw [get?_set_ne (by intro he; exact hslotun (he ▸ hs'))]
          exact h5 s hs'
      · exact h6
      · intro u hu
        simp at hu
      · intro u hu
        simp at hu
      · intro hne
        rfl
      · intro g
        simp only [tracked]
        constructor
        · rintro (hg | hg)
          · have hgf : g ≠ f := by
              intro he
              rw [he, lookupA_ersA_self h1] at hg
              exact hg rfl
            by_cases hgf2 : g = f
            · exact absurd hgf2 hgf
            · rw [lookupA_ersA_ne hgf2] at hg
              exact ⟨hgf, Or.inl hg⟩
          · simp at hg
        · rintro ⟨hne, hg | hg⟩
          · exact Or.inl (by rw [lookupA_ersA_ne hne]; exact hg)
          · simp at hg
      · simp
    · -- promote the largest unplaced region into the freed slot
      have hupq : upq = rest ++ [u] := popLast?_eq_append hpop
      have hun0 : un = [] := by
        by_contra hne
        rw [h9 hne] at hupq
        exact absurd hupq.symm (by simp)
      subst hun0
      rw [hpop] at hrem
      simp only [add] at hrem
      have hq := Option.some.inj hrem
      subst hq
      have humem : u ∈ upq := by rw [hupq]; simp
      have hu7 := h7 u humem
      have hurest : ∀ x ∈ rest, x < u := by
        intro x hx
        have := h6
        rw [hupq] at this
        have hpw := (List.pairwise_append.mp this).2.2
        exact hpw x hx u (List.mem_singleton_self u)
      have hrestsorted : SortedL rest := by
        have := h6
        rw [hupq] at this
        exact (List.pairwise_append.mp this).1
      have huf : u ≠ f := by
        intro he
        rw [he, hlook] at hu7
        exact Option.noConfusion hu7.2
      refine ⟨⟨?_, ?_, ?_, ?_, ?_, ?_, ?_, ?_, ?_⟩, Or.inl (by rw [hlook]; simp), ?_, ?_⟩
      · simp only [install]
        exact sortedKeys_insA (sortedKeys_ersA h1)
      · simp only [install]
        intro fs hfs
        rw [set_set_same]
        rcases mem_insA_pair hfs with rfl | hfs'
        · exact ⟨get?_set_self hslotlen, hu7.1⟩
        · have hfs'' := mem_of_mem_ersA hfs'
          have h2fs := h2 fs hfs''
          have hne : fs.2 ≠ slot := by
            intro he
            have : fs.1 = f := by
              have hx := h2fs.1
              rw [he, hfst.1] at hx
              exact (Option.some.inj hx).symm
            have : lookupA fs.1 (ersA f rev) = some fs.2 :=
              mem_lookupA (sortedKeys_ersA h1) hfs'
            rw [‹fs.1 = f›, lookupA_ersA_self h1] at this
            exact Option.noConfusion this
          rw [get?_set_ne hne]
          exact h2fs
      · simp only [install]
        intro e he
        rw [mem_enum_get?, set_set_same] at he
        by_cases hesl : e.1 = slot
        · right
          rw [hesl, get?_set_self hslotlen] at he
          have he2 : e.2 = u := (Option.some.inj he).symm
          rw [he2]
          exact ⟨hu7.1, by rw [hesl]; exact lookupA_insA_self⟩
        · rw [get?_set_ne hesl] at he
          have h3e := h3 e (mem_enum_get?.mpr he)
          rcases h3e with ⟨hnull, hmem⟩ | ⟨hepos, hlooke⟩
          · simp at hmem
          · right
            refine ⟨hepos, ?_⟩
            have hef : e.2 ≠ f := by
              intro hef
              rw [hef, hlook] at hlooke
              exact hesl (Option.some.inj hlooke).symm
            have heu : e.2 ≠ u := by
              intro heu
              rw [heu, hu7.2] at hlooke
              exact Option.noConfusion hlooke
            rw [lookupA_insA_ne heu, lookupA_ersA_ne hef]
            exact hlooke
      · simp only [install]
        exact List.nodup_nil
      · simp only [install]
        intro s hs
        simp at hs
      · simp only [install]
        exact hrestsorted
      · simp only [install]
        intro x hx
        have hxmem : x ∈ upq := by rw [hupq]; exact List.mem_append_left _ hx
        have hx7 := h7 x hxmem
        refine ⟨hx7.1, ?_⟩
        have hxu : x ≠ u := ne_of_lt (hurest x hx)
        have hxf : x ≠ f := by
          intro he
          rw [he, hlook] at hx7
          exact Option.noConfusion hx7.2
        rw [lookupA_insA_ne hxu, lookupA_ersA_ne hxf]
        exact hx7.2
      · simp only [install]
        intro x hx fs hfs
        have hxmem : x ∈ upq := by rw [hupq]; exact List.mem_append_left _ hx
        rcases mem_insA_pair hfs with rfl | hfs'
        · exact hurest x hx
        · exact (h8 x hxmem) fs (mem_of_mem_ersA hfs')
      · simp only [install]
        intro hne
        exact absurd rfl hne
      · intro g
        simp only [tracked, install]
        constructor
        · rintro (hg | hg)
          · by_cases hgu : g = u
            · exact ⟨hgu ▸ huf, Or.inr (hgu ▸ humem)⟩
            · rw [lookupA_insA_ne hgu] at hg
              have hgf : g ≠ f := by
                intro he
                rw [he, lookupA_ersA_self h1] at hg
                exact hg rfl
              rw [lookupA_ersA_ne hgf] at hg
              exact ⟨hgf, Or.inl hg⟩
          · have hgmem : g ∈ upq := by rw [hupq]; exact List.mem_append_left _ hg
            have hg7 := h7 g hgmem
            refine ⟨?_, Or.inr hgmem⟩
            intro he
            rw [he, hlook] at hg7
            exact Option.noConfusion hg7.2
        · rintro ⟨hne, hg | hg⟩
          · left
            have hgu : g ≠ u := by
              intro he
              rw [he, hu7.2] at hg
              exact hg rfl
            rw [lookupA_insA_ne hgu, lookupA_ersA_ne hne]
            exact hg
          · rw [hupq] at hg
            rcases List.mem_append.mp hg with hg' | hg'
            · exact Or.inr hg'
            · left
              have : g = u := List.mem_singleton.mp hg'
              rw [this, lookupA_insA_self]
              simp
      · simp only [install]
        rw [set_set_same]
        simp


/-- Inserting a key below every key of a sorted association list prepends. -/
theorem insA_cons_of_min {α β : Type} [LinearOrder α] {k : α} {v : β} {m : List (α × β)}
    (h : ∀ kv ∈ m, k < kv.1) :
    insA k v m = (k, v) :: m := by
  cases m with
  | nil => rfl
  | cons kv rest =>
    simp only [insA]
    rw [if_pos (h kv (List.mem_cons_self _ _))]

theorem add_congr {a b : PFS} (h : a.core = b.core) (f : Free) :
    Option.map core (a.add f) = Option.map core (b.add f) := by
  obtain ⟨st, rev, un, upq, cs⟩ := a
  obtain ⟨st', rev', un', upq', cs'⟩ := b
  simp only [core, Prod.mk.injEq] at h
  obtain ⟨rfl, rfl, rfl, rfl⟩ := h
  rcases un with _ | ⟨slot, rest⟩
  · rcases rev with _ | ⟨⟨sm, sl⟩, tl⟩
    · simp [add]
    · simp only [add, List.head?]
      split
      · simp [install, core]
      · simp [core]
  · simp [add, install, core]

/-- Same congruence property for `PersistFreeSpace::remove`. -/
theorem remove_congr {a b : PFS} (h : a.core = b.core) (f : Free) :
    Option.map core (a.remove f) = Option.map core (b.remove f) := by
  obtain ⟨st, rev, un, upq, cs⟩ := a
  obtain ⟨st', rev', un', upq', cs'⟩ := b
  simp only [core, Prod.mk.injEq] at h
  obtain ⟨rfl, rfl, rfl, rfl⟩ := h
  simp only [remove]
  rcases hlook : lookupA f rev with _ | slot
  · by_cases hmem : f ∈ upq
    · simp [hmem, core]
    · simp [hmem]
  · simp only []
    rcases hpop : popLast? upq with _ | ⟨u, rest'⟩
    · simp [core]
    · exact add_congr (by simp [core]) u

/-- Undoing an `add` of an untracked region: the subsequent `remove` of the
same region succeeds and restores every component but `changedSlots`. -/
theorem remove_add_exact {p q : PFS} {f : Free} (hinv : p.Inv) (hfr : ¬ p.tracked f)
    (hadd : p.add f = some q) :
    ∃ q', q.remove f = some q' ∧ q'.core = p.core := by
  obtain ⟨st, rev, un, upq, cs⟩ := p
  obtain ⟨h1, h2, h3, h4, h5, h6, h7, h8, h9⟩ := hinv
  dsimp only at h1 h2 h3 h4 h5 h6 h7 h8 h9
  have hfrev : lookupA f rev = none := by
    rcases hl : lookupA f rev with _ | s
    · rfl
    · exact absurd (Or.inl (by simp [tracked, hl])) hfr
  have hfupq : f ∉ upq := fun hm => hfr (Or.inr hm)
  rcases un with _ | ⟨slot, rest⟩
  · rcases rev with _ | ⟨⟨sm, sl⟩, tl⟩
    · simp [add] at hadd
    · have hsmall : ∀ fs ∈ tl, sm < fs.1 :=
        fun fs hfs => (List.pairwise_cons.mp h1).1 fs hfs
      have hsl : st.get? sl = some sm ∧ 0 < sm.size :=
        h2 (sm, sl) (List.mem_cons_self _ _)
      have hflookup : lookupA f tl = none := by
        rw [lookupA_eq_none_iff]
        intro kv hkv he
        rw [lookupA_eq_none_iff] at hfrev
        exact hfrev kv (List.mem_cons_of_mem _ hkv) he
      simp only [add, List.head?] at hadd
      by_cases hcmp : sm < f
      · rw [if_pos hcmp] at hadd
        have hq := Option.some.inj hadd
        subst hq
        have hers : ersA sm ((sm, sl) :: tl) = tl := by simp [ersA]
        simp only [remove, install, hers]
        rw [lookupA_insA_self]
        simp only []
        rw [popLast?_ins_of_max h6
          (fun y hy => (h8 y hy) (sm, sl) (List.mem_cons_self _ _))]
        simp only [add]
        refine ⟨_, rfl, ?_⟩
        have e1 : ((st.set sl f).set sl Free.NULL).set sl sm = st := by
          rw [set_set_same, set_set_same]
          exact set_get?_self hsl.1
        have e2 : insA sm sl (ersA f (insA f sl tl)) = (sm, sl) :: tl := by
          rw [ersA_insA_of_not_mem hflookup]
          exact insA_cons_of_min hsmall
        simp [install, core, e2, set_get?_self hsl.1]
      · rw [if_neg hcmp] at hadd
        have hq := Option.some.inj hadd
        subst hq
        simp only [remove]
        rw [hfrev]
        simp only []
        rw [if_pos (mem_ins.mpr (Or.inl rfl))]
        refine ⟨_, rfl, ?_⟩
        simp [core, ers_ins_of_not_mem hfupq]
  · have hupq0 : upq = [] := h9 (by simp)
    subst hupq0
    simp only [add] at hadd
    have hq := Option.some.inj hadd
    subst hq
    have hslotNull : st.get? slot = some Free.NULL := h5 slot (List.mem_cons_self _ _)
    simp only [remove, install]
    rw [lookupA_insA_self]
    simp only [popLast?]
    refine ⟨_, rfl, ?_⟩
    have e1 : (st.set slot f).set slot Free.NULL = st := by
      rw [set_set_same]
      exact set_get?_self hslotNull
    simp [core, ersA_insA_of_not_mem hfrev, set_get?_self hslotNull]

/-- Undoing a `remove`: the subsequent `add` of the same region succeeds and
restores every component but `changedSlots`.  This is the critical
determinism property called out in the source (`add` is strictly the inverse
of `remove`). -/
theorem add_remove_exact {p q : PFS} {f : Free} (hinv : p.Inv)
    (hn : 1 ≤ p.state.length) (hrem : p.remove f = some q) :
    ∃ q', q.add f = some q' ∧ q'.core = p.core := by
  obtain ⟨st, rev, un, upq, cs⟩ := p
  obtain ⟨h1, h2, h3, h4, h5, h6, h7, h8, h9⟩ := hinv
  dsimp only at h1 h2 h3 h4 h5 h6 h7 h8 h9
  have hn' : 1 ≤ st.length := hn
  rcases hlook : lookupA f rev with _ | slot
  · -- f was unplaced
    simp only [remove] at hrem
    rw [hlook] at hrem
    by_cases hmem : f ∈ upq
    · rw [if_pos hmem] at hrem
      have hq := Option.some.inj hrem
      subst hq
      have hun0 : un = [] := by
        by_contra hne
        rw [h9 hne] at hmem
        simp at hmem
      subst hun0
      have hrevne : rev ≠ [] := by
        intro hrev0
        cases st with
        | nil => simp at hn'
        | cons y ys =>
          have h3e := h3 (0, y) (mem_enum_get?.mpr rfl)
          rcases h3e with ⟨hnull, hmem0⟩ | ⟨hpos0, hlook0⟩
          · simp at hmem0
          · rw [hrev0] at hlook0
            simp [lookupA] at hlook0
      rcases rev with _ | ⟨⟨sm, sl⟩, tl⟩
      · exact absurd rfl hrevne
      · have hflt : f < sm := (h8 f hmem) (sm, sl) (List.mem_cons_self _ _)
        simp only [add, List.head?]
        rw [if_neg (not_lt_of_gt hflt)]
        refine ⟨_, rfl, ?_⟩
        simp [core, ins_ers_of_mem h6 hmem]
    · rw [if_neg hmem] at hrem
      exact Option.noConfusion hrem
  · -- f occupied a slot
    have hfmem : (f, slot) ∈ rev := lookupA_mem hlook
    have hfst := h2 (f, slot) hfmem
    have hslotlen : slot < st.length := lt_of_get?_some hfst.1
    simp only [remove] at hrem
    rw [hlook] at hrem
    simp only [] at hrem
    rcases hpop : popLast? upq with _ | ⟨u, rest⟩
    · have hupq0 : upq = [] := popLast?_none_iff.mp hpop
      subst hupq0
      rw [hpop] at hrem
      have hq := Option.some.inj hrem
      subst hq
      simp only [add, install]
      refine ⟨_, rfl, ?_⟩
      have e1 : (st.set slot Free.NULL).set slot f = st := by
        rw [set_set_same]
        exact set_get?_self hfst.1
      simp [core, insA_ersA_of_lookup h1 hlook, set_get?_self hfst.1]
    · have hupq : upq = rest ++ [u] := popLast?_eq_append hpop
      have hun0 : un = [] := by
        by_contra hne
        rw [h9 hne] at hupq
        exact absurd hupq.symm (by simp)
      subst hun0
      rw [hpop] at hrem
      simp only [add] at hrem
      have hq := Option.some.inj hrem
      subst hq
      have humem : u ∈ upq := by rw [hupq]; simp
      have hu7 := h7 u humem
      have huf : u < f := (h8 u humem) (f, slot) hfmem
      have hulook : lookupA u (ersA f rev) = none := by
        rw [lookupA_ersA_ne (ne_of_lt huf)]
        exact hu7.2
      have hmin : ∀ kv ∈ ersA f rev, u < kv.1 :=
        fun kv hkv => (h8 u humem) kv (mem_of_mem_ersA hkv)
      simp only [add, install, List.head?]
      rw [insA_cons_of_min hmin]
      simp only [List.head?]
      rw [if_pos huf]
      refine ⟨_, rfl, ?_⟩
      have hers : ersA u ((u, slot) :: ersA f rev) = ersA f rev := by
        simp [ersA]
      have e1 : (((st.set slot Free.NULL).set slot u).set slot f) = st := by
        rw [set_set_same, set_set_same]
        exact set_get?_self hfst.1
      have e2 : insA f slot (ersA u ((u, slot) :: ersA f rev)) = rev := by
        rw [hers]
        exact insA_ersA_of_lookup h1 hlook
      have e3 : ins u rest = upq := by
        rw [hupq]
        exact ins_append_max (hupq ▸ h6)
      simp [install, core, e2, e3, set_get?_self hfst.1]

end PFS

/-! ### Free-space manager: invariant and atom lemmas -/

theorem mem_insA_self {α β : Type} [LinearOrder α] {k : α} {v : β} {m : List (α × β)} :
    (k, v) ∈ insA k v m := by
  induction m with
  | nil => simp [insA]
  | cons kv rest ih =>
    simp only [insA]
    split
    · exact List.mem_cons_self _ _
    · split
      · exact List.mem_cons_self _ _
      · exact List.mem_cons_of_mem _ ih

theorem mem_insA_of_ne {α β : Type} [LinearOrder α] {k : α} {v : β} {kv : α × β}
    {m : List (α × β)} (hm : kv ∈ m) (hne : kv.1 ≠ k) : kv ∈ insA k v m := by
  induction m with
  | nil => simp at hm
  | cons c rest ih =>
    simp only [insA]
    split
    · exact List.mem_cons_of_mem _ hm
    · split
      · rcases List.mem_cons.mp hm with rfl | h'
        · exact absurd ‹k = kv.1›.symm hne
        · exact List.mem_cons_of_mem _ h'
      · rcases List.mem_cons.mp hm with rfl | h'
        · exact List.mem_cons_self _ _
        · exact List.mem_cons_of_mem _ (ih h')

namespace PFS

/-- Two snapshots are equal when their cores and dirty-slot sets agree. -/
theorem eq_of_core {p q : PFS} (h : p.core = q.core)
    (hcs : p.changedSlots = q.changedSlots) : p = q := by
  obtain ⟨a1, a2, a3, a4, a5⟩ := p
  obtain ⟨b1, b2, b3, b4, b5⟩ := q
  simp only [core, Prod.mk.injEq] at h
  obtain ⟨rfl, rfl, rfl, rfl⟩ := h
  simp only at hcs
  rw [hcs]

/-- The snapshot invariant only depends on the core. -/
theorem inv_iff_of_core {p q : PFS} (h : p.core = q.core) : p.Inv ↔ q.Inv := by
  obtain ⟨a1, a2, a3, a4, a5⟩ := p
  obtain ⟨b1, b2, b3, b4, b5⟩ := q
  simp only [core, Prod.mk.injEq] at h
  obtain ⟨rfl, rfl, rfl, rfl⟩ := h
  simp [Inv]

/-- The tracked set only depends on the core. -/
theorem tracked_congr {p q : PFS} (h : p.core = q.core) (g : Free) :
    p.tracked g ↔ q.tracked g := by
  obtain ⟨a1, a2, a3, a4, a5⟩ := p
  obtain ⟨b1, b2, b3, b4, b5⟩ := q
  simp only [core, Prod.mk.injEq] at h
  obtain ⟨rfl, rfl, rfl, rfl⟩ := h
  simp [tracked]

end PFS

namespace FS

/-- The state components that matter to the free-space bookkeeping proper:
the coalescing map, the size index and the snapshot core (the change log,
the deferred frees and the dirty-slot set are handled separately by the
rollback argument). -/
def core2 (c : FS) : List (Nat × Nat) × List Free ×
    (List Free × List (Free × Nat) × List Nat × List Free) :=
  (c.endToStart, c.sizes, c.persist.core)

/-- Well-formedness of the free-space manager, as maintained by the Rust
code: both orderings, the bijection between `end_to_start` and `sizes`
(with well-formed positive regions), the snapshot invariant and agreement
between the snapshot's tracked set and `sizes`. -/
def Inv (c : FS) : Prop :=
  SortedKeys c.endToStart ∧
  SortedL c.sizes ∧
  (∀ kv ∈ c.endToStart, (⟨kv.1 - kv.2, kv.1⟩ : Free) ∈ c.sizes ∧ kv.2 < kv.1) ∧
  (∀ f ∈ c.sizes,
      (f.endPtr, f.endPtr - f.size) ∈ c.endToStart ∧ f.size ≤ f.endPtr ∧ 0 < f.size) ∧
  c.persist.Inv ∧
  (∀ f ∈ c.sizes, c.persist.tracked f) ∧
  (∀ fs ∈ c.persist.reverseBySize, fs.1 ∈ c.sizes) ∧
  (∀ u ∈ c.persist.unplacedQueue, u ∈ c.sizes)

instance (c : FS) : Decidable c.Inv := by
  unfold Inv; infer_instance

theorem Inv_congr {a b : FS} (h : a.core2 = b.core2) : a.Inv ↔ b.Inv := by
  obtain ⟨m, s, tx, pf, p⟩ := a
  obtain ⟨m', s', tx', pf', p'⟩ := b
  simp only [core2, Prod.mk.injEq] at h
  obtain ⟨rfl, rfl, hp⟩ := h
  simp only [Inv]
  rw [PFS.inv_iff_of_core hp]
  constructor
  · rintro ⟨x1, x2, x3, x4, x5, x6, x7, x8⟩
    refine ⟨x1, x2, x3, x4, x5, ?_, ?_, ?_⟩
    · intro f hf
      rw [← PFS.tracked_congr hp]
      exact x6 f hf
    · intro fs hfs
      refine x7 fs ?_
      obtain ⟨y1, y2, y3, y4, y5⟩ := p
      obtain ⟨z1, z2, z3, z4, z5⟩ := p'
      simp only [PFS.core, Prod.mk.injEq] at hp
      obtain ⟨rfl, rfl, rfl, rfl⟩ := hp
      exact hfs
    · intro u hu
      refine x8 u ?_
      obtain ⟨y1, y2, y3, y4, y5⟩ := p
      obtain ⟨z1, z2, z3, z4, z5⟩ := p'
      simp only [PFS.core, Prod.mk.injEq] at hp
      obtain ⟨rfl, rfl, rfl, rfl⟩ := hp
      exact hu
  · rintro ⟨x1, x2, x3, x4, x5, x6, x7, x8⟩
    refine ⟨x1, x2, x3, x4, x5, ?_, ?_, ?_⟩
    · intro f hf
      rw [PFS.tracked_congr hp]
      exact x6 f hf
    · intro fs hfs
      refine x7 fs ?_
      obtain ⟨y1, y2, y3, y4, y5⟩ := p
      obtain ⟨z1, z2, z3, z4, z5⟩ := p'
      simp only [PFS.core, Prod.mk.injEq] at hp
      obtain ⟨rfl, rfl, rfl, rfl⟩ := hp
      exact hfs
    · intro u hu
      refine x8 u ?_
      obtain ⟨y1, y2, y3, y4, y5⟩ := p
      obtain ⟨z1, z2, z3, z4, z5⟩ := p'
      simp only [PFS.core, Prod.mk.injEq] at hp
      obtain ⟨rfl, rfl, rfl, rfl⟩ := hp
      exact hu

/-- Anything tracked by the snapshot of a well-formed manager is a held
region. -/
theorem tracked_mem_sizes {c : FS} (hinv : c.Inv) {g : Free}
    (ht : c.persist.tracked g) : g ∈ c.sizes := by
  obtain ⟨_, _, _, _, hp, _, h7, h8⟩ := hinv
  rcases ht with hl | hm
  · rcases hlook : lookupA g c.persist.reverseBySize with _ | s
    · exact absurd hlook hl
    · exact h7 (g, s) (lookupA_mem hlook)
  · exact h8 g hm

end FS

namespace FS

/-- Unfolding and invariant preservation for the logged-add atom. -/
theorem atomAdd_spec {c c' : FS} {sp ep : Nat} (hinv : c.Inv) (hse : sp < ep)
    (hatom : c.atomAdd sp ep = some c') :
    ∃ p', lookupA ep c.endToStart = none ∧ (⟨ep - sp, ep⟩ : Free) ∉ c.sizes ∧
      c.persist.add ⟨ep - sp, ep⟩ = some p' ∧
      c' = { c with txChanges := Change.Add ⟨ep - sp, ep⟩ :: c.txChanges,
                    endToStart := insA ep sp c.endToStart,
                    sizes := ins ⟨ep - sp, ep⟩ c.sizes, persist := p' } ∧
      c'.Inv ∧ c'.persist.state.length = c.persist.state.length := by
  simp only [atomAdd] at hatom
  by_cases h1 : lookupA ep c.endToStart = none
  swap
  · rw [if_pos (by exact h1)] at hatom
    exact Option.noConfusion hatom
  rw [if_neg (by simp [h1])] at hatom
  by_cases h2 : (⟨ep - sp, ep⟩ : Free) ∈ c.sizes
  · rw [if_pos h2] at hatom
    exact Option.noConfusion hatom
  rw [if_neg h2] at hatom
  rcases hp : c.persist.add ⟨ep - sp, ep⟩ with _ | p'
  · rw [hp] at hatom
    exact Option.noConfusion hatom
  rw [hp] at hatom
  simp only [Option.map_some'] at hatom
  have hc' := Option.some.inj hatom
  subst hc'
  obtain ⟨i1, i2, i3, i4, i5, i6, i7, i8⟩ := hinv
  have hfr : ¬ c.persist.tracked ⟨ep - sp, ep⟩ :=
    fun ht => h2 (tracked_mem_sizes ⟨i1, i2, i3, i4, i5, i6, i7, i8⟩ ht)
  have hpos : 0 < (⟨ep - sp, ep⟩ : Free).size := by
    show 0 < ep - sp
    omega
  obtain ⟨hpInv, hpTr, hpLen⟩ := PFS.add_spec i5 hfr hpos hp
  have hspep : ep - (ep - sp) = sp := by omega
  refine ⟨p', h1, h2, rfl, rfl, ⟨?_, ?_, ?_, ?_, hpInv, ?_, ?_, ?_⟩, hpLen⟩
  · exact sortedKeys_insA i1
  · exact sorted_ins i2
  · intro kv hkv
    rcases mem_insA_pair hkv with rfl | hkv'
    · exact ⟨mem_ins.mpr (Or.inl rfl), hse⟩
    · exact ⟨mem_ins.mpr (Or.inr (i3 kv hkv').1), (i3 kv hkv').2⟩
  · intro f hf
    rcases mem_ins.mp hf with rfl | hf'
    · refine ⟨?_, by show ep - sp ≤ ep; omega, hpos⟩
      simp only [hspep]
      exact mem_insA_self
    · have hi4 := i4 f hf'
      refine ⟨?_, hi4.2.1, hi4.2.2⟩
      have hne : f.endPtr ≠ ep := by
        intro he
        rw [lookupA_eq_none_iff] at h1
        exact h1 (f.endPtr, f.endPtr - f.size) hi4.1 he
      exact mem_insA_of_ne hi4.1 hne
  · intro f hf
    rw [hpTr f]
    rcases mem_ins.mp hf with rfl | hf'
    · exact Or.inl rfl
    · exact Or.inr (i6 f hf')
  · intro fs hfs
    have hl : lookupA fs.1 p'.reverseBySize = some fs.2 :=
      mem_lookupA hpInv.1 (by exact hfs)
    have ht : p'.tracked fs.1 := Or.inl (by rw [hl]; simp)
    rw [hpTr fs.1] at ht
    rcases ht with he | ht'
    · exact mem_ins.mpr (Or.inl he)
    · exact mem_ins.mpr (Or.inr (tracked_mem_sizes ⟨i1, i2, i3, i4, i5, i6, i7, i8⟩ ht'))
  · intro u hu
    have ht : p'.tracked u := Or.inr hu
    rw [hpTr u] at ht
    rcases ht with he | ht'
    · exact mem_ins.mpr (Or.inl he)
    · exact mem_ins.mpr (Or.inr (tracked_mem_sizes ⟨i1, i2, i3, i4, i5, i6, i7, i8⟩ ht'))

/-- Unfolding and invariant preservation for the logged-remove atom. -/
theorem removeEnd_spec {c c' : FS} {e sz : Nat} (hinv : c.Inv)
    (hrem : c.removeEnd e = some (c', some sz)) :
    ∃ s p', lookupA e c.endToStart = some s ∧ sz = e - s ∧
      (⟨sz, e⟩ : Free) ∈ c.sizes ∧ s < e ∧
      c.persist.remove ⟨sz, e⟩ = some p' ∧
      c' = { c with endToStart := ersA e c.endToStart,
                    sizes := ers ⟨sz, e⟩ c.sizes,
                    txChanges := Change.Remove ⟨sz, e⟩ :: c.txChanges,
                    persist := p' } ∧
      c'.Inv ∧ c'.persist.state.length = c.persist.state.length := by
  simp only [removeEnd] at hrem
  rcases hl : lookupA e c.endToStart with _ | s
  · rw [hl] at hrem
    simp at hrem
  rw [hl] at hrem
  simp only [] at hrem
  by_cases h2 : (⟨e - s, e⟩ : Free) ∈ c.sizes
  swap
  · rw [if_pos (by exact h2)] at hrem
    exact Option.noConfusion hrem
  rw [if_neg (by simp [h2])] at hrem
  rcases hp : c.persist.remove ⟨e - s, e⟩ with _ | p'
  · rw [hp] at hrem
    exact Option.noConfusion hrem
  rw [hp] at hrem
  simp only [Option.map_some'] at hrem
  have hpair := Option.some.inj hrem
  have hsz : sz = e - s := by
    have hx := congrArg Prod.snd hpair
    exact (Option.some.inj hx).symm
  subst hsz
  have hc' := congrArg Prod.fst hpair
  dsimp only at hc'
  obtain ⟨i1, i2, i3, i4, i5, i6, i7, i8⟩ := hinv
  have hkv : (e, s) ∈ c.endToStart := lookupA_mem hl
  have hse : s < e := (i3 (e, s) hkv).2
  obtain ⟨hpInv, hpTrk, hpTr, hpLen⟩ := PFS.remove_spec i5 hp
  refine ⟨s, p', rfl, rfl, h2, hse, hp, hc'.symm, ?_, by rw [← hc']; exact hpLen⟩
  rw [← hc']
  refine ⟨sortedKeys_ersA i1, sorted_ers i2, ?_, ?_, hpInv, ?_, ?_, ?_⟩
  · intro kv hkv'
    have hmem := mem_of_mem_ersA hkv'
    have hi3 := i3 kv hmem
    refine ⟨?_, hi3.2⟩
    refine mem_ers_of_ne hi3.1 ?_
    intro heq
    have hkve : kv.1 = e := congrArg Free.endPtr heq
    have hx : lookupA kv.1 (ersA e c.endToStart) = some kv.2 :=
      mem_lookupA (sortedKeys_ersA i1) hkv'
    rw [hkve, lookupA_ersA_self i1] at hx
    exact Option.noConfusion hx
  · intro f hf
    have hmem := mem_of_mem_ers hf
    have hi4 := i4 f hmem
    have hfne : f ≠ ⟨e - s, e⟩ := by
      intro he
      rw [he] at hf
      exact not_mem_ers_self i2 hf
    refine ⟨?_, hi4.2.1, hi4.2.2⟩
    refine mem_ersA_of_ne hi4.1 ?_
    intro he2
    simp only [] at he2
    refine hfne ?_
    have hlf : lookupA f.endPtr c.endToStart = some (f.endPtr - f.size) :=
      mem_lookupA i1 hi4.1
    rw [he2, hl] at hlf
    have hstart : s = e - f.size := Option.some.inj hlf
    have hwf : f.size ≤ f.endPtr := hi4.2.1
    cases f
    simp only [] at he2 hstart hwf ⊢
    subst he2
    simp only [Free.mk.injEq, and_true]
    omega
  · intro f hf
    have hmem := mem_of_mem_ers hf
    have hfne : f ≠ ⟨e - s, e⟩ := by
      intro he
      rw [he] at hf
      exact not_mem_ers_self i2 hf
    rw [hpTr f]
    exact ⟨hfne, i6 f hmem⟩
  · intro fs hfs
    have hlf : lookupA fs.1 p'.reverseBySize = some fs.2 :=
      mem_lookupA hpInv.1 (by exact hfs)
    have ht : p'.tracked fs.1 := Or.inl (by rw [hlf]; simp)
    rw [hpTr fs.1] at ht
    exact mem_ers_of_ne (tracked_mem_sizes ⟨i1, i2, i3, i4, i5, i6, i7, i8⟩ ht.2) ht.1
  · intro u hu
    have ht : p'.tracked u := Or.inr hu
    rw [hpTr u] at ht
    exact mem_ers_of_ne (tracked_mem_sizes ⟨i1, i2, i3, i4, i5, i6, i7, i8⟩ ht.2) ht.1

/-- The failing branch of `removeEnd` leaves the state untouched. -/
theorem removeEnd_none {c c' : FS} {e : Nat}
    (hrem : c.removeEnd e = some (c', none)) :
    c' = c ∧ lookupA e c.endToStart = none := by
  simp only [removeEnd] at hrem
  rcases hl : lookupA e c.endToStart with _ | s
  · rw [hl] at hrem
    simp only [Option.some.injEq, Prod.mk.injEq] at hrem
    exact ⟨hrem.1.symm, rfl⟩
  · rw [hl] at hrem
    simp only [] at hrem
    split at hrem
    · exact Option.noConfusion hrem
    · rcases hp : c.persist.remove ⟨e - s, e⟩ with _ | p'
      · rw [hp] at hrem
        exact Option.noConfusion hrem
      · rw [hp] at hrem
        simp at hrem

end FS

/-! ### The change-log chain and literal rollback -/

namespace FS

theorem core2_endToStart {a b : FS} (h : a.core2 = b.core2) :
    a.endToStart = b.endToStart := by
  have := congrArg (fun x => x.1) h
  simpa [core2] using this

theorem core2_sizes {a b : FS} (h : a.core2 = b.core2) : a.sizes = b.sizes := by
  have := congrArg (fun x => x.2.1) h
  simpa [core2] using this

theorem core2_pcore {a b : FS} (h : a.core2 = b.core2) :
    a.persist.core = b.persist.core := by
  have := congrArg (fun x => x.2.2) h
  simpa [core2, PFS.core] using this

theorem core2_pstate {a b : FS} (h : a.core2 = b.core2) :
    a.persist.state = b.persist.state := by
  have := congrArg (fun x => x.1) (core2_pcore h)
  simpa [PFS.core] using this

theorem eq_of_parts {a b : FS} (h1 : a.endToStart = b.endToStart)
    (h2 : a.sizes = b.sizes) (h3 : a.txChanges = b.txChanges)
    (h4 : a.pendingFrees = b.pendingFrees) (h5 : a.persist = b.persist) : a = b := by
  obtain ⟨x1, x2, x3, x4, x5⟩ := a
  obtain ⟨y1, y2, y3, y4, y5⟩ := b
  simp only at h1 h2 h3 h4 h5
  rw [h1, h2, h3, h4, h5]

/-- Forward executions of the manager, recorded at the granularity of the
change log: every mutation of the coalescing structures is a logged add or
a logged remove, and everything else (pushing pending frees, clearing the
dirty-slot set, rewriting the change log itself) leaves `core2` unchanged. -/
inductive AtomChain : FS → List Change → FS → Prop
  | nil (c : FS) : AtomChain c [] c
  | addStep {c0 : FS} {A : List Change} {c c' : FS} {sp ep : Nat} :
      AtomChain c0 A c → sp < ep → c.atomAdd sp ep = some c' →
      AtomChain c0 (Change.Add ⟨ep - sp, ep⟩ :: A) c'
  | removeStep {c0 : FS} {A : List Change} {c c' : FS} {e sz : Nat} :
      AtomChain c0 A c → c.removeEnd e = some (c', some sz) →
      AtomChain c0 (Change.Remove ⟨sz, e⟩ :: A) c'
  | bookkeep {c0 : FS} {A : List Change} {c : FS} (c' : FS) :
      AtomChain c0 A c → c'.core2 = c.core2 → AtomChain c0 A c'

theorem AtomChain.comp {c0 c1 c2 : FS} {A B : List Change}
    (h1 : AtomChain c0 A c1) (h2 : AtomChain c1 B c2) :
    AtomChain c0 (B ++ A) c2 := by
  induction h2 with
  | nil => exact h1
  | addStep hsub hse hatom ih => exact AtomChain.addStep ih hse hatom
  | removeStep hsub hrem ih => exact AtomChain.removeStep ih hrem
  | bookkeep c' hsub hcore ih => exact AtomChain.bookkeep c' ih hcore

/-- Along a chain from a well-formed state, every state is well-formed and
the snapshot's slot count never changes. -/
theorem chain_inv {c0 c : FS} {A : List Change} (h0 : c0.Inv)
    (hch : AtomChain c0 A c) :
    c.Inv ∧ c.persist.state.length = c0.persist.state.length := by
  induction hch with
  | nil => exact ⟨h0, rfl⟩
  | addStep hsub hse hatom ih =>
    obtain ⟨p', _, _, _, _, hinv', hlen⟩ := atomAdd_spec ih.1 hse hatom
    exact ⟨hinv', by rw [hlen, ih.2]⟩
  | removeStep hsub hrem ih =>
    obtain ⟨s, p', _, _, _, _, _, _, hinv', hlen⟩ := removeEnd_spec ih.1 hrem
    exact ⟨hinv', by rw [hlen, ih.2]⟩
  | bookkeep c' hsub hcore ih =>
    refine ⟨(Inv_congr hcore).mpr ih.1, ?_⟩
    rw [congrArg List.length (core2_pstate hcore), ih.2]

/-- Undoing a logged add from any state that agrees on `core2` with the
post-add state lands exactly on the pre-add `core2`. -/
theorem undoOne_add {c c' : FS} {sp ep : Nat} (hinv : c.Inv) (hse : sp < ep)
    (hatom : c.atomAdd sp ep = some c') {d : FS} (hd : d.core2 = c'.core2) :
    ∃ d', d.undoOne (Change.Add ⟨ep - sp, ep⟩) = some d' ∧ d'.core2 = c.core2 ∧
      d'.txChanges = d.txChanges ∧ d'.pendingFrees = d.pendingFrees := by
  obtain ⟨p', h1, h2, hp, hceq, hinv', hlen⟩ := atomAdd_spec hinv hse hatom
  have hdm : d.endToStart = insA ep sp c.endToStart := by
    rw [core2_endToStart hd, hceq]
  have hds : d.sizes = ins ⟨ep - sp, ep⟩ c.sizes := by
    rw [core2_sizes hd, hceq]
  have hdp : d.persist.core = p'.core := by
    rw [core2_pcore hd, hceq]
  have hfr : ¬ c.persist.tracked ⟨ep - sp, ep⟩ :=
    fun ht => h2 (tracked_mem_sizes hinv ht)
  obtain ⟨q'', hq'', hqcore⟩ := PFS.remove_add_exact hinv.2.2.2.2.1 hfr hp
  have hmapped : Option.map PFS.core (d.persist.remove ⟨ep - sp, ep⟩) =
      some q''.core := by
    rw [PFS.remove_congr hdp, hq'']
    rfl
  rcases hdrem : d.persist.remove ⟨ep - sp, ep⟩ with _ | pd
  · rw [hdrem] at hmapped
    exact Option.noConfusion hmapped
  rw [hdrem] at hmapped
  have hpdcore : pd.core = q''.core := by
    simpa using hmapped
  simp only [undoOne]
  have hlook : lookupA ep d.endToStart = some sp := by
    rw [hdm]
    exact lookupA_insA_self
  have hspep : ep - (ep - sp) = sp := by omega
  rw [if_neg (by
    show ¬ (lookupA (⟨ep - sp, ep⟩ : Free).endPtr d.endToStart ≠
      some ((⟨ep - sp, ep⟩ : Free).endPtr - (⟨ep - sp, ep⟩ : Free).size))
    show ¬ (lookupA ep d.endToStart ≠ some (ep - (ep - sp)))
    rw [hspep, hlook]
    simp)]
  rw [if_neg (by
    show ¬ (⟨ep - sp, ep⟩ : Free) ∉ d.sizes
    rw [hds]
    simp [mem_ins])]
  rw [hdrem]
  refine ⟨_, rfl, ?_, rfl, rfl⟩
  simp only [core2]
  rw [hdm, hds, ersA_insA_of_not_mem h1, ers_ins_of_not_mem h2, hpdcore, hqcore]

/-- Undoing a logged remove symmetric to `undoOne_add`. -/
theorem undoOne_remove {c c' : FS} {e sz : Nat} (hinv : c.Inv)
    (hn : 1 ≤ c.persist.state.length)
    (hrem : c.removeEnd e = some (c', some sz)) {d : FS} (hd : d.core2 = c'.core2) :
    ∃ d', d.undoOne (Change.Remove ⟨sz, e⟩) = some d' ∧ d'.core2 = c.core2 ∧
      d'.txChanges = d.txChanges ∧ d'.pendingFrees = d.pendingFrees := by
  obtain ⟨s, p', hl, hsz, hmem, hse, hp, hceq, hinv', hlen⟩ := removeEnd_spec hinv hrem
  subst hsz
  have hdm : d.endToStart = ersA e c.endToStart := by
    rw [core2_endToStart hd, hceq]
  have hds : d.sizes = ers ⟨e - s, e⟩ c.sizes := by
    rw [core2_sizes hd, hceq]
  have hdp : d.persist.core = p'.core := by
    rw [core2_pcore hd, hceq]
  obtain ⟨q'', hq'', hqcore⟩ := PFS.add_remove_exact hinv.2.2.2.2.1 hn hp
  have hmapped : Option.map PFS.core (d.persist.add ⟨e - s, e⟩) = some q''.core := by
    rw [PFS.add_congr hdp, hq'']
    rfl
  rcases hdadd : d.persist.add ⟨e - s, e⟩ with _ | pd
  · rw [hdadd] at hmapped
    exact Option.noConfusion hmapped
  rw [hdadd] at hmapped
  have hpdcore : pd.core = q''.core := by
    simpa using hmapped
  simp only [undoOne]
  rw [if_neg (by
    show ¬ (lookupA (⟨e - s, e⟩ : Free).endPtr d.endToStart ≠ none)
    show ¬ (lookupA e d.endToStart ≠ none)
    rw [hdm, lookupA_ersA_self hinv.1]
    simp)]
  rw [if_neg (by
    show ¬ (⟨e - s, e⟩ : Free) ∈ d.sizes
    rw [hds]
    exact not_mem_ers_self hinv.2.1)]
  rw [hdadd]
  refine ⟨_, rfl, ?_, rfl, rfl⟩
  simp only [core2]
  have hstart : (⟨e - s, e⟩ : Free).startPtr = s := by
    show e - (e - s) = s
    omega
  rw [hdm, hds, hstart, insA_ersA_of_lookup hinv.1 hl, ins_ers_of_mem hinv.2.1 hmem,
    hpdcore, hqcore]

/-- Walking the change log of a chain backwards undoes it exactly (up to the
dirty-slot set, which the rollback clears separately). -/
theorem chain_undo {c0 c : FS} {A : List Change} (h0 : c0.Inv)
    (hn : 1 ≤ c0.persist.state.length) (hch : AtomChain c0 A c) :
    ∀ d : FS, d.core2 = c.core2 →
      ∃ d', undoAll d A = some d' ∧ d'.core2 = c0.core2 ∧
        d'.txChanges = d.txChanges ∧ d'.pendingFrees = d.pendingFrees := by
  induction hch with
  | nil =>
    intro d hd
    exact ⟨d, rfl, hd, rfl, rfl⟩
  | addStep hsub hse hatom ih =>
    intro d hd
    have hmidinv := (chain_inv h0 hsub).1
    obtain ⟨d'', hstep, hcore'', htx'', hpf''⟩ := undoOne_add hmidinv hse hatom hd
    obtain ⟨d', hrest, hcore', htx', hpf'⟩ := ih d'' hcore''
    refine ⟨d', ?_, hcore', by rw [htx', htx''], by rw [hpf', hpf'']⟩
    simp only [undoAll, hstep, Option.some_bind]
    exact hrest
  | removeStep hsub hrem ih =>
    intro d hd
    have hmidinv := (chain_inv h0 hsub).1
    obtain ⟨d'', hstep, hcore'', htx'', hpf''⟩ :=
      undoOne_remove hmidinv (by rw [(chain_inv h0 hsub).2]; exact hn) hrem hd
    obtain ⟨d', hrest, hcore', htx', hpf'⟩ := ih d'' hcore''
    refine ⟨d', ?_, hcore', by rw [htx', htx''], by rw [hpf', hpf'']⟩
    simp only [undoAll, hstep, Option.some_bind]
    exact hrest
  | bookkeep c' hsub hcore ih =>
    intro d hd
    exact ih d (by rw [hd, hcore])

/-- `tx_fail_rollback` at the end of a chain whose log started empty lands
exactly on the chain's start state with the pending frees and the dirty-slot
set cleared. -/
theorem rollback_of_chain {c0 c : FS} {A : List Change} (h0 : c0.Inv)
    (hn : 1 ≤ c0.persist.state.length) (hch : AtomChain c0 A c)
    (htx : c.txChanges = A) :
    c.txFailRollback = some
      { c0 with
        txChanges := []
        pendingFrees := []
        persist := { c0.persist with changedSlots := [] } } := by
  obtain ⟨d', hall, hcore, htxd, hpfd⟩ :=
    chain_undo h0 hn hch { c with txChanges := [] } rfl
  simp only [txFailRollback, htx]
  rw [hall]
  simp only [Option.map_some', Option.some.injEq]
  refine eq_of_parts ?_ ?_ ?_ rfl ?_
  · exact core2_endToStart hcore
  · exact core2_sizes hcore
  · exact htxd
  · exact PFS.eq_of_core (core2_pcore hcore) rfl

end FS
end Llsdb

namespace Llsdb

theorem greatestLT_mem {α β : Type} [LinearOrder α] {k : α} {kv : α × β}
    {m : List (α × β)} (h : greatestLT k m = some kv) : kv ∈ m ∧ kv.1 < k := by
  have hm := List.mem_of_mem_getLast? h
  exact ⟨List.mem_of_mem_filter hm, by simpa using List.of_mem_filter hm⟩

theorem leastGE_mem {α β : Type} [LinearOrder α] {k : α} {kv : α × β}
    {m : List (α × β)} (h : leastGE k m = some kv) : kv ∈ m ∧ k ≤ kv.1 := by
  have hm := List.mem_of_mem_head? h
  exact ⟨List.mem_of_mem_filter hm, by simpa using List.of_mem_filter hm⟩

theorem firstGE_mem {α : Type} [LinearOrder α] {x y : α} {l : List α}
    (h : firstGE x l = some y) : y ∈ l ∧ x ≤ y := by
  induction l with
  | nil => simp [firstGE] at h
  | cons a as ih =>
    simp only [firstGE] at h
    split at h
    · cases h
      exact ⟨List.mem_cons_self _ _, by assumption⟩
    · obtain ⟨h1, h2⟩ := ih h
      exact ⟨List.mem_cons_of_mem _ h1, h2⟩

namespace FS

/-- The coalescing loop of `insert` is a chain of logged removes that can
only widen the candidate interval. -/
theorem insertLoop_chain {fuel : Nat} {c c' : FS} {sp ep sp' ep' : Nat}
    (hinv : c.Inv) (hse : sp < ep)
    (hloop : insertLoop fuel c sp ep = some (c', sp', ep')) :
    ∃ A, AtomChain c A c' ∧ c'.txChanges = A ++ c.txChanges ∧
      c'.pendingFrees = c.pendingFrees ∧ c'.Inv ∧ sp' < ep' ∧ sp' ≤ sp ∧ ep ≤ ep' := by
  induction fuel generalizing c sp ep with
  | zero => simp [insertLoop] at hloop
  | succ fuel ih =>
    simp only [insertLoop] at hloop
    rcases hsuf : greatestLT ep c.endToStart with _ | ⟨ee, es⟩ <;>
      rcases hpre : leastGE ep c.endToStart with _ | ⟨ee2, es2⟩ <;>
      simp only [hsuf, hpre] at hloop
    · obtain ⟨rfl, rfl, rfl⟩ : c = c' ∧ sp = sp' ∧ ep = ep' := by simpa using hloop
      exact ⟨[], AtomChain.nil c, by simp, rfl, hinv, hse, le_refl _, le_refl _⟩
    · by_cases hguard : es2 = ep
      · rw [if_pos hguard] at hloop
        rcases hrem : c.removeEnd ee2 with _ | ⟨c2, rr⟩ <;> simp only [hrem] at hloop
        · exact Option.noConfusion hloop
        · obtain ⟨hkv, hkge⟩ := leastGE_mem hpre
          have hkv2 := hinv.2.2.1 (ee2, es2) hkv
          rcases rr with _ | sz
          · obtain ⟨rfl, hnone⟩ := removeEnd_none hrem
            rw [lookupA_eq_none_iff] at hnone
            exact absurd rfl (hnone (ee2, es2) hkv)
          · obtain ⟨s, p', hl, hsz, hmemf, hslt, hpr, hc2, hinv2, hlen2⟩ :=
              removeEnd_spec hinv hrem
            have hsee2 : sp < ee2 := lt_trans (hguard ▸ hse) hkv2.2
            obtain ⟨A, hchain, htx, hpf, hinv', hlt', hsple, heple⟩ := ih hinv2 hsee2 hloop
            refine ⟨A ++ [Change.Remove ⟨sz, ee2⟩], ?_, ?_, ?_, hinv', hlt', hsple, ?_⟩
            · exact AtomChain.comp (AtomChain.removeStep (AtomChain.nil c) hrem) hchain
            · rw [htx, hc2]; simp
            · rw [hpf, hc2]
            · calc ep = es2 := hguard.symm
                _ ≤ ee2 := le_of_lt hkv2.2
                _ ≤ ep' := heple
      · rw [if_neg hguard] at hloop
        obtain ⟨rfl, rfl, rfl⟩ : c = c' ∧ sp = sp' ∧ ep = ep' := by simpa using hloop
        exact ⟨[], AtomChain.nil c, by simp, rfl, hinv, hse, le_refl _, le_refl _⟩
    · by_cases hguard : ee = sp
      · rw [if_pos hguard] at hloop
        rcases hrem : c.removeEnd ee with _ | ⟨c2, rr⟩ <;> simp only [hrem] at hloop
        · exact Option.noConfusion hloop
        · obtain ⟨hkv, hklt⟩ := greatestLT_mem hsuf
          have hkv2 := hinv.2.2.1 (ee, es) hkv
          rcases rr with _ | sz
          · obtain ⟨rfl, hnone⟩ := removeEnd_none hrem
            rw [lookupA_eq_none_iff] at hnone
            exact absurd rfl (hnone (ee, es) hkv)
          · obtain ⟨s, p', hl, hsz, hmemf, hslt, hpr, hc2, hinv2, hlen2⟩ :=
              removeEnd_spec hinv hrem
            have hesep : es < ep := lt_trans hkv2.2 hklt
            obtain ⟨A, hchain, htx, hpf, hinv', hlt', hsple, heple⟩ := ih hinv2 hesep hloop
            refine ⟨A ++ [Change.Remove ⟨sz, ee⟩], ?_, ?_, ?_, hinv', hlt', ?_, heple⟩
            · exact AtomChain.comp (AtomChain.removeStep (AtomChain.nil c) hrem) hchain
            · rw [htx, hc2]; simp
            · rw [hpf, hc2]
            · calc sp' ≤ es := hsple
                _ ≤ ee := le_of_lt hkv2.2
                _ = sp := hguard
      · rw [if_neg hguard] at hloop
        obtain ⟨rfl, rfl, rfl⟩ : c = c' ∧ sp = sp' ∧ ep = ep' := by simpa using hloop
        exact ⟨[], AtomChain.nil c, by simp, rfl, hinv, hse, le_refl _, le_refl _⟩
    · by_cases hguard : ee = sp
      · rw [if_pos hguard] at hloop
        rcases hrem : c.removeEnd ee with _ | ⟨c2, rr⟩ <;> simp only [hrem] at hloop
        · exact Option.noConfusion hloop
        · obtain ⟨hkv, hklt⟩ := greatestLT_mem hsuf
          have hkv2 := hinv.2.2.1 (ee, es) hkv
          rcases rr with _ | sz
          · obtain ⟨rfl, hnone⟩ := removeEnd_none hrem
            rw [lookupA_eq_none_iff] at hnone
            exact absurd rfl (hnone (ee, es) hkv)
          · obtain ⟨s, p', hl, hsz, hmemf, hslt, hpr, hc2, hinv2, hlen2⟩ :=
              removeEnd_spec hinv hrem
            have hesep : es < ep := lt_trans hkv2.2 hklt
            obtain ⟨A, hchain, htx, hpf, hinv', hlt', hsple, heple⟩ := ih hinv2 hesep hloop
            refine ⟨A ++ [Change.Remove ⟨sz, ee⟩], ?_, ?_, ?_, hinv', hlt', ?_, heple⟩
            · exact AtomChain.comp (AtomChain.removeStep (AtomChain.nil c) hrem) hchain
            · rw [htx, hc2]; simp
            · rw [hpf, hc2]
            · calc sp' ≤ es := hsple
                _ ≤ ee := le_of_lt hkv2.2
                _ = sp := hguard
      · rw [if_neg hguard] at hloop
        by_cases hguard2 : es2 = ep
        · rw [if_pos hguard2] at hloop
          rcases hrem : c.removeEnd ee2 with _ | ⟨c2, rr⟩ <;> simp only [hrem] at hloop
          · exact Option.noConfusion hloop
          · obtain ⟨hkv, hkge⟩ := leastGE_mem hpre
            have hkv2 := hinv.2.2.1 (ee2, es2) hkv
            rcases rr with _ | sz
            · obtain ⟨rfl, hnone⟩ := removeEnd_none hrem
              rw [lookupA_eq_none_iff] at hnone
              exact absurd rfl (hnone (ee2, es2) hkv)
            · obtain ⟨s, p', hl, hsz, hmemf, hslt, hpr, hc2, hinv2, hlen2⟩ :=
                removeEnd_spec hinv hrem
              have hsee2 : sp < ee2 := lt_trans (hguard2 ▸ hse) hkv2.2
              obtain ⟨A, hchain, htx, hpf, hinv', hlt', hsple, heple⟩ := ih hinv2 hsee2 hloop
              refine ⟨A ++ [Change.Remove ⟨sz, ee2⟩], ?_, ?_, ?_, hinv', hlt', hsple, ?_⟩
              · exact AtomChain.comp (AtomChain.removeStep (AtomChain.nil c) hrem) hchain
              · rw [htx, hc2]; simp
              · rw [hpf, hc2]
              · calc ep = es2 := hguard2.symm
                  _ ≤ ee2 := le_of_lt hkv2.2
                  _ ≤ ep' := heple
        · rw [if_neg hguard2] at hloop
          obtain ⟨rfl, rfl, rfl⟩ : c = c' ∧ sp = sp' ∧ ep = ep' := by simpa using hloop
          exact ⟨[], AtomChain.nil c, by simp, rfl, hinv, hse, le_refl _, le_refl _⟩

end FS

end Llsdb

namespace Llsdb
namespace FS

/-- `FreeSpace::insert` is a chain. -/
theorem insertF_chain {c c' : FS} {f : Free} (hinv : c.Inv)
    (hwf : f.size ≤ f.endPtr) (hins : c.insertF f = some c') :
    ∃ A, AtomChain c A c' ∧ c'.txChanges = A ++ c.txChanges ∧
      c'.pendingFrees = c.pendingFrees ∧ c'.Inv := by
  simp only [insertF] at hins
  by_cases hz : f.size = 0
  · rw [if_pos hz] at hins
    cases hins
    exact ⟨[], AtomChain.nil c, by simp, rfl, hinv⟩
  · rw [if_neg hz] at hins
    rcases hloop : insertLoop (c.endToStart.length + 1) c (f.endPtr - f.size) f.endPtr
      with _ | ⟨c2, sp2, ep2⟩ <;> simp only [hloop] at hins
    · exact Option.noConfusion hins
    · have hse : f.endPtr - f.size < f.endPtr := by
        have h0 : 0 < f.size := Nat.pos_of_ne_zero hz
        omega
      obtain ⟨A, hchain, htx, hpf, hinv2, hlt, _, _⟩ := insertLoop_chain hinv hse hloop
      obtain ⟨p', _, _, _, hceq, hinv', _⟩ := atomAdd_spec hinv2 hlt hins
      refine ⟨Change.Add ⟨ep2 - sp2, ep2⟩ :: A, ?_, ?_, ?_, hinv'⟩
      · exact AtomChain.addStep hchain hlt hins
      · rw [hceq]
        simp only []
        rw [htx]
        simp
      · rw [hceq]
        simp only []
        rw [hpf]

/-- `FreeSpace::take_for_size` is a chain. -/
theorem takeForSize_chain {c c' : FS} {s : Nat} {r : Option Nat} (hinv : c.Inv)
    (h : c.takeForSize s = some (c', r)) :
    ∃ A, AtomChain c A c' ∧ c'.txChanges = A ++ c.txChanges ∧
      c'.pendingFrees = c.pendingFrees ∧ c'.Inv := by
  simp only [takeForSize] at h
  rcases hfirst : firstGE (⟨s, 0⟩ : Free) c.sizes with _ | free <;>
    simp only [hfirst] at h
  · obtain ⟨rfl, _⟩ : c = c' ∧ none = r := by simpa using h
    exact ⟨[], AtomChain.nil c, by simp, rfl, hinv⟩
  · rcases hres : c.resize free.endPtr (free.size - s) with _ | ⟨c2, rr⟩ <;>
      simp only [hres] at h
    · exact Option.noConfusion h
    · obtain ⟨rfl, _⟩ : c2 = c' ∧ _ = r := by simpa using h
      obtain ⟨hfmem, _⟩ := firstGE_mem hfirst
      have hwf : free.size ≤ free.endPtr := (hinv.2.2.2.1 free hfmem).2.1
      simp only [resize] at hres
      rcases hrem : c.removeEnd free.endPtr with _ | ⟨c3, r3⟩ <;>
        simp only [hrem] at hres
      · exact Option.noConfusion hres
      rcases r3 with _ | sz
      · obtain ⟨hceq, hnone⟩ := removeEnd_none hrem
        rw [lookupA_eq_none_iff] at hnone
        exact absurd rfl
          (hnone (free.endPtr, free.endPtr - free.size) (hinv.2.2.2.1 free hfmem).1)
      · obtain ⟨st3, p3, hl3, hsz3, hmem3, hslt3, hpr3, hc3, hinv3, hlen3⟩ :=
          removeEnd_spec hinv hrem
        simp only [] at hres
        by_cases hrem0 : free.size - s ≠ 0
        · rw [if_pos hrem0] at hres
          rcases hins : c3.insertF ⟨free.size - s, free.endPtr⟩ with _ | c4 <;>
            simp only [hins] at hres
          · exact Option.noConfusion hres
          · obtain ⟨rfl, _⟩ : c4 = c2 ∧ _ := by simpa using hres
            have hwf4 : (⟨free.size - s, free.endPtr⟩ : Free).size ≤
                (⟨free.size - s, free.endPtr⟩ : Free).endPtr := by
              show free.size - s ≤ free.endPtr
              omega
            obtain ⟨A4, hchain4, htx4, hpf4, hinv4⟩ := insertF_chain hinv3 hwf4 hins
            refine ⟨A4 ++ [Change.Remove ⟨sz, free.endPtr⟩], ?_, ?_, ?_, hinv4⟩
            · exact AtomChain.comp (AtomChain.removeStep (AtomChain.nil c) hrem) hchain4
            · rw [htx4, hc3]
              simp
            · rw [hpf4, hc3]
        · rw [if_neg hrem0] at hres
          obtain ⟨rfl, _⟩ : c3 = c2 ∧ _ := by simpa using hres
          refine ⟨[Change.Remove ⟨sz, free.endPtr⟩], ?_, ?_, ?_, hinv3⟩
          · exact AtomChain.removeStep (AtomChain.nil c) hrem
          · rw [hc3]
            simp
          · rw [hc3]

/-- The worker loop of `apply_pending_frees` is a chain. -/
theorem applyGo_chain : ∀ {fs : List Free} {c c' : FS}, c.Inv →
    (∀ f ∈ fs, f.size ≤ f.endPtr) →
    applyPendingFrees.go c fs = some c' →
    ∃ A, AtomChain c A c' ∧ c'.txChanges = A ++ c.txChanges ∧
      c'.pendingFrees = c.pendingFrees ∧ c'.Inv := by
  intro fs
  induction fs with
  | nil =>
    intro c c' hinv hwf h
    cases h
    exact ⟨[], AtomChain.nil c, by simp, rfl, hinv⟩
  | cons f rest ih =>
    intro c c' hinv hwf h
    simp only [applyPendingFrees.go, Option.bind_eq_bind, Option.bind_eq_some] at h
    obtain ⟨c1, hins, hgo⟩ := h
    obtain ⟨A1, hch1, htx1, hpf1, hinv1⟩ :=
      insertF_chain hinv (hwf f (List.mem_cons_self _ _)) hins
    obtain ⟨A2, hch2, htx2, hpf2, hinv2⟩ :=
      ih hinv1 (fun g hg => hwf g (List.mem_cons_of_mem _ hg)) hgo
    refine ⟨A2 ++ A1, AtomChain.comp hch1 hch2, ?_, ?_, hinv2⟩
    · rw [htx2, htx1, List.append_assoc]
    · rw [hpf2, hpf1]

/-- `FreeSpace::apply_pending_frees` is a chain leaving no pending frees. -/
theorem applyPendingFrees_chain {c c2 : FS} {slots : List Nat} (hinv : c.Inv)
    (hwf : ∀ f ∈ c.pendingFrees, f.size ≤ f.endPtr)
    (h : c.applyPendingFrees = some (c2, slots)) :
    ∃ A, AtomChain c A c2 ∧ c2.txChanges = A ++ c.txChanges ∧
      c2.pendingFrees = [] ∧ c2.Inv := by
  simp only [applyPendingFrees, Option.map_eq_some'] at h
  obtain ⟨c1, hgo, heq⟩ := h
  have hstart : AtomChain c ([] : List Change) { c with pendingFrees := [] } :=
    AtomChain.bookkeep _ (AtomChain.nil c) rfl
  have hinv0 : ({ c with pendingFrees := [] } : FS).Inv := by
    rw [Inv_congr (show ({ c with pendingFrees := [] } : FS).core2 = c.core2 from rfl)]
    exact hinv
  obtain ⟨A, hch, htx, hpf, hinv1⟩ := applyGo_chain hinv0 hwf hgo
  have hc2 : c2 = { c1 with persist := c1.persist.takeChangedSlots.2 } := by
    have := congrArg Prod.fst heq
    simpa [PFS.takeChangedSlots] using this.symm
  refine ⟨A, ?_, ?_, ?_, ?_⟩
  · have hcomp := AtomChain.comp hstart hch
    rw [List.append_nil] at hcomp
    exact AtomChain.bookkeep _ hcomp
      (by rw [hc2]; simp [core2, PFS.takeChangedSlots, PFS.core])
  · rw [hc2]
    simpa using htx
  · rw [hc2]
    simpa using hpf
  · rw [hc2, Inv_congr (show ({ c1 with persist := c1.persist.takeChangedSlots.2 } : FS).core2 = c1.core2 from rfl)]
    exact hinv1

end FS
end Llsdb

namespace Llsdb
namespace FS

/-- Any run of take/free actions is a chain whose pending frees are all
well formed. -/
theorem runActions_chain : ∀ {acts : List FSAction} {c c' : FS}, c.Inv →
    (∀ f ∈ c.pendingFrees, f.size ≤ f.endPtr) →
    runActions c acts = some c' →
    ∃ A, AtomChain c A c' ∧ c'.txChanges = A ++ c.txChanges ∧
      (∀ f ∈ c'.pendingFrees, f.size ≤ f.endPtr) ∧ c'.Inv := by
  intro acts
  induction acts with
  | nil =>
    intro c c' hinv hwf h
    cases h
    exact ⟨[], AtomChain.nil c, by simp, hwf, hinv⟩
  | cons a rest ih =>
    intro c c' hinv hwf h
    simp only [runActions, Option.bind_eq_bind, Option.bind_eq_some] at h
    obtain ⟨c1, hstep, hrest⟩ := h
    rcases a with s | ⟨start, sz⟩
    · simp only [applyAction, Option.map_eq_some'] at hstep
      obtain ⟨⟨cm, r⟩, htk, hc1⟩ := hstep
      obtain ⟨A1, hch1, htx1, hpf1, hinv1⟩ := takeForSize_chain hinv htk
      have hc1' : c1 = cm := hc1.symm
      subst hc1'
      obtain ⟨A2, hch2, htx2, hwf2, hinv2⟩ := ih hinv1 (hpf1 ▸ hwf) hrest
      exact ⟨A2 ++ A1, AtomChain.comp hch1 hch2,
        by rw [htx2, htx1, List.append_assoc], hwf2, hinv2⟩
    · simp only [applyAction, Option.some.injEq] at hstep
      have hinv1 : c1.Inv := by
        rw [Inv_congr (show c1.core2 = c.core2 by rw [← hstep]; rfl)]
        exact hinv
      have hwf1 : ∀ f ∈ c1.pendingFrees, f.size ≤ f.endPtr := by
        rw [← hstep]
        intro f hf
        simp only [freeReg, List.mem_append, List.mem_singleton] at hf
        rcases hf with hf | rfl
        · exact hwf f hf
        · show sz ≤ start + sz
          omega
      obtain ⟨A2, hch2, htx2, hwf2, hinv2⟩ := ih hinv1 hwf1 hrest
      have hch1 : AtomChain c ([] : List Change) c1 :=
        AtomChain.bookkeep _ (AtomChain.nil c) (by rw [← hstep]; rfl)
      have htx1 : c1.txChanges = c.txChanges := by rw [← hstep]; rfl
      refine ⟨A2, ?_, ?_, hwf2, hinv2⟩
      · have := AtomChain.comp hch1 hch2
        rwa [List.append_nil] at this
      · rw [htx2, htx1]

end FS

end Llsdb

namespace Llsdb
namespace FS

/-- **C2.** For every committed free-space state (empty change log, no
pending frees, empty changed-slots set, at least one persistent slot) and
every sequence of `take_for_size` and `free` calls followed by
`apply_pending_frees`, `tx_fail_rollback` restores the manager to exactly
the state it had before the sequence — coalescing index, size set,
persistent slot array, reverse map, unused slots, unplaced queue, pending
frees, and changed-slots set included. -/
theorem freespace_rollback_restores (c0 c1 c2 : FS) (acts : List FSAction)
    (slots : List Nat)
    (hinv : c0.Inv) (htx0 : c0.txChanges = []) (hpf0 : c0.pendingFrees = [])
    (hcs0 : c0.persist.changedSlots = [])
    (hn : 1 ≤ c0.persist.state.length)
    (hrun : runActions c0 acts = some c1)
    (happly : c1.applyPendingFrees = some (c2, slots)) :
    c2.txFailRollback = some c0 := by
  have hwf0 : ∀ f ∈ c0.pendingFrees, f.size ≤ f.endPtr := by
    rw [hpf0]; intro f hf; cases hf
  obtain ⟨A1, hch1, htx1, hwf1, hinv1⟩ := runActions_chain hinv hwf0 hrun
  obtain ⟨A2, hch2, htx2, hpf2, hinv2⟩ := applyPendingFrees_chain hinv1 hwf1 happly
  have hch := AtomChain.comp hch1 hch2
  have htx : c2.txChanges = A2 ++ A1 := by
    rw [htx2, htx1, htx0, List.append_nil]
  have hr := rollback_of_chain hinv hn hch htx
  rw [hr]
  congr 1
  obtain ⟨e1, e2, e3, e4, p⟩ := c0
  obtain ⟨ps, prb, pus, puq, pcs⟩ := p
  simp only at htx0 hpf0 hcs0
  simp [htx0, hpf0, hcs0]


theorem c2_witness : w2c2.txFailRollback = some w2c0 :=
  freespace_rollback_restores w2c0 w2c1 w2c2 w2acts w2slots
    (by decide) rfl rfl rfl (by decide) (by decide) (by decide)

end FS

namespace PFS

/-- A tracked region can always be removed without panicking. -/
theorem remove_some_of_tracked {p : PFS} {f : Free} (htr : p.tracked f) :
    ∃ q, p.remove f = some q := by
  rcases hl : lookupA f p.reverseBySize with _ | slot
  · have hm : f ∈ p.unplacedQueue := by
      rcases htr with hs | hm
      · exact absurd hl hs
      · exact hm
    simp only [remove, hl]
    rw [if_pos hm]
    exact ⟨_, rfl⟩
  · simp only [remove, hl]
    rcases hpop : popLast? p.unplacedQueue with _ | ⟨nx, rest⟩ <;> simp only [hpop]
    · exact ⟨_, rfl⟩
    · exact ⟨_, rfl⟩


/-- **C6.** For every snapshot state satisfying the invariants (with at
least one slot) and every region `x` it currently tracks, `remove x`
followed by `add x` leaves the slot array, the reverse map, the unused
slots, and the unplaced queue unchanged — every region keeps its slot
assignment, including when `x` is the smallest persisted region. -/
theorem persist_remove_add_noop (p : PFS) (x : Free)
    (hinv : p.Inv) (hn : 1 ≤ p.state.length) (htr : p.tracked x) :
    ∃ q q', p.remove x = some q ∧ q.add x = some q' ∧
      q'.state = p.state ∧ q'.reverseBySize = p.reverseBySize ∧
      q'.unusedSlots = p.unusedSlots ∧ q'.unplacedQueue = p.unplacedQueue := by
  obtain ⟨q, hq⟩ := remove_some_of_tracked htr
  obtain ⟨q', hq', hcore⟩ := add_remove_exact hinv hn hq
  simp only [core, Prod.mk.injEq] at hcore
  exact ⟨q, q', hq, hq', hcore.1, hcore.2.1, hcore.2.2.1, hcore.2.2.2⟩

theorem c6_witness :
    ∃ q q', w6p.remove w6x = some q ∧ q.add w6x = some q' ∧
      q'.state = w6p.state ∧ q'.reverseBySize = w6p.reverseBySize ∧
      q'.unusedSlots = w6p.unusedSlots ∧ q'.unplacedQueue = w6p.unplacedQueue :=
  persist_remove_add_noop w6p w6x (by decide) (by decide) (by decide)

end PFS

end Llsdb

namespace Llsdb

theorem pairwise_getLast? {γ : Type} {R : γ → γ → Prop} {l : List γ}
    (hp : l.Pairwise R) {b : γ} (hb : l.getLast? = some b) :
    ∀ a ∈ l, a = b ∨ R a b := by
  induction l with
  | nil => simp at hb
  | cons x xs ih =>
    rcases xs with _ | ⟨y, ys⟩
    · simp at hb
      intro a ha
      simp at ha
      exact Or.inl (ha.trans hb)
    · rw [List.getLast?_cons_cons] at hb
      have hp' := List.Pairwise.of_cons hp
      intro a ha
      rcases List.mem_cons.1 ha with rfl | ha'
      · have hbm : b ∈ y :: ys := List.mem_of_mem_getLast? hb
        exact Or.inr ((List.pairwise_cons.1 hp).1 b hbm)
      · exact ih hp' hb a ha'

theorem pairwise_head? {γ : Type} {R : γ → γ → Prop} {l : List γ}
    (hp : l.Pairwise R) {b : γ} (hb : l.head? = some b) :
    ∀ a ∈ l, a = b ∨ R b a := by
  rcases l with _ | ⟨x, xs⟩
  · simp at hb
  · simp only [List.head?_cons, Option.some.injEq] at hb
    subst hb
    intro a ha
    rcases List.mem_cons.1 ha with rfl | ha'
    · exact Or.inl rfl
    · exact Or.inr ((List.pairwise_cons.1 hp).1 a ha')

theorem greatestLT_max {α β : Type} [LinearOrder α] {k : α} {kv : α × β}
    {m : List (α × β)} (hs : SortedKeys m) (h : greatestLT k m = some kv) :
    ∀ kv' ∈ m, kv'.1 < k → kv' = kv ∨ kv'.1 < kv.1 := by
  intro kv' hm hlt
  have hp : (m.filter (fun p => decide (p.1 < k))).Pairwise (fun a b => a.1 < b.1) :=
    List.Pairwise.filter _ hs
  have hmem : kv' ∈ m.filter (fun p => decide (p.1 < k)) :=
    List.mem_filter.2 ⟨hm, by simpa using hlt⟩
  exact pairwise_getLast? hp h kv' hmem

theorem greatestLT_none {α β : Type} [LinearOrder α] {k : α}
    {m : List (α × β)} (h : greatestLT k m = none) :
    ∀ kv ∈ m, ¬ kv.1 < k := by
  intro kv hm hlt
  have : m.filter (fun p => decide (p.1 < k)) = [] := by
    simpa [greatestLT, List.getLast?_eq_none_iff] using h
  have : kv ∈ ([] : List (α × β)) := this ▸ List.mem_filter.2 ⟨hm, by simpa using hlt⟩
  simp at this

theorem leastGE_min {α β : Type} [LinearOrder α] {k : α} {kv : α × β}
    {m : List (α × β)} (hs : SortedKeys m) (h : leastGE k m = some kv) :
    ∀ kv' ∈ m, k ≤ kv'.1 → kv' = kv ∨ kv.1 < kv'.1 := by
  intro kv' hm hle
  have hp : (m.filter (fun p => decide (k ≤ p.1))).Pairwise (fun a b => a.1 < b.1) :=
    List.Pairwise.filter _ hs
  have hmem : kv' ∈ m.filter (fun p => decide (k ≤ p.1)) :=
    List.mem_filter.2 ⟨hm, by simpa using hle⟩
  exact pairwise_head? hp h kv' hmem

theorem leastGE_none {α β : Type} [LinearOrder α] {k : α}
    {m : List (α × β)} (h : leastGE k m = none) :
    ∀ kv ∈ m, ¬ k ≤ kv.1 := by
  intro kv hm hle
  have : m.filter (fun p => decide (k ≤ p.1)) = [] := by
    simpa [leastGE, List.head?_eq_none_iff] using h
  have : kv ∈ ([] : List (α × β)) := this ▸ List.mem_filter.2 ⟨hm, by simpa using hle⟩
  simp at this

theorem firstGE_none {α : Type} [LinearOrder α] {x : α} {l : List α}
    (h : firstGE x l = none) : ∀ y ∈ l, ¬ x ≤ y := by
  induction l with
  | nil => simp
  | cons a as ih =>
    simp only [firstGE] at h
    split at h
    · exact Option.noConfusion h
    · intro y hy
      rcases List.mem_cons.1 hy with rfl | hy'
      · assumption
      · exact ih h y hy'

theorem firstGE_min {α : Type} [LinearOrder α] {x y : α} {l : List α}
    (hs : l.Pairwise (fun a b => a < b)) (h : firstGE x l = some y) :
    ∀ z ∈ l, x ≤ z → y ≤ z := by
  induction l with
  | nil => simp
  | cons a as ih =>
    simp only [firstGE] at h
    split at h
    · cases h
      intro z hz hxz
      rcases List.mem_cons.1 hz with rfl | hz'
      · exact le_refl _
      · exact le_of_lt ((List.pairwise_cons.1 hs).1 z hz')
    · intro z hz hxz
      rcases List.mem_cons.1 hz with rfl | hz'
      · exact absurd hxz (by assumption)
      · exact ih (List.Pairwise.of_cons hs) h z hz' hxz

end Llsdb

namespace Llsdb

theorem pairwise_key_rel {α β : Type} [LinearOrder α]
    {R : (α × β) → (α × β) → Prop}
    {m : List (α × β)} (hs : SortedKeys m) (hp : m.Pairwise R)
    {u v : α × β} (hu : u ∈ m) (hv : v ∈ m) (hlt : u.1 < v.1) : R u v := by
  have hc : m.Pairwise (fun a b => a.1 < b.1 ∧ R a b) := hs.and hp
  have hT : m.Pairwise (fun a b =>
      (a.1 < b.1 ∧ R a b) ∨ (b.1 < a.1 ∧ R b a)) := hc.imp fun h => Or.inl h
  have hsym : Symmetric fun a b : α × β =>
      (a.1 < b.1 ∧ R a b) ∨ (b.1 < a.1 ∧ R b a) := by
    intro a b h
    rcases h with h | h
    · exact Or.inr h
    · exact Or.inl h
  have hne : u ≠ v := fun h => absurd (h ▸ hlt) (lt_irrefl _)
  rcases hT.forall hsym hu hv hne with h | h
  · exact h.2
  · exact absurd (lt_trans h.1 hlt) (lt_irrefl _)

namespace FS

theorem no_adjacent_pred {c : FS} {sp ep : Nat} (hinv : c.Inv)
    (hdisj : ∀ kv ∈ c.endToStart, kv.1 ≤ sp ∨ ep ≤ kv.2) (hse : sp < ep)
    (hng : ∀ kv, greatestLT ep c.endToStart = some kv → kv.1 ≠ sp) :
    ∀ kv ∈ c.endToStart, kv.1 ≠ sp := by
  intro kv hm heq
  rcases hg : greatestLT ep c.endToStart with _ | ⟨ee, es⟩
  · exact greatestLT_none hg kv hm (heq ▸ hse)
  · have hne := hng _ hg
    obtain ⟨hgm, hglt⟩ := greatestLT_mem hg
    have hes : es < ee := (hinv.2.2.1 (ee, es) hgm).2
    rcases greatestLT_max hinv.1 hg kv hm (heq ▸ hse) with rfl | hlt
    · exact hne heq
    · rcases hdisj (ee, es) hgm with h | h
      · simp only at h
        omega
      · simp only at h
        omega

theorem no_adjacent_succ {c : FS} {ep : Nat} (hinv : c.Inv) (hsep : Sep c)
    (hnl : ∀ kv, leastGE ep c.endToStart = some kv → kv.2 ≠ ep) :
    ∀ kv ∈ c.endToStart, kv.2 ≠ ep := by
  intro kv hm heq
  have hklt : kv.2 < kv.1 := (hinv.2.2.1 kv hm).2
  have hkge : ep ≤ kv.1 := by omega
  rcases hl : leastGE ep c.endToStart with _ | ⟨ee2, es2⟩
  · exact leastGE_none hl kv hm hkge
  · have hne := hnl _ hl
    obtain ⟨hlm, hlge⟩ := leastGE_mem hl
    rcases leastGE_min hinv.1 hl kv hm hkge with rfl | hlt
    · exact hne heq
    · have hrel : ee2 < kv.2 := pairwise_key_rel hinv.1 hsep hlm hm hlt
      simp only at hlge
      omega

end FS
end Llsdb

namespace Llsdb

theorem ne_key_of_mem_ersA {α β : Type} [LinearOrder α] [DecidableEq α]
    {k : α} {kv : α × β} {m : List (α × β)} (hs : SortedKeys m)
    (h : kv ∈ ersA k m) : kv.1 ≠ k := by
  have := lookupA_ersA_self (k := k) (m := m) hs
  rw [lookupA_eq_none_iff] at this
  exact this kv h

namespace FS

/-- The coalescing loop preserves separation; when it stops, the candidate
interval is adjacent to no remaining region, and every interval disjoint
from the initial candidate and from every region stays disjoint. -/
theorem insertLoop_sep {fuel : Nat} {c c' : FS} {sp ep sp' ep' : Nat}
    (hinv : c.Inv) (hsep : Sep c)
    (hdisj : ∀ kv ∈ c.endToStart, kv.1 ≤ sp ∨ ep ≤ kv.2)
    (hse : sp < ep)
    (hloop : insertLoop fuel c sp ep = some (c', sp', ep')) :
    Sep c' ∧
    (∀ kv ∈ c'.endToStart, kv.1 ≤ sp' ∨ ep' ≤ kv.2) ∧
    (∀ kv ∈ c'.endToStart, kv.1 ≠ sp' ∧ kv.2 ≠ ep') ∧
    (∀ a b : Nat, a < b → (b ≤ sp ∨ ep ≤ a) →
      (∀ kv ∈ c.endToStart, b ≤ kv.2 ∨ kv.1 ≤ a) →
      (b ≤ sp' ∨ ep' ≤ a) ∧ (∀ kv ∈ c'.endToStart, b ≤ kv.2 ∨ kv.1 ≤ a)) := by
  induction fuel generalizing c sp ep with
  | zero => simp [insertLoop] at hloop
  | succ fuel ih =>
    simp only [insertLoop] at hloop
    rcases hsuf : greatestLT ep c.endToStart with _ | ⟨ee, es⟩ <;>
      rcases hpre : leastGE ep c.endToStart with _ | ⟨ee2, es2⟩ <;>
      simp only [hsuf, hpre] at hloop
    · obtain ⟨rfl, rfl, rfl⟩ : c = c' ∧ sp = sp' ∧ ep = ep' := by simpa using hloop
      have hng : ∀ kv, greatestLT ep c.endToStart = some kv → kv.1 ≠ sp := by
        intro kv h
        rw [hsuf] at h
        exact Option.noConfusion h
      have hnl : ∀ kv, leastGE ep c.endToStart = some kv → kv.2 ≠ ep := by
        intro kv h
        rw [hpre] at h
        exact Option.noConfusion h
      exact ⟨hsep, hdisj,
        fun kv hm => ⟨no_adjacent_pred hinv hdisj hse hng kv hm,
          no_adjacent_succ hinv hsep hnl kv hm⟩,
        fun a b hab hint hmap => ⟨hint, hmap⟩⟩
    · by_cases hguard : es2 = ep
      · rw [if_pos hguard] at hloop
        rcases hrem : c.removeEnd ee2 with _ | ⟨c2, rr⟩ <;> simp only [hrem] at hloop
        · exact Option.noConfusion hloop
        · obtain ⟨hkv, hkge⟩ := leastGE_mem hpre
          have hkv2 := hinv.2.2.1 (ee2, es2) hkv
          rcases rr with _ | sz
          · obtain ⟨hceq, hnone⟩ := removeEnd_none hrem
            rw [lookupA_eq_none_iff] at hnone
            exact absurd rfl (hnone (ee2, es2) hkv)
          · obtain ⟨s, p', hl, hsz, hmemf, hslt, hpr, hc2, hinv2, hlen2⟩ :=
              removeEnd_spec hinv hrem
            have hmap2 : c2.endToStart = ersA ee2 c.endToStart := by rw [hc2]
            have hsep2 : Sep c2 := by
              show c2.endToStart.Pairwise _
              rw [hmap2]
              exact List.Pairwise.sublist (ersA_sublist _ _) hsep
            have hse2 : sp < ee2 := lt_trans (hguard ▸ hse) hkv2.2
            have hdisj2 : ∀ kv ∈ c2.endToStart, kv.1 ≤ sp ∨ ee2 ≤ kv.2 := by
              rw [hmap2]
              intro kv hm
              have hmm := mem_of_mem_ersA hm
              have hne := ne_key_of_mem_ersA hinv.1 hm
              rcases hdisj kv hmm with h | h
              · exact Or.inl h
              · have hksz := (hinv.2.2.1 kv hmm).2
                have hge : ep ≤ kv.1 := by omega
                rcases leastGE_min hinv.1 hpre kv hmm hge with rfl | hlt
                · exact absurd rfl hne
                · exact Or.inr (le_of_lt (pairwise_key_rel hinv.1 hsep hkv hmm hlt))
            obtain ⟨hsep', hdisj', hne', hprop'⟩ := ih hinv2 hsep2 hdisj2 hse2 hloop
            refine ⟨hsep', hdisj', hne', ?_⟩
            intro a b hab hint hmap
            have hint2 : b ≤ sp ∨ ee2 ≤ a := by
              rcases hint with h | h
              · exact Or.inl h
              · rcases hmap (ee2, es2) hkv with h2 | h2
                · simp only at h2
                  omega
                · exact Or.inr h2
            have hmap2' : ∀ kv ∈ c2.endToStart, b ≤ kv.2 ∨ kv.1 ≤ a := by
              rw [hmap2]
              intro kv hm
              exact hmap kv (mem_of_mem_ersA hm)
            exact hprop' a b hab hint2 hmap2'
      · rw [if_neg hguard] at hloop
        obtain ⟨rfl, rfl, rfl⟩ : c = c' ∧ sp = sp' ∧ ep = ep' := by simpa using hloop
        have hng : ∀ kv, greatestLT ep c.endToStart = some kv → kv.1 ≠ sp := by
          intro kv h
          rw [hsuf] at h
          exact Option.noConfusion h
        have hnl : ∀ kv, leastGE ep c.endToStart = some kv → kv.2 ≠ ep := by
          intro kv h
          rw [hpre] at h
          cases h
          exact hguard
        exact ⟨hsep, hdisj,
          fun kv hm => ⟨no_adjacent_pred hinv hdisj hse hng kv hm,
            no_adjacent_succ hinv hsep hnl kv hm⟩,
          fun a b hab hint hmap => ⟨hint, hmap⟩⟩
    · by_cases hguard : ee = sp
      · rw [if_pos hguard] at hloop
        rcases hrem : c.removeEnd ee with _ | ⟨c2, rr⟩ <;> simp only [hrem] at hloop
        · exact Option.noConfusion hloop
        · obtain ⟨hkv, hklt⟩ := greatestLT_mem hsuf
          have hkv2 := hinv.2.2.1 (ee, es) hkv
          rcases rr with _ | sz
          · obtain ⟨hceq, hnone⟩ := removeEnd_none hrem
            rw [lookupA_eq_none_iff] at hnone
            exact absurd rfl (hnone (ee, es) hkv)
          · obtain ⟨s, p', hl, hsz, hmemf, hslt, hpr, hc2, hinv2, hlen2⟩ :=
              removeEnd_spec hinv hrem
            have hmap2 : c2.endToStart = ersA ee c.endToStart := by rw [hc2]
            have hsep2 : Sep c2 := by
              show c2.endToStart.Pairwise _
              rw [hmap2]
              exact List.Pairwise.sublist (ersA_sublist _ _) hsep
            have hse2 : es < ep := lt_trans hkv2.2 hklt
            have hdisj2 : ∀ kv ∈ c2.endToStart, kv.1 ≤ es ∨ ep ≤ kv.2 := by
              rw [hmap2]
              intro kv hm
              have hmm := mem_of_mem_ersA hm
              have hne := ne_key_of_mem_ersA hinv.1 hm
              rcases hdisj kv hmm with h | h
              · have : kv.1 < ee := by omega
                exact Or.inl (le_of_lt (pairwise_key_rel hinv.1 hsep hmm hkv this))
              · exact Or.inr h
            obtain ⟨hsep', hdisj', hne', hprop'⟩ := ih hinv2 hsep2 hdisj2 hse2 hloop
            refine ⟨hsep', hdisj', hne', ?_⟩
            intro a b hab hint hmap
            have hint2 : b ≤ es ∨ ep ≤ a := by
              rcases hint with h | h
              · rcases hmap (ee, es) hkv with h2 | h2
                · exact Or.inl h2
                · simp only at h2
                  omega
              · exact Or.inr h
            have hmap2' : ∀ kv ∈ c2.endToStart, b ≤ kv.2 ∨ kv.1 ≤ a := by
              rw [hmap2]
              intro kv hm
              exact hmap kv (mem_of_mem_ersA hm)
            exact hprop' a b hab hint2 hmap2'
      · rw [if_neg hguard] at hloop
        obtain ⟨rfl, rfl, rfl⟩ : c = c' ∧ sp = sp' ∧ ep = ep' := by simpa using hloop
        have hng : ∀ kv, greatestLT ep c.endToStart = some kv → kv.1 ≠ sp := by
          intro kv h
          rw [hsuf] at h
          cases h
          exact hguard
        have hnl : ∀ kv, leastGE ep c.endToStart = some kv → kv.2 ≠ ep := by
          intro kv h
          rw [hpre] at h
          exact Option.noConfusion h
        exact ⟨hsep, hdisj,
          fun kv hm => ⟨no_adjacent_pred hinv hdisj hse hng kv hm,
            no_adjacent_succ hinv hsep hnl kv hm⟩,
          fun a b hab hint hmap => ⟨hint, hmap⟩⟩
    · by_cases hguard : ee = sp
      · rw [if_pos hguard] at hloop
        rcases hrem : c.removeEnd ee with _ | ⟨c2, rr⟩ <;> simp only [hrem] at hloop
        · exact Option.noConfusion hloop
        · obtain ⟨hkv, hklt⟩ := greatestLT_mem hsuf
          have hkv2 := hinv.2.2.1 (ee, es) hkv
          rcases rr with _ | sz
          · obtain ⟨hceq, hnone⟩ := removeEnd_none hrem
            rw [lookupA_eq_none_iff] at hnone
            exact absurd rfl (hnone (ee, es) hkv)
          · obtain ⟨s, p', hl, hsz, hmemf, hslt, hpr, hc2, hinv2, hlen2⟩ :=
              removeEnd_spec hinv hrem
            have hmap2 : c2.endToStart = ersA ee c.endToStart := by rw [hc2]
            have hsep2 : Sep c2 := by
              show c2.endToStart.Pairwise _
              rw [hmap2]
              exact List.Pairwise.sublist (ersA_sublist _ _) hsep
            have hse2 : es < ep := lt_trans hkv2.2 hklt
            have hdisj2 : ∀ kv ∈ c2.endToStart, kv.1 ≤ es ∨ ep ≤ kv.2 := by
              rw [hmap2]
              intro kv hm
              have hmm := mem_of_mem_ersA hm
              have hne := ne_key_of_mem_ersA hinv.1 hm
              rcases hdisj kv hmm with h | h
              · have : kv.1 < ee := by omega
                exact Or.inl (le_of_lt (pairwise_key_rel hinv.1 hsep hmm hkv this))
              · exact Or.inr h
            obtain ⟨hsep', hdisj', hne', hprop'⟩ := ih hinv2 hsep2 hdisj2 hse2 hloop
            refine ⟨hsep', hdisj', hne', ?_⟩
            intro a b hab hint hmap
            have hint2 : b ≤ es ∨ ep ≤ a := by
              rcases hint with h | h
              · rcases hmap (ee, es) hkv with h2 | h2
                · exact Or.inl h2
                · simp only at h2
                  omega
              · exact Or.inr h
            have hmap2' : ∀ kv ∈ c2.endToStart, b ≤ kv.2 ∨ kv.1 ≤ a := by
              rw [hmap2]
              intro kv hm
              exact hmap kv (mem_of_mem_ersA hm)
            exact hprop' a b hab hint2 hmap2'
      · rw [if_neg hguard] at hloop
        by_cases hguard2 : es2 = ep
        · rw [if_pos hguard2] at hloop
          rcases hrem : c.removeEnd ee2 with _ | ⟨c2, rr⟩ <;> simp only [hrem] at hloop
          · exact Option.noConfusion hloop
          · obtain ⟨hkv, hkge⟩ := leastGE_mem hpre
            have hkv2 := hinv.2.2.1 (ee2, es2) hkv
            rcases rr with _ | sz
            · obtain ⟨hceq, hnone⟩ := removeEnd_none hrem
              rw [lookupA_eq_none_iff] at hnone
              exact absurd rfl (hnone (ee2, es2) hkv)
            · obtain ⟨s, p', hl, hsz, hmemf, hslt, hpr, hc2, hinv2, hlen2⟩ :=
                removeEnd_spec hinv hrem
              have hmap2 : c2.endToStart = ersA ee2 c.endToStart := by rw [hc2]
              have hsep2 : Sep c2 := by
                show c2.endToStart.Pairwise _
                rw [hmap2]
                exact List.Pairwise.sublist (ersA_sublist _ _) hsep
              have hse2 : sp < ee2 := lt_trans (hguard2 ▸ hse) hkv2.2
              have hdisj2 : ∀ kv ∈ c2.endToStart, kv.1 ≤ sp ∨ ee2 ≤ kv.2 := by
                rw [hmap2]
                intro kv hm
                have hmm := mem_of_mem_ersA hm
                have hne := ne_key_of_mem_ersA hinv.1 hm
                rcases hdisj kv hmm with h | h
                · exact Or.inl h
                · have hksz := (hinv.2.2.1 kv hmm).2
                  have hge : ep ≤ kv.1 := by omega
                  rcases leastGE_min hinv.1 hpre kv hmm hge with rfl | hlt
                  · exact absurd rfl hne
                  · exact Or.inr (le_of_lt (pairwise_key_rel hinv.1 hsep hkv hmm hlt))
              obtain ⟨hsep', hdisj', hne', hprop'⟩ := ih hinv2 hsep2 hdisj2 hse2 hloop
              refine ⟨hsep', hdisj', hne', ?_⟩
              intro a b hab hint hmap
              have hint2 : b ≤ sp ∨ ee2 ≤ a := by
                rcases hint with h | h
                · exact Or.inl h
                · rcases hmap (ee2, es2) hkv with h2 | h2
                  · simp only at h2
                    omega
                  · exact Or.inr h2
              have hmap2' : ∀ kv ∈ c2.endToStart, b ≤ kv.2 ∨ kv.1 ≤ a := by
                rw [hmap2]
                intro kv hm
                exact hmap kv (mem_of_mem_ersA hm)
              exact hprop' a b hab hint2 hmap2'
        · rw [if_neg hguard2] at hloop
          obtain ⟨rfl, rfl, rfl⟩ : c = c' ∧ sp = sp' ∧ ep = ep' := by simpa using hloop
          have hng : ∀ kv, greatestLT ep c.endToStart = some kv → kv.1 ≠ sp := by
            intro kv h
            rw [hsuf] at h
            cases h
            exact hguard
          have hnl : ∀ kv, leastGE ep c.endToStart = some kv → kv.2 ≠ ep := by
            intro kv h
            rw [hpre] at h
            cases h
            exact hguard2
          exact ⟨hsep, hdisj,
            fun kv hm => ⟨no_adjacent_pred hinv hdisj hse hng kv hm,
              no_adjacent_succ hinv hsep hnl kv hm⟩,
            fun a b hab hint hmap => ⟨hint, hmap⟩⟩

end FS
end Llsdb

namespace Llsdb

theorem pairwise_insA {α β : Type} [LinearOrder α]
    {R : (α × β) → (α × β) → Prop} {k : α} {v : β} {m : List (α × β)}
    (hs : SortedKeys m) (hp : m.Pairwise R)
    (h1 : ∀ kv ∈ m, kv.1 < k → R kv (k, v))
    (h2 : ∀ kv ∈ m, k < kv.1 → R (k, v) kv) :
    (insA k v m).Pairwise R := by
  induction m with
  | nil => simp [insA]
  | cons kv rest ih =>
    have hs' := List.Pairwise.of_cons hs
    have hp' := List.Pairwise.of_cons hp
    simp only [insA]
    by_cases hlt : k < kv.1
    · rw [if_pos hlt]
      refine List.pairwise_cons.2 ⟨?_, hp⟩
      intro x hx
      rcases List.mem_cons.1 hx with rfl | hx'
      · exact h2 x (List.mem_cons_self _ _) hlt
      · have hkey : kv.1 < x.1 := (List.pairwise_cons.1 hs).1 x hx'
        exact h2 x (List.mem_cons_of_mem _ hx') (lt_trans hlt hkey)
    · rw [if_neg hlt]
      by_cases heq : k = kv.1
      · rw [if_pos heq]
        refine List.pairwise_cons.2 ⟨?_, hp'⟩
        intro x hx
        have hkey : kv.1 < x.1 := (List.pairwise_cons.1 hs).1 x hx
        exact h2 x (List.mem_cons_of_mem _ hx) (heq ▸ hkey)
      · rw [if_neg heq]
        have hgt : kv.1 < k := lt_of_le_of_ne (not_lt.1 hlt) (Ne.symm heq)
        refine List.pairwise_cons.2 ⟨?_, ?_⟩
        · intro x hx
          rcases mem_insA_pair hx with rfl | hx'
          · exact h1 kv (List.mem_cons_self _ _) hgt
          · exact (List.pairwise_cons.1 hp).1 x hx'
        · exact ih hs' hp'
            (fun u hu hlt2 => h1 u (List.mem_cons_of_mem _ hu) hlt2)
            (fun u hu hlt2 => h2 u (List.mem_cons_of_mem _ hu) hlt2)

namespace FS

/-- `insert` preserves separation and keeps disjoint intervals disjoint,
provided the inserted region overlaps no held region. -/
theorem insertF_sep {c c' : FS} {f : Free} (hinv : c.Inv) (hsep : Sep c)
    (hwf : f.size ≤ f.endPtr)
    (hdisj : ∀ kv ∈ c.endToStart, kv.1 ≤ f.endPtr - f.size ∨ f.endPtr ≤ kv.2)
    (hins : c.insertF f = some c') :
    Sep c' ∧
    (∀ a b : Nat, a < b →
      (b ≤ f.endPtr - f.size ∨ f.endPtr ≤ a) →
      (∀ kv ∈ c.endToStart, b ≤ kv.2 ∨ kv.1 ≤ a) →
      (∀ kv ∈ c'.endToStart, b ≤ kv.2 ∨ kv.1 ≤ a)) := by
  simp only [insertF] at hins
  by_cases hz : f.size = 0
  · rw [if_pos hz] at hins
    cases hins
    exact ⟨hsep, fun a b hab hint hmap => hmap⟩
  · rw [if_neg hz] at hins
    rcases hloop : insertLoop (c.endToStart.length + 1) c (f.endPtr - f.size) f.endPtr
      with _ | ⟨c2, sp2, ep2⟩ <;> simp only [hloop] at hins
    · exact Option.noConfusion hins
    · have hse : f.endPtr - f.size < f.endPtr := by
        have h0 : 0 < f.size := Nat.pos_of_ne_zero hz
        have : ¬ f.endPtr - f.size < f.endPtr → f.endPtr ≤ f.endPtr - f.size := not_lt.1
        omega
      obtain ⟨A, hchain, htx, hpf, hinv2, hlt, _, _⟩ := insertLoop_chain hinv hse hloop
      obtain ⟨hsep2, hdisj2, hne2, hprop2⟩ := insertLoop_sep hinv hsep hdisj hse hloop
      obtain ⟨p', hlnone, hnmem, hpadd, hceq, hinv', _⟩ := atomAdd_spec hinv2 hlt hins
      have hmap' : c'.endToStart = insA ep2 sp2 c2.endToStart := by rw [hceq]
      constructor
      · show c'.endToStart.Pairwise _
        rw [hmap']
        refine pairwise_insA hinv2.1 hsep2 ?_ ?_
        · intro kv hm hklt
          show kv.1 < sp2
          have h1 := hdisj2 kv hm
          have h2 := (hne2 kv hm).1
          have h3 := (hinv2.2.2.1 kv hm).2
          simp only at h1 h2 h3 ⊢
          omega
        · intro kv hm hkgt
          show ep2 < kv.2
          have h1 := hdisj2 kv hm
          have h2 := (hne2 kv hm).2
          simp only at h1 h2 ⊢
          omega
      · intro a b hab hint hmap
        obtain ⟨hint', hmap'2⟩ := hprop2 a b hab hint hmap
        rw [hmap']
        intro kv hm
        rcases mem_insA_pair hm with rfl | hm'
        · simpa using hint'
        · exact hmap'2 kv hm'
end FS
end Llsdb

namespace Llsdb
namespace FS

/-- `take_for_size` preserves separation and keeps disjoint intervals
disjoint. -/
theorem takeForSize_sep {c c' : FS} {s : Nat} {r : Option Nat} (hinv : c.Inv)
    (hsep : Sep c) (h : c.takeForSize s = some (c', r)) :
    Sep c' ∧
    (∀ a b : Nat, a < b →
      (∀ kv ∈ c.endToStart, b ≤ kv.2 ∨ kv.1 ≤ a) →
      (∀ kv ∈ c'.endToStart, b ≤ kv.2 ∨ kv.1 ≤ a)) := by
  simp only [takeForSize] at h
  rcases hfirst : firstGE (⟨s, 0⟩ : Free) c.sizes with _ | free <;>
    simp only [hfirst] at h
  · obtain ⟨rfl, _⟩ : c = c' ∧ none = r := by simpa using h
    exact ⟨hsep, fun a b hab hmap => hmap⟩
  · rcases hres : c.resize free.endPtr (free.size - s) with _ | ⟨c2, rr⟩ <;>
      simp only [hres] at h
    · exact Option.noConfusion h
    · obtain ⟨rfl, _⟩ : c2 = c' ∧ _ = r := by simpa using h
      obtain ⟨hfmem, _⟩ := firstGE_mem hfirst
      obtain ⟨hfe, hfwf, hfpos⟩ := hinv.2.2.2.1 free hfmem
      simp only [resize] at hres
      rcases hrem : c.removeEnd free.endPtr with _ | ⟨c3, r3⟩ <;>
        simp only [hrem] at hres
      · exact Option.noConfusion hres
      rcases r3 with _ | sz
      · obtain ⟨hceq, hnone⟩ := removeEnd_none hrem
        rw [lookupA_eq_none_iff] at hnone
        exact absurd rfl (hnone (free.endPtr, free.endPtr - free.size) hfe)
      · obtain ⟨st3, p3, hl3, hsz3, hmem3, hslt3, hpr3, hc3, hinv3, hlen3⟩ :=
          removeEnd_spec hinv hrem
        have hst3 : st3 = free.endPtr - free.size :=
          (Option.some.inj ((mem_lookupA hinv.1 hfe).symm.trans hl3)).symm
        have hmap3 : c3.endToStart = ersA free.endPtr c.endToStart := by rw [hc3]
        have hsep3 : Sep c3 := by
          show c3.endToStart.Pairwise _
          rw [hmap3]
          exact List.Pairwise.sublist (ersA_sublist _ _) hsep
        simp only [] at hres
        by_cases hrem0 : free.size - s ≠ 0
        · rw [if_pos hrem0] at hres
          rcases hins : c3.insertF ⟨free.size - s, free.endPtr⟩ with _ | c4 <;>
            simp only [hins] at hres
          · exact Option.noConfusion hres
          · obtain ⟨rfl, _⟩ : c4 = c2 ∧ _ := by simpa using hres
            have hwf4 : (⟨free.size - s, free.endPtr⟩ : Free).size ≤
                (⟨free.size - s, free.endPtr⟩ : Free).endPtr := by
              show free.size - s ≤ free.endPtr
              omega
            have hdisj4 : ∀ kv ∈ c3.endToStart,
                kv.1 ≤ free.endPtr - (free.size - s) ∨ free.endPtr ≤ kv.2 := by
              rw [hmap3]
              intro kv hm
              have hmm := mem_of_mem_ersA hm
              have hne := ne_key_of_mem_ersA hinv.1 hm
              have hks := (hinv.2.2.1 kv hmm).2
              rcases lt_or_gt_of_ne hne with hlt | hgt
              · have := pairwise_key_rel hinv.1 hsep hmm hfe hlt
                simp only at this
                left
                omega
              · have := pairwise_key_rel hinv.1 hsep hfe hmm hgt
                simp only at this
                right
                omega
            obtain ⟨hsep4, hprop4⟩ := insertF_sep hinv3 hsep3 hwf4 hdisj4 hins
            refine ⟨hsep4, ?_⟩
            intro a b hab hmap
            have hmap3' : ∀ kv ∈ c3.endToStart, b ≤ kv.2 ∨ kv.1 ≤ a := by
              rw [hmap3]
              intro kv hm
              exact hmap kv (mem_of_mem_ersA hm)
            refine hprop4 a b hab ?_ hmap3'
            rcases hmap (free.endPtr, free.endPtr - free.size) hfe with h2 | h2
            · simp only at h2
              left
              show b ≤ free.endPtr - (free.size - s)
              omega
            · simp only at h2
              right
              exact h2
        · rw [if_neg hrem0] at hres
          obtain ⟨rfl, _⟩ : c3 = c2 ∧ _ := by simpa using hres
          refine ⟨hsep3, ?_⟩
          intro a b hab hmap
          rw [hmap3]
          intro kv hm
          exact hmap kv (mem_of_mem_ersA hm)

/-- The worker loop of `apply_pending_frees` preserves separation when the
pending frees are well formed, disjoint from all held regions, and pairwise
disjoint. -/
theorem applyGo_sep : ∀ {fs : List Free} {c c' : FS}, c.Inv → Sep c →
    (∀ f ∈ fs, f.size ≤ f.endPtr) →
    (∀ f ∈ fs, 0 < f.size →
      ∀ kv ∈ c.endToStart, f.endPtr ≤ kv.2 ∨ kv.1 ≤ f.endPtr - f.size) →
    fs.Pairwise (fun f g => 0 < f.size → 0 < g.size →
      (f.endPtr ≤ g.endPtr - g.size ∨ g.endPtr ≤ f.endPtr - f.size)) →
    applyPendingFrees.go c fs = some c' → Sep c' := by
  intro fs
  induction fs with
  | nil =>
    intro c c' hinv hsep hwf hdisj hpw h
    cases h
    exact hsep
  | cons f rest ih =>
    intro c c' hinv hsep hwf hdisj hpw h
    simp only [applyPendingFrees.go, Option.bind_eq_bind, Option.bind_eq_some] at h
    obtain ⟨c1, hins, hgo⟩ := h
    have hfwf := hwf f (List.mem_cons_self _ _)
    obtain ⟨A1, hch1, htx1, hpf1, hinv1⟩ := insertF_chain hinv hfwf hins
    by_cases hz : f.size = 0
    · have hc1 : c1 = c := by
        simp only [insertF, if_pos hz] at hins
        exact (Option.some.inj hins).symm
      subst hc1
      exact ih hinv1 hsep (fun g hg => hwf g (List.mem_cons_of_mem _ hg))
        (fun g hg hgs => hdisj g (List.mem_cons_of_mem _ hg) hgs)
        (List.Pairwise.of_cons hpw) hgo
    · have hfpos : 0 < f.size := Nat.pos_of_ne_zero hz
      obtain ⟨hsep1, hprop1⟩ := insertF_sep hinv hsep hfwf
        (fun kv hm => (hdisj f (List.mem_cons_self _ _) hfpos kv hm).symm) hins
      refine ih hinv1 hsep1 (fun g hg => hwf g (List.mem_cons_of_mem _ hg)) ?_
        (List.Pairwise.of_cons hpw) hgo
      intro g hg hgs
      have hgwf := hwf g (List.mem_cons_of_mem _ hg)
      have hab : g.endPtr - g.size < g.endPtr := by omega
      refine hprop1 (g.endPtr - g.size) g.endPtr hab ?_ ?_
      · rcases (List.pairwise_cons.1 hpw).1 g hg hfpos hgs with h2 | h2
        · right
          omega
        · left
          omega
      · intro kv hm
        rcases hdisj g (List.mem_cons_of_mem _ hg) hgs kv hm with h2 | h2
        · left
          exact h2
        · right
          exact h2

end FS
end Llsdb

namespace Llsdb

/-- The reachability invariant of the harness. -/
def RunInv (r : RunSt) : Prop :=
  r.chk.Inv ∧ FS.Sep r.chk ∧ r.chk.txChanges = [] ∧ r.chk.pendingFrees = [] ∧
  r.chk.persist.changedSlots = [] ∧ 1 ≤ r.chk.persist.state.length ∧
  r.cur.Inv ∧ FS.Sep r.cur ∧ FS.PendOk r.cur ∧
  (∃ A, FS.AtomChain r.chk A r.cur ∧ r.cur.txChanges = A)

theorem new_Inv (n : Nat) : (FS.new n).Inv := by
  refine ⟨by simp [SortedKeys, FS.new], by simp [SortedL, FS.new],
    ?_, ?_, ?_, ?_, ?_, ?_⟩
  · intro kv hm
    simp [FS.new] at hm
  · intro f hm
    simp [FS.new] at hm
  · refine ⟨by simp [SortedKeys, PFS.new, FS.new], ?_, ?_, ?_, ?_, ?_, ?_, ?_, ?_⟩
    · intro fs hm
      simp [PFS.new, FS.new] at hm
    · intro e hm
      rw [mem_enum_get?] at hm
      left
      constructor
      · rcases e with ⟨i, v⟩
        simp only [FS.new, PFS.new] at hm
        have := List.get?_mem hm
        simpa using List.eq_of_mem_replicate this
      · rcases e with ⟨i, v⟩
        simp only [FS.new, PFS.new] at hm ⊢
        have : i < n := by
          by_contra hge
          rw [List.get?_eq_none.2 (by simpa using hge)] at hm
          exact Option.noConfusion hm
        simpa using this
    · simp [FS.new, PFS.new, List.nodup_range]
    · intro s hm
      simp only [FS.new, PFS.new] at hm ⊢
      have : s < n := by simpa using hm
      rw [List.get?_eq_get (by simpa using this)]
      simp
    · simp [SortedL, FS.new, PFS.new]
    · intro u hm
      simp [FS.new, PFS.new] at hm
    · intro u hm
      simp [FS.new, PFS.new] at hm
    · intro h
      simp [FS.new, PFS.new]
  · intro f hm
    simp [FS.new] at hm
  · intro fs hm
    simp [FS.new, PFS.new] at hm
  · intro u hm
    simp [FS.new, PFS.new] at hm

theorem init_RunInv {n : Nat} (hn : 1 ≤ n) : RunInv (RunSt.init n) := by
  refine ⟨new_Inv n, by simp [RunSt.init, FS.Sep, FS.new], rfl, rfl, rfl, ?_,
    new_Inv n, by simp [RunSt.init, FS.Sep, FS.new], ?_, ⟨[], FS.AtomChain.nil _, rfl⟩⟩
  · simp only [RunSt.init, FS.new, PFS.new]
    simpa using hn
  · refine ⟨?_, ?_, ?_⟩
    · intro f hm
      simp [RunSt.init, FS.new] at hm
    · intro f hm
      simp [RunSt.init, FS.new] at hm
    · simp [RunSt.init, FS.new]

end Llsdb

namespace Llsdb
namespace FS

/-- `apply_pending_frees` preserves separation under `PendOk`. -/
theorem applyPendingFrees_sep {c c2 : FS} {slots : List Nat} (hinv : c.Inv)
    (hsep : Sep c) (hpo : PendOk c)
    (h : c.applyPendingFrees = some (c2, slots)) : Sep c2 := by
  simp only [applyPendingFrees, Option.map_eq_some'] at h
  obtain ⟨c1, hgo, heq⟩ := h
  have hinv0 : ({ c with pendingFrees := [] } : FS).Inv := by
    rw [Inv_congr (show ({ c with pendingFrees := [] } : FS).core2 = c.core2 from rfl)]
    exact hinv
  have hsep0 : Sep ({ c with pendingFrees := [] } : FS) := hsep
  have hsep1 : Sep c1 :=
    applyGo_sep hinv0 hsep0 hpo.1 hpo.2.1 hpo.2.2 hgo
  have hc2 : c2 = { c1 with persist := c1.persist.takeChangedSlots.2 } := by
    have := congrArg Prod.fst heq
    simpa [PFS.takeChangedSlots] using this.symm
  rw [hc2]
  exact hsep1

/-- `apply_pending_frees` clears the changed-slots set. -/
theorem applyPendingFrees_changedSlots {c c2 : FS} {slots : List Nat}
    (h : c.applyPendingFrees = some (c2, slots)) :
    c2.persist.changedSlots = [] := by
  simp only [applyPendingFrees, Option.map_eq_some'] at h
  obtain ⟨c1, hgo, heq⟩ := h
  have hc2 : c2 = { c1 with persist := c1.persist.takeChangedSlots.2 } := by
    have := congrArg Prod.fst heq
    simpa [PFS.takeChangedSlots] using this.symm
  rw [hc2]
  rfl

/-- A committed state is unchanged by clearing its transaction fields. -/
theorem cleaned_eq_self {c : FS} (htx : c.txChanges = [])
    (hpf : c.pendingFrees = []) (hcs : c.persist.changedSlots = []) :
    ({ c with
        txChanges := []
        pendingFrees := []
        persist := { c.persist with changedSlots := [] } } : FS) = c := by
  obtain ⟨e1, e2, e3, e4, p⟩ := c
  obtain ⟨ps, prb, pus, puq, pcs⟩ := p
  simp only at htx hpf hcs
  simp [htx, hpf, hcs]

end FS

/-- Each harness step preserves the reachability invariant. -/
theorem rstep_RunInv {r r' : RunSt} {op : ROp} (hri : RunInv r)
    (h : rstep r op = some r') : RunInv r' := by
  obtain ⟨h1, h2, h3, h4, h5, h6, h7, h8, h9, A, hch, htxA⟩ := hri
  obtain ⟨hp1, hp2, hp3⟩ := h9
  rcases op with s | ⟨start, sz⟩ | _ | _ | _
  · simp only [rstep, Option.map_eq_some'] at h
    obtain ⟨⟨cm, rres⟩, htk, hr'⟩ := h
    subst hr'
    obtain ⟨A1, hch1, htx1, hpf1, hinv1⟩ := FS.takeForSize_chain h7 htk
    obtain ⟨hsep1, hprop1⟩ := FS.takeForSize_sep h7 h8 htk
    refine ⟨h1, h2, h3, h4, h5, h6, hinv1, hsep1, ⟨?_, ?_, ?_⟩,
      A1 ++ A, FS.AtomChain.comp hch hch1, by rw [htx1, htxA]⟩
    · rw [hpf1]
      exact hp1
    · rw [hpf1]
      intro f hf hfs
      have hwf := hp1 f hf
      exact hprop1 (f.endPtr - f.size) f.endPtr (by omega) (hp2 f hf hfs)
    · rw [hpf1]
      exact hp3
  · simp only [rstep] at h
    by_cases hok : FS.freeOk r.cur start sz
    · rw [if_pos hok] at h
      obtain hr' := Option.some.inj h
      subst hr'
      refine ⟨h1, h2, h3, h4, h5, h6, ?_, ?_, ⟨?_, ?_, ?_⟩,
        A, FS.AtomChain.bookkeep _ hch rfl, htxA⟩
      · rw [FS.Inv_congr
          (show (r.cur.freeReg (Free.fromStartPointer start sz)).core2 = r.cur.core2
            from rfl)]
        exact h7
      · exact h8
      · intro f hf
        simp only [FS.freeReg, List.mem_append, List.mem_singleton] at hf
        rcases hf with hf | rfl
        · exact hp1 f hf
        · show sz ≤ start + sz
          omega
      · intro f hf hfs kv hkv
        simp only [FS.freeReg, List.mem_append, List.mem_singleton] at hf
        rcases hf with hf | rfl
        · exact hp2 f hf hfs kv hkv
        · have := (hok hfs).1 kv hkv
          simp only [Free.fromStartPointer] at *
          rcases this with h2' | h2'
          · left
            omega
          · right
            omega
      · show (r.cur.pendingFrees ++ [Free.fromStartPointer start sz]).Pairwise _
        rw [List.pairwise_append]
        refine ⟨hp3, by simp, ?_⟩
        intro f hf g hg
        rw [List.mem_singleton] at hg
        subst hg
        intro hfs hgs
        simp only [Free.fromStartPointer] at hgs ⊢
        have := (hok (by simpa using hgs)).2 f hf hfs
        rcases this with h2' | h2'
        · right
          omega
        · left
          omega
    · rw [if_neg hok] at h
      exact Option.noConfusion h
  · simp only [rstep, Option.map_eq_some'] at h
    obtain ⟨⟨cm, slots⟩, happ, hr'⟩ := h
    subst hr'
    obtain ⟨A2, hch2, htx2, hpf2, hinv2⟩ := FS.applyPendingFrees_chain h7 hp1 happ
    have hsep2 := FS.applyPendingFrees_sep h7 h8 ⟨hp1, hp2, hp3⟩ happ
    refine ⟨h1, h2, h3, h4, h5, h6, hinv2, hsep2, ⟨?_, ?_, ?_⟩,
      A2 ++ A, FS.AtomChain.comp hch hch2, by rw [htx2, htxA]⟩
    · rw [hpf2]
      intro f hf
      cases hf
    · rw [hpf2]
      intro f hf
      cases hf
    · rw [hpf2]
      exact List.Pairwise.nil
  · simp only [rstep, Option.map_eq_some'] at h
    obtain ⟨⟨cm, slots⟩, happ, hr'⟩ := h
    subst hr'
    obtain ⟨A2, hch2, htx2, hpf2, hinv2⟩ := FS.applyPendingFrees_chain h7 hp1 happ
    have hsep2 := FS.applyPendingFrees_sep h7 h8 ⟨hp1, hp2, hp3⟩ happ
    have hchfull := FS.AtomChain.comp hch hch2
    have hlen := (FS.chain_inv h1 hchfull).2
    have hcs2 := FS.applyPendingFrees_changedSlots happ
    have hinvS : cm.txSuccess.Inv := by
      rw [FS.Inv_congr (show cm.txSuccess.core2 = cm.core2 from rfl)]
      exact hinv2
    have hsepS : FS.Sep cm.txSuccess := hsep2
    refine ⟨hinvS, hsepS, rfl, ?_, ?_, ?_, hinvS, hsepS, ⟨?_, ?_, ?_⟩,
      [], FS.AtomChain.nil _, rfl⟩
    · show cm.pendingFrees = []
      exact hpf2
    · show cm.persist.changedSlots = []
      exact hcs2
    · show 1 ≤ cm.persist.state.length
      rw [hlen]
      exact h6
    · show ∀ f ∈ cm.pendingFrees, _
      rw [hpf2]
      intro f hf
      cases hf
    · show ∀ f ∈ cm.pendingFrees, _
      rw [hpf2]
      intro f hf
      cases hf
    · show cm.pendingFrees.Pairwise _
      rw [hpf2]
      exact List.Pairwise.nil
  · simp only [rstep, Option.map_eq_some'] at h
    obtain ⟨cm, hrb, hr'⟩ := h
    subst hr'
    have hroll := FS.rollback_of_chain h1 h6 hch htxA
    have hcm : cm = r.chk := by
      have := Option.some.inj (hrb.symm.trans hroll)
      rw [this]
      exact FS.cleaned_eq_self h3 h4 h5
    subst hcm
    refine ⟨h1, h2, h3, h4, h5, h6, h1, h2, ⟨?_, ?_, ?_⟩,
      [], FS.AtomChain.nil _, h3⟩
    · rw [h4]
      intro f hf
      cases hf
    · rw [h4]
      intro f hf
      cases hf
    · rw [h4]
      exact List.Pairwise.nil

/-- Reachable harness states satisfy the invariant. -/
theorem runROps_RunInv : ∀ {ops : List ROp} {r r' : RunSt}, RunInv r →
    runROps r ops = some r' → RunInv r' := by
  intro ops
  induction ops with
  | nil =>
    intro r r' hri h
    cases h
    exact hri
  | cons op rest ih =>
    intro r r' hri h
    simp only [runROps, Option.bind_eq_bind, Option.bind_eq_some] at h
    obtain ⟨r1, hstep, hrest⟩ := h
    exact ih (rstep_RunInv hri hstep) hrest

end Llsdb

namespace Llsdb

/-- **C4.** After any sequence of valid frees, inserts (performed by
`apply_pending_frees`), allocations (`take_for_size`), commits, and
rollbacks starting from a fresh manager with at least one persistent slot,
no two distinct held free regions are adjacent: for distinct regions `f`
and `g`, `f.end_pointer` never equals `g`'s start pointer and vice versa
(`insert` merges a new region with any adjacent neighbour first). -/
theorem no_adjacent_free_regions (n : Nat) (ops : List ROp) (r : RunSt)
    (hn : 1 ≤ n) (hrun : runROps (RunSt.init n) ops = some r) :
    ∀ f ∈ r.cur.sizes, ∀ g ∈ r.cur.sizes, f ≠ g →
      f.endPtr ≠ g.startPtr ∧ g.endPtr ≠ f.startPtr := by
  obtain ⟨_, _, _, _, _, _, hinv, hsep, _, _⟩ :=
    runROps_RunInv (init_RunInv hn) hrun
  intro f hf g hg hne
  obtain ⟨hfe, hfwf, hfpos⟩ := hinv.2.2.2.1 f hf
  obtain ⟨hge, hgwf, hgpos⟩ := hinv.2.2.2.1 g hg
  have hkey : f.endPtr ≠ g.endPtr := by
    intro he
    have hl1 := mem_lookupA hinv.1 hfe
    have hl2 := mem_lookupA hinv.1 hge
    rw [he] at hl1
    have hstart := Option.some.inj (hl1.symm.trans hl2)
    refine hne ?_
    rcases f with ⟨fs, fe⟩
    rcases g with ⟨gs, ge⟩
    simp only at he hstart hfwf hgwf hfpos hgpos
    simp only [Free.mk.injEq]
    omega
  rcases lt_or_gt_of_ne hkey with hlt | hgt
  · have hrel : f.endPtr < g.endPtr - g.size :=
      pairwise_key_rel hinv.1 hsep hfe hge hlt
    simp only [Free.startPtr]
    omega
  · have hrel : g.endPtr < f.endPtr - f.size :=
      pairwise_key_rel hinv.1 hsep hge hfe hgt
    simp only [Free.startPtr]
    omega

theorem c4_witness :
    (⟨1, 15⟩ : Free).endPtr ≠ (⟨5, 25⟩ : Free).startPtr ∧
    (⟨5, 25⟩ : Free).endPtr ≠ (⟨1, 15⟩ : Free).startPtr :=
  no_adjacent_free_regions 1 w4ops w4r (by decide) (by decide)
    ⟨1, 15⟩ (by decide) ⟨5, 25⟩ (by decide) (by decide)

end Llsdb

namespace Llsdb
namespace PFS

/-- The snapshot occupies at most as many slots as exist. -/
theorem rev_length_le {p : PFS} (hinv : p.Inv) :
    p.reverseBySize.length ≤ p.state.length := by
  have hnd : (p.reverseBySize.map Prod.snd).Nodup := by
    rw [List.Nodup, List.pairwise_map]
    refine List.Pairwise.imp_of_mem ?_ hinv.1
    intro a b ha hb hlt heq
    have h2a := (hinv.2.1 a ha).1
    have h2b := (hinv.2.1 b hb).1
    rw [heq] at h2a
    have := Option.some.inj (h2a.symm.trans h2b)
    rw [this] at hlt
    exact absurd hlt (lt_irrefl _)
  have hbound : ∀ x ∈ p.reverseBySize.map Prod.snd, x < p.state.length := by
    intro x hx
    obtain ⟨fs, hfs, rfl⟩ := List.mem_map.1 hx
    have h2 := (hinv.2.1 fs hfs).1
    obtain ⟨hlt, _⟩ := List.get?_eq_some.1 h2
    exact hlt
  calc p.reverseBySize.length
      = (p.reverseBySize.map Prod.snd).length := (List.length_map _ _).symm
    _ = (p.reverseBySize.map Prod.snd).toFinset.card :=
        (List.toFinset_card_of_nodup hnd).symm
    _ ≤ (Finset.range p.state.length).card := by
        refine Finset.card_le_card ?_
        intro x hx
        rw [List.mem_toFinset] at hx
        rw [Finset.mem_range]
        exact hbound x hx
    _ = p.state.length := Finset.card_range _

/-- Under the invariant, the reverse map and the unused-slot stack
partition the slot array: occupied slots plus unused slots account for
every index. -/
theorem rev_add_unused_length {p : PFS} (hinv : p.Inv) :
    p.reverseBySize.length + p.unusedSlots.length = p.state.length := by
  have hndrev : (p.reverseBySize.map Prod.snd).Nodup := by
    rw [List.Nodup, List.pairwise_map]
    refine List.Pairwise.imp_of_mem ?_ hinv.1
    intro a b ha hb hlt heq
    have h2a := (hinv.2.1 a ha).1
    have h2b := (hinv.2.1 b hb).1
    rw [heq] at h2a
    have := Option.some.inj (h2a.symm.trans h2b)
    rw [this] at hlt
    exact absurd hlt (lt_irrefl _)
  have hdisj : ∀ s ∈ p.reverseBySize.map Prod.snd, s ∉ p.unusedSlots := by
    intro s hs hu
    obtain ⟨fs, hfs, rfl⟩ := List.mem_map.1 hs
    have h2 := hinv.2.1 fs hfs
    have h5 := hinv.2.2.2.2.1 _ hu
    rw [h2.1] at h5
    have hf := Option.some.inj h5
    rw [hf] at h2
    exact absurd h2.2 (by decide)
  have hnd : (p.reverseBySize.map Prod.snd ++ p.unusedSlots).Nodup := by
    rw [List.nodup_append]
    exact ⟨hndrev, hinv.2.2.2.1, hdisj⟩
  have hmem : ∀ i, i ∈ p.reverseBySize.map Prod.snd ++ p.unusedSlots ↔
      i ∈ List.range p.state.length := by
    intro i
    rw [List.mem_append, List.mem_range]
    constructor
    · rintro (hs | hu)
      · obtain ⟨fs, hfs, rfl⟩ := List.mem_map.1 hs
        exact (List.get?_eq_some.1 (hinv.2.1 fs hfs).1).1
      · exact (List.get?_eq_some.1 (hinv.2.2.2.2.1 _ hu)).1
    · intro hi
      have hv : p.state.get? i = some (p.state.get ⟨i, hi⟩) := List.get?_eq_get hi
      have hmem2 : (i, p.state.get ⟨i, hi⟩) ∈ p.state.enum := mem_enum_get?.2 hv
      rcases hinv.2.2.1 _ hmem2 with ⟨_, hu⟩ | ⟨_, hl⟩
      · exact Or.inr hu
      · exact Or.inl (List.mem_map.2 ⟨(_, i), lookupA_mem hl, rfl⟩)
  have hfs : (p.reverseBySize.map Prod.snd ++ p.unusedSlots).toFinset =
      (List.range p.state.length).toFinset := by
    ext i
    simp only [List.mem_toFinset]
    exact hmem i
  calc p.reverseBySize.length + p.unusedSlots.length
      = (p.reverseBySize.map Prod.snd ++ p.unusedSlots).length := by
        rw [List.length_append, List.length_map]
    _ = (p.reverseBySize.map Prod.snd ++ p.unusedSlots).toFinset.card :=
        (List.toFinset_card_of_nodup hnd).symm
    _ = (List.range p.state.length).toFinset.card := by rw [hfs]
    _ = (List.range p.state.length).length :=
        List.toFinset_card_of_nodup (List.nodup_range _)
    _ = p.state.length := List.length_range _

end PFS

namespace FS

/-- The held regions split into the unplaced queue followed by the
persisted regions, in sorted order. -/
theorem sizes_decomp {c : FS} (hinv : c.Inv) :
    c.sizes = c.persist.unplacedQueue ++ c.persist.reverseBySize.map Prod.fst := by
  haveI : IsAntisymm Free (· < ·) :=
    ⟨fun a b h1 h2 => absurd h2 (asymm h1)⟩
  have hpinv := hinv.2.2.2.2.1
  have hs1 : c.sizes.Pairwise (· < ·) := hinv.2.1
  have hs2 : (c.persist.unplacedQueue ++
      c.persist.reverseBySize.map Prod.fst).Pairwise (· < ·) := by
    rw [List.pairwise_append]
    refine ⟨hpinv.2.2.2.2.2.1, ?_, ?_⟩
    · rw [List.pairwise_map]
      exact hpinv.1
    · intro u hu g hg
      obtain ⟨fs, hfs, rfl⟩ := List.mem_map.1 hg
      exact hpinv.2.2.2.2.2.2.2.1 u hu fs hfs
  have hmemiff : ∀ f, f ∈ c.sizes ↔
      f ∈ c.persist.unplacedQueue ++ c.persist.reverseBySize.map Prod.fst := by
    intro f
    rw [List.mem_append]
    constructor
    · intro hf
      rcases hinv.2.2.2.2.2.1 f hf with hs | hu
      · rcases hl : lookupA f c.persist.reverseBySize with _ | slot
        · exact absurd hl hs
        · exact Or.inr (List.mem_map.2 ⟨(f, slot), lookupA_mem hl, rfl⟩)
      · exact Or.inl hu
    · intro hf
      rcases hf with hu | hs
      · exact hinv.2.2.2.2.2.2.2 f hu
      · obtain ⟨fs, hfs, rfl⟩ := List.mem_map.1 hs
        exact hinv.2.2.2.2.2.2.1 fs hfs
  refine List.eq_of_perm_of_sorted ?_ hs1 hs2
  rw [List.perm_ext_iff_of_nodup (sortedL_nodup hs1) (sortedL_nodup hs2)]
  exact hmemiff

end FS

/-- A harness step never changes the number of persistent slots of the
committed state. -/
theorem rstep_chk_length {r r' : RunSt} {op : ROp} (hri : RunInv r)
    (h : rstep r op = some r') :
    r'.chk.persist.state.length = r.chk.persist.state.length := by
  obtain ⟨h1, h2, h3, h4, h5, h6, h7, h8, h9, A, hch, htxA⟩ := hri
  rcases op with s | ⟨start, sz⟩ | _ | _ | _
  · simp only [rstep, Option.map_eq_some'] at h
    obtain ⟨⟨cm, rres⟩, htk, hr'⟩ := h
    subst hr'
    rfl
  · simp only [rstep] at h
    by_cases hok : FS.freeOk r.cur start sz
    · rw [if_pos hok] at h
      obtain hr' := Option.some.inj h
      subst hr'
      rfl
    · rw [if_neg hok] at h
      exact Option.noConfusion h
  · simp only [rstep, Option.map_eq_some'] at h
    obtain ⟨⟨cm, slots⟩, happ, hr'⟩ := h
    subst hr'
    rfl
  · simp only [rstep, Option.map_eq_some'] at h
    obtain ⟨⟨cm, slots⟩, happ, hr'⟩ := h
    subst hr'
    obtain ⟨A2, hch2, htx2, hpf2, hinv2⟩ := FS.applyPendingFrees_chain h7 h9.1 happ
    exact (FS.chain_inv h1 (FS.AtomChain.comp hch hch2)).2
  · simp only [rstep, Option.map_eq_some'] at h
    obtain ⟨cm, hrb, hr'⟩ := h
    subst hr'
    rfl

theorem runROps_chk_length : ∀ {ops : List ROp} {r r' : RunSt}, RunInv r →
    runROps r ops = some r' →
    r'.chk.persist.state.length = r.chk.persist.state.length := by
  intro ops
  induction ops with
  | nil =>
    intro r r' hri h
    cases h
    rfl
  | cons op rest ih =>
    intro r r' hri h
    simp only [runROps, Option.bind_eq_bind, Option.bind_eq_some] at h
    obtain ⟨r1, hstep, hrest⟩ := h
    rw [ih (rstep_RunInv hri hstep) hrest, rstep_chk_length hri hstep]

/-- **C5.** In every reachable state, the held regions split (in sorted
order) into the unplaced queue followed by the persisted regions, the
persisted set has at most `n` = N_free entries and is as full as possible —
its cardinality equals `min n` (number of held regions) — every unplaced
region is lexicographically below every persisted one — so the persisted
set is exactly the (up to) N_free lexicographically greatest held
regions — and the slot array matches the persisted set in both
directions: every non-NULL slot stores a persisted region and every
persisted region occupies its (non-NULL) slot. -/
theorem persisted_snapshot_bounded (n : Nat) (ops : List ROp) (r : RunSt)
    (hn : 1 ≤ n) (hrun : runROps (RunSt.init n) ops = some r) :
    r.cur.sizes =
      r.cur.persist.unplacedQueue ++ r.cur.persist.reverseBySize.map Prod.fst ∧
    r.cur.persist.reverseBySize.length ≤ n ∧
    (∀ u ∈ r.cur.persist.unplacedQueue,
      ∀ fs ∈ r.cur.persist.reverseBySize, u < fs.1) ∧
    (∀ e ∈ r.cur.persist.state.enum,
      e.2 = Free.NULL ∨ (e.2, e.1) ∈ r.cur.persist.reverseBySize) ∧
    r.cur.persist.reverseBySize.length = min n r.cur.sizes.length ∧
    (∀ fs ∈ r.cur.persist.reverseBySize,
      r.cur.persist.state.get? fs.2 = some fs.1 ∧ fs.1 ≠ Free.NULL) := by
  have hri0 := init_RunInv hn
  obtain ⟨h1, h2, h3, h4, h5, h6, hinv, hsep, hpo, A, hch, htxA⟩ :=
    runROps_RunInv hri0 hrun
  have hpinv := hinv.2.2.2.2.1
  have hcur := (FS.chain_inv h1 hch).2
  have hchk := runROps_chk_length hri0 hrun
  have hinit : (RunSt.init n).chk.persist.state.length = n := by
    simp [RunSt.init, FS.new, PFS.new]
  have hsum := PFS.rev_add_unused_length hpinv
  have hdec := congrArg List.length (FS.sizes_decomp hinv)
  simp only [List.length_append, List.length_map] at hdec
  refine ⟨FS.sizes_decomp hinv, by omega, hpinv.2.2.2.2.2.2.2.1, ?_, ?_, ?_⟩
  · intro e he
    rcases hpinv.2.2.1 e he with ⟨hnull, _⟩ | ⟨_, hl⟩
    · exact Or.inl hnull
    · exact Or.inr (lookupA_mem hl)
  · by_cases hu : r.cur.persist.unusedSlots = []
    · rw [hu] at hsum
      simp only [List.length_nil] at hsum
      omega
    · have hq := hpinv.2.2.2.2.2.2.2.2 hu
      rw [hq] at hdec
      simp only [List.length_nil] at hdec
      omega
  · intro fs hfs
    have h2 := hpinv.2.1 fs hfs
    refine ⟨h2.1, ?_⟩
    intro hf
    rw [hf] at h2
    exact absurd h2.2 (by decide)

theorem c5_witness :
    w5r.cur.sizes =
      w5r.cur.persist.unplacedQueue ++ w5r.cur.persist.reverseBySize.map Prod.fst ∧
    w5r.cur.persist.reverseBySize.length ≤ 1 ∧
    w5r.cur.persist.reverseBySize.length = min 1 w5r.cur.sizes.length :=
  ⟨(persisted_snapshot_bounded 1 w5ops w5r (by decide) (by decide)).1,
   (persisted_snapshot_bounded 1 w5ops w5r (by decide) (by decide)).2.1,
   (persisted_snapshot_bounded 1 w5ops w5r (by decide) (by decide)).2.2.2.2.1⟩

end Llsdb

namespace Llsdb

theorem free_le_size {s : Nat} {f : Free} : (⟨s, 0⟩ : Free) ≤ f ↔ s ≤ f.size := by
  rw [Free.le_def]
  show s < f.size ∨ (s = f.size ∧ 0 ≤ f.endPtr) ↔ _
  omega

theorem firstGE_eq_none {α : Type} [LinearOrder α] {x : α} {l : List α}
    (h : ∀ y ∈ l, ¬ x ≤ y) : firstGE x l = none := by
  induction l with
  | nil => rfl
  | cons a as ih =>
    simp only [firstGE]
    rw [if_neg (h a (List.mem_cons_self _ _))]
    exact ih fun y hy => h y (List.mem_cons_of_mem _ hy)

theorem lookup_unique {α β : Type} [LinearOrder α] [DecidableEq α]
    {m : List (α × β)} {k : α} {v1 v2 : β} (hs : SortedKeys m)
    (h1 : (k, v1) ∈ m) (h2 : (k, v2) ∈ m) : v1 = v2 :=
  Option.some.inj ((mem_lookupA hs h1).symm.trans (mem_lookupA hs h2))

namespace PFS

/-- With at least one slot, `add` never panics. -/
theorem add_some_of_inv {p : PFS} {f : Free} (hinv : p.Inv)
    (hn : 1 ≤ p.state.length) : ∃ q, p.add f = some q := by
  rcases hus : p.unusedSlots with _ | ⟨slot, rest⟩
  · rcases hrev : p.reverseBySize with _ | ⟨⟨sm, sl⟩, tl⟩
    · have h0 : ∃ v, p.state.get? 0 = some v := by
        rcases hg : p.state.get? 0 with _ | v
        · rw [List.get?_eq_none] at hg
          omega
        · exact ⟨v, rfl⟩
      obtain ⟨v, hv⟩ := h0
      have hmem : ((0 : Nat), v) ∈ p.state.enum := mem_enum_get?.2 (by simpa using hv)
      rcases hinv.2.2.1 (0, v) hmem with ⟨_, hu⟩ | ⟨_, hlv⟩
      · rw [hus] at hu
        cases hu
      · rw [hrev] at hlv
        simp [lookupA] at hlv
    · simp only [add, hus, hrev, List.head?_cons]
      by_cases hcmp : sm < f
      · rw [if_pos hcmp]
        exact ⟨_, rfl⟩
      · rw [if_neg hcmp]
        exact ⟨_, rfl⟩
  · simp only [add, hus]
    exact ⟨_, rfl⟩

end PFS
end Llsdb

namespace Llsdb
namespace FS

/-- **C7.** `take_for_size s` returns `None` exactly when no held region
has size at least `s`.  Otherwise it chooses the region with the smallest
size at least `s`, breaking ties by smallest end pointer, returns that
region\'s start pointer, and afterwards the manager holds in its place
either nothing (when the size is exactly `s`) or the region
`(end_pointer, size - s)` with the same end pointer. -/
theorem take_for_size_correct (c : FS) (s : Nat)
    (hinv : c.Inv) (hsep : Sep c) (hn : 1 ≤ c.persist.state.length) :
    ((∀ f ∈ c.sizes, ¬ s ≤ f.size) → c.takeForSize s = some (c, none)) ∧
    (∀ f ∈ c.sizes, s ≤ f.size →
      ∃ chosen c', chosen ∈ c.sizes ∧ s ≤ chosen.size ∧
        (∀ g ∈ c.sizes, s ≤ g.size → chosen ≤ g) ∧
        c.takeForSize s = some (c', some chosen.startPtr) ∧
        c'.sizes = (if chosen.size = s then ers chosen c.sizes
          else ins ⟨chosen.size - s, chosen.endPtr⟩ (ers chosen c.sizes))) := by
  constructor
  · intro hnone
    have hfg : firstGE (⟨s, 0⟩ : Free) c.sizes = none :=
      firstGE_eq_none (fun y hy hle => hnone y hy (free_le_size.1 hle))
    simp [takeForSize, hfg]
  · intro f hf hfs
    rcases hfg : firstGE (⟨s, 0⟩ : Free) c.sizes with _ | chosen
    · exact absurd (free_le_size.2 hfs) (firstGE_none hfg f hf)
    obtain ⟨hcm, hcle⟩ := firstGE_mem hfg
    have hcs : s ≤ chosen.size := free_le_size.1 hcle
    have hmin : ∀ g ∈ c.sizes, s ≤ g.size → chosen ≤ g :=
      fun g hg hgs => firstGE_min hinv.2.1 hfg g hg (free_le_size.2 hgs)
    obtain ⟨hce, hcwf, hcpos⟩ := hinv.2.2.2.1 chosen hcm
    have hl : lookupA chosen.endPtr c.endToStart =
        some (chosen.endPtr - chosen.size) := mem_lookupA hinv.1 hce
    have htr : c.persist.tracked chosen := hinv.2.2.2.2.2.1 chosen hcm
    obtain ⟨p1, hp1⟩ := PFS.remove_some_of_tracked htr
    have harith : chosen.endPtr - (chosen.endPtr - chosen.size) = chosen.size := by
      omega
    have hfree0 :
        (⟨chosen.endPtr - (chosen.endPtr - chosen.size), chosen.endPtr⟩ : Free)
        = chosen := by
      rw [harith]
    have hrem : c.removeEnd chosen.endPtr =
        some ({ c with
                 endToStart := ersA chosen.endPtr c.endToStart
                 sizes := ers chosen c.sizes
                 txChanges := Change.Remove chosen :: c.txChanges
                 persist := p1 }, some chosen.size) := by
      simp only [removeEnd, hl]
      rw [hfree0, harith, if_neg (not_not_intro hcm), hp1]
      rfl
    obtain ⟨st3, p3, hl3, hsz3, hmem3, hslt3, hpr3, hc3eq, hinv3, hlen3⟩ :=
      removeEnd_spec hinv hrem
    have hm3 : ({ c with
                 endToStart := ersA chosen.endPtr c.endToStart
                 sizes := ers chosen c.sizes
                 txChanges := Change.Remove chosen :: c.txChanges
                 persist := p1 } : FS).endToStart = ersA chosen.endPtr c.endToStart :=
      rfl
    by_cases hs0 : chosen.size = s
    · have hres : c.resize chosen.endPtr (chosen.size - s) =
          some ({ c with
                 endToStart := ersA chosen.endPtr c.endToStart
                 sizes := ers chosen c.sizes
                 txChanges := Change.Remove chosen :: c.txChanges
                 persist := p1 }, some chosen.size) := by
        simp only [resize, hrem]
        rw [if_neg (by omega : ¬ chosen.size - s ≠ 0)]
      refine ⟨chosen, { c with
                 endToStart := ersA chosen.endPtr c.endToStart
                 sizes := ers chosen c.sizes
                 txChanges := Change.Remove chosen :: c.txChanges
                 persist := p1 }, hcm, hcs, hmin, ?_, ?_⟩
      · simp only [takeForSize, hfg, hres]
      · rw [if_pos hs0]
    · have hslt : s < chosen.size := lt_of_le_of_ne hcs (fun h => hs0 h.symm)
      have hne0 : chosen.size - s ≠ 0 := by omega
      have hga : ∀ kv, greatestLT chosen.endPtr
          (ersA chosen.endPtr c.endToStart) = some kv →
          kv.1 ≠ chosen.endPtr - (chosen.size - s) := by
        intro kv hk
        obtain ⟨hkm, hklt⟩ := greatestLT_mem hk
        have hkne := ne_key_of_mem_ersA hinv.1 hkm
        have hkmm := mem_of_mem_ersA hkm
        have hrel := pairwise_key_rel hinv.1 hsep hkmm hce
          (lt_of_le_of_ne (le_of_lt hklt) hkne)
        simp only at hrel
        omega
      have hlb : ∀ kv, leastGE chosen.endPtr
          (ersA chosen.endPtr c.endToStart) = some kv →
          kv.2 ≠ chosen.endPtr := by
        intro kv hk
        obtain ⟨hkm, hkge⟩ := leastGE_mem hk
        have hkne := ne_key_of_mem_ersA hinv.1 hkm
        have hkmm := mem_of_mem_ersA hkm
        have hrel := pairwise_key_rel hinv.1 hsep hce hkmm
          (lt_of_le_of_ne hkge (Ne.symm hkne))
        simp only at hrel
        omega
      have hloop : insertLoop
          ((ersA chosen.endPtr c.endToStart).length + 1)
          ({ c with
                 endToStart := ersA chosen.endPtr c.endToStart
                 sizes := ers chosen c.sizes
                 txChanges := Change.Remove chosen :: c.txChanges
                 persist := p1 } : FS)
          (chosen.endPtr - (chosen.size - s)) chosen.endPtr =
          some (({ c with
                 endToStart := ersA chosen.endPtr c.endToStart
                 sizes := ers chosen c.sizes
                 txChanges := Change.Remove chosen :: c.txChanges
                 persist := p1 } : FS),
            chosen.endPtr - (chosen.size - s), chosen.endPtr) := by
        simp only [insertLoop]
        rcases hg1 : greatestLT chosen.endPtr (ersA chosen.endPtr c.endToStart)
          with _ | ⟨ee, es⟩ <;>
          rcases hg2 : leastGE chosen.endPtr (ersA chosen.endPtr c.endToStart)
            with _ | ⟨ee2, es2⟩ <;>
          simp only [hm3, hg1, hg2]
        · rw [if_neg (fun h => hlb (ee2, es2) hg2 h)]
        · rw [if_neg (fun h => hga (ee, es) hg1 h)]
        · rw [if_neg (fun h => hga (ee, es) hg1 h),
            if_neg (fun h => hlb (ee2, es2) hg2 h)]
      have hlnone : lookupA chosen.endPtr (ersA chosen.endPtr c.endToStart) = none :=
        lookupA_ersA_self hinv.1
      have hnm : (⟨chosen.size - s, chosen.endPtr⟩ : Free) ∉ ers chosen c.sizes := by
        intro hmem4
        by_cases hsz : s = 0
        · subst hsz
          have : (⟨chosen.size - 0, chosen.endPtr⟩ : Free) = chosen := by
            rw [Nat.sub_zero]
          rw [this] at hmem4
          exact not_mem_ers_self hinv.2.1 hmem4
        · have hmm := mem_of_mem_ers hmem4
          have hentry := (hinv.2.2.2.1 _ hmm).1
          simp only at hentry
          have := lookup_unique hinv.1 hentry hce
          omega
      obtain ⟨q2, hq2⟩ := PFS.add_some_of_inv
        (f := ⟨chosen.endPtr - (chosen.endPtr - (chosen.size - s)), chosen.endPtr⟩)
        hinv3.2.2.2.2.1 (by rw [hlen3]; exact hn)
      have harith2 : chosen.endPtr - (chosen.endPtr - (chosen.size - s)) =
          chosen.size - s := by omega
      have hatom_ex : ∃ c4, ({ c with
                 endToStart := ersA chosen.endPtr c.endToStart
                 sizes := ers chosen c.sizes
                 txChanges := Change.Remove chosen :: c.txChanges
                 persist := p1 } : FS).atomAdd
          (chosen.endPtr - (chosen.size - s)) chosen.endPtr = some c4 := by
        simp only [atomAdd, hm3]
        rw [if_neg (by rw [hlnone]; simp)]
        rw [harith2] at hq2 ⊢
        rw [if_neg hnm, hq2]
        exact ⟨_, rfl⟩
      obtain ⟨c4, hatom⟩ := hatom_ex
      obtain ⟨p2, _, _, _, hc4eq, _, _⟩ := atomAdd_spec hinv3
        (show chosen.endPtr - (chosen.size - s) < chosen.endPtr by omega) hatom
      have hins : ({ c with
                 endToStart := ersA chosen.endPtr c.endToStart
                 sizes := ers chosen c.sizes
                 txChanges := Change.Remove chosen :: c.txChanges
                 persist := p1 } : FS).insertF ⟨chosen.size - s, chosen.endPtr⟩ =
          some c4 := by
        simp only [insertF]
        rw [if_neg hne0]
        rw [hloop]
        exact hatom
      have hres : c.resize chosen.endPtr (chosen.size - s) = some (c4, some chosen.size) := by
        simp only [resize, hrem]
        rw [if_pos hne0, hins]
        rfl
      refine ⟨chosen, c4, hcm, hcs, hmin, ?_, ?_⟩
      · simp only [takeForSize, hfg, hres]
      · rw [if_neg hs0, hc4eq]
        show ins ⟨chosen.endPtr - (chosen.endPtr - (chosen.size - s)), chosen.endPtr⟩
          (ers chosen c.sizes) = _
        rw [harith2]

end FS
end Llsdb

namespace Llsdb
namespace FS

theorem c7_witness : ∃ chosen c', chosen ∈ w7c.sizes ∧ 4 ≤ chosen.size ∧
    (∀ g ∈ w7c.sizes, 4 ≤ g.size → chosen ≤ g) ∧
    w7c.takeForSize 4 = some (c', some chosen.startPtr) ∧
    c'.sizes = (if chosen.size = 4 then ers chosen w7c.sizes
      else ins ⟨chosen.size - 4, chosen.endPtr⟩ (ers chosen w7c.sizes)) :=
  (take_for_size_correct w7c 4 (by decide) (by decide) (by decide)).2
    ⟨5, 15⟩ (by decide) (by decide)

end FS
end Llsdb

namespace Llsdb

theorem popLast?_concat {α : Type} {l : List α} {x : α} :
    popLast? (l ++ [x]) = some (x, l) := by
  induction l with
  | nil => rfl
  | cons a as ih =>
    rcases as with _ | ⟨b, bs⟩
    · rfl
    · show (popLast? ((b :: bs) ++ [x])).map _ = _
      rw [ih]
      rfl

namespace FS

/-- The coalescing loop keeps every region start (and the candidate start)
at or above pointer 1. -/
theorem insertLoop_wf1 {fuel : Nat} {c c' : FS} {sp ep sp' ep' : Nat}
    (hinv : c.Inv) (hw : ∀ kv ∈ c.endToStart, 1 ≤ kv.2) (hsp : 1 ≤ sp)
    (hloop : insertLoop fuel c sp ep = some (c', sp', ep')) :
    (∀ kv ∈ c'.endToStart, 1 ≤ kv.2) ∧ 1 ≤ sp' := by
  induction fuel generalizing c sp ep with
  | zero => simp [insertLoop] at hloop
  | succ fuel ih =>
    simp only [insertLoop] at hloop
    rcases hsuf : greatestLT ep c.endToStart with _ | ⟨ee, es⟩ <;>
      rcases hpre : leastGE ep c.endToStart with _ | ⟨ee2, es2⟩ <;>
      simp only [hsuf, hpre] at hloop
    · obtain ⟨rfl, rfl, rfl⟩ : c = c' ∧ sp = sp' ∧ ep = ep' := by simpa using hloop
      exact ⟨hw, hsp⟩
    · by_cases hguard : es2 = ep
      · rw [if_pos hguard] at hloop
        rcases hrem : c.removeEnd ee2 with _ | ⟨c2, rr⟩ <;> simp only [hrem] at hloop
        · exact Option.noConfusion hloop
        · have hnext : (∀ kv ∈ c2.endToStart, 1 ≤ kv.2) ∧ c2.Inv := by
            rcases rr with _ | sz
            · obtain ⟨rfl, -⟩ := removeEnd_none hrem
              exact ⟨hw, hinv⟩
            · obtain ⟨st2, p2, _, _, _, _, _, hc2, hinv2, _⟩ := removeEnd_spec hinv hrem
              refine ⟨?_, hinv2⟩
              rw [hc2]
              intro kv hm
              exact hw kv (mem_of_mem_ersA hm)
          exact ih hnext.2 hnext.1 hsp hloop
      · rw [if_neg hguard] at hloop
        obtain ⟨rfl, rfl, rfl⟩ : c = c' ∧ sp = sp' ∧ ep = ep' := by simpa using hloop
        exact ⟨hw, hsp⟩
    · by_cases hguard : ee = sp
      · rw [if_pos hguard] at hloop
        rcases hrem : c.removeEnd ee with _ | ⟨c2, rr⟩ <;> simp only [hrem] at hloop
        · exact Option.noConfusion hloop
        · obtain ⟨hkv, _⟩ := greatestLT_mem hsuf
          have hes : 1 ≤ es := hw (ee, es) hkv
          have hnext : (∀ kv ∈ c2.endToStart, 1 ≤ kv.2) ∧ c2.Inv := by
            rcases rr with _ | sz
            · obtain ⟨rfl, -⟩ := removeEnd_none hrem
              exact ⟨hw, hinv⟩
            · obtain ⟨st2, p2, _, _, _, _, _, hc2, hinv2, _⟩ := removeEnd_spec hinv hrem
              refine ⟨?_, hinv2⟩
              rw [hc2]
              intro kv hm
              exact hw kv (mem_of_mem_ersA hm)
          exact ih hnext.2 hnext.1 hes hloop
      · rw [if_neg hguard] at hloop
        obtain ⟨rfl, rfl, rfl⟩ : c = c' ∧ sp = sp' ∧ ep = ep' := by simpa using hloop
        exact ⟨hw, hsp⟩
    · by_cases hguard : ee = sp
      · rw [if_pos hguard] at hloop
        rcases hrem : c.removeEnd ee with _ | ⟨c2, rr⟩ <;> simp only [hrem] at hloop
        · exact Option.noConfusion hloop
        · obtain ⟨hkv, _⟩ := greatestLT_mem hsuf
          have hes : 1 ≤ es := hw (ee, es) hkv
          have hnext : (∀ kv ∈ c2.endToStart, 1 ≤ kv.2) ∧ c2.Inv := by
            rcases rr with _ | sz
            · obtain ⟨rfl, -⟩ := removeEnd_none hrem
              exact ⟨hw, hinv⟩
            · obtain ⟨st2, p2, _, _, _, _, _, hc2, hinv2, _⟩ := removeEnd_spec hinv hrem
              refine ⟨?_, hinv2⟩
              rw [hc2]
              intro kv hm
              exact hw kv (mem_of_mem_ersA hm)
          exact ih hnext.2 hnext.1 hes hloop
      · rw [if_neg hguard] at hloop
        by_cases hguard2 : es2 = ep
        · rw [if_pos hguard2] at hloop
          rcases hrem : c.removeEnd ee2 with _ | ⟨c2, rr⟩ <;> simp only [hrem] at hloop
          · exact Option.noConfusion hloop
          · have hnext : (∀ kv ∈ c2.endToStart, 1 ≤ kv.2) ∧ c2.Inv := by
              rcases rr with _ | sz
              · obtain ⟨rfl, -⟩ := removeEnd_none hrem
                exact ⟨hw, hinv⟩
              · obtain ⟨st2, p2, _, _, _, _, _, hc2, hinv2, _⟩ := removeEnd_spec hinv hrem
                refine ⟨?_, hinv2⟩
                rw [hc2]
                intro kv hm
                exact hw kv (mem_of_mem_ersA hm)
            exact ih hnext.2 hnext.1 hsp hloop
        · rw [if_neg hguard2] at hloop
          obtain ⟨rfl, rfl, rfl⟩ : c = c' ∧ sp = sp' ∧ ep = ep' := by simpa using hloop
          exact ⟨hw, hsp⟩

/-- `take_for_size` keeps region starts at or above 1 and returns a
pointer at or above 1. -/
theorem takeForSize_wf1 {c c' : FS} {s : Nat} {r : Option Nat} (hinv : c.Inv)
    (hw : ∀ kv ∈ c.endToStart, 1 ≤ kv.2) (h : c.takeForSize s = some (c', r)) :
    (∀ kv ∈ c'.endToStart, 1 ≤ kv.2) ∧ (∀ p, r = some p → 1 ≤ p) := by
  simp only [takeForSize] at h
  rcases hfirst : firstGE (⟨s, 0⟩ : Free) c.sizes with _ | free <;>
    simp only [hfirst] at h
  · obtain ⟨rfl, hr⟩ : c = c' ∧ none = r := by simpa using h
    exact ⟨hw, fun p hp => by rw [← hr] at hp; exact Option.noConfusion hp⟩
  · rcases hres : c.resize free.endPtr (free.size - s) with _ | ⟨c2, rr⟩ <;>
      simp only [hres] at h
    · exact Option.noConfusion h
    · obtain ⟨rfl, hr⟩ : c2 = c' ∧ some free.startPtr = r := by simpa using h
      obtain ⟨hfmem, _⟩ := firstGE_mem hfirst
      obtain ⟨hfe, hfwf, hfpos⟩ := hinv.2.2.2.1 free hfmem
      have hstart : 1 ≤ free.startPtr := hw _ hfe
      refine ⟨?_, fun p hp => by rw [← hr] at hp; cases hp; exact hstart⟩
      simp only [resize] at hres
      rcases hrem : c.removeEnd free.endPtr with _ | ⟨c3, r3⟩ <;>
        simp only [hrem] at hres
      · exact Option.noConfusion hres
      rcases r3 with _ | sz
      · obtain ⟨hceq, hnone⟩ := removeEnd_none hrem
        rw [lookupA_eq_none_iff] at hnone
        exact absurd rfl (hnone (free.endPtr, free.endPtr - free.size) hfe)
      · obtain ⟨st3, p3, hl3, hsz3, hmem3, hslt3, hpr3, hc3, hinv3, hlen3⟩ :=
          removeEnd_spec hinv hrem
        have hw3 : ∀ kv ∈ c3.endToStart, 1 ≤ kv.2 := by
          rw [hc3]
          intro kv hm
          exact hw kv (mem_of_mem_ersA hm)
        simp only [] at hres
        by_cases hrem0 : free.size - s ≠ 0
        · rw [if_pos hrem0] at hres
          rcases hins : c3.insertF ⟨free.size - s, free.endPtr⟩ with _ | c4 <;>
            simp only [hins] at hres
          · exact Option.noConfusion hres
          · obtain ⟨rfl, _⟩ : c4 = c2 ∧ _ := by simpa using hres
            simp only [insertF] at hins
            rw [if_neg hrem0] at hins
            rcases hloop : insertLoop (c3.endToStart.length + 1) c3
                (free.endPtr - (free.size - s)) free.endPtr
              with _ | ⟨c5, sp5, ep5⟩ <;> simp only [hloop] at hins
            · exact Option.noConfusion hins
            · have hsp : 1 ≤ free.endPtr - (free.size - s) := by
                simp only [Free.startPtr] at hstart
                omega
              obtain ⟨hw5, hsp5⟩ := insertLoop_wf1 hinv3 hw3 hsp hloop
              obtain ⟨A5, hch5, htx5, hpf5, hinv5, hlt5, _, _⟩ :=
                insertLoop_chain hinv3 (by
                  simp only [Free.startPtr] at hstart
                  omega) hloop
              obtain ⟨p', _, _, _, hc4, _, _⟩ := atomAdd_spec hinv5 hlt5 hins
              rw [hc4]
              intro kv hm
              rcases mem_insA_pair hm with rfl | hm'
              · exact hsp5
              · exact hw5 kv hm'
        · rw [if_neg hrem0] at hres
          obtain ⟨rfl, _⟩ : c3 = c2 ∧ _ := by simpa using hres
          exact hw3

end FS

theorem listWrite_length {file : List Nat} {off : Nat} {bytes : List Nat} :
    (listWrite file off bytes).length = max file.length (off + bytes.length) := by
  simp only [listWrite, List.length_append, List.length_take, List.length_replicate,
    List.length_drop]
  omega

theorem listWrite_take {file : List Nat} {off : Nat} {bytes : List Nat} {P : Nat}
    (hP : P ≤ off) (hf : P ≤ file.length) :
    (listWrite file off bytes).take P = file.take P := by
  simp only [listWrite]
  rw [List.append_assoc, List.append_assoc]
  rw [List.take_append_of_le_length (by
    rw [List.length_take]
    omega)]
  rw [List.take_take, min_eq_left hP]

theorem take_take_of_le {l : List Nat} {L P : Nat} (h : P ≤ L) :
    (l.take L).take P = l.take P := by
  rw [List.take_take, min_eq_left h]

/-- The invariant a transaction body maintains relative to the starting
state `S0` (assumed committed). -/
def TxInv (S0 S : Db) : Prop :=
  S.pageBuf = S0.pageBuf ∧
  S0.file.length ≤ S.file.length ∧
  S.file.take S0.pageBuf.length = S0.file.take S0.pageBuf.length ∧
  S.fs.Inv ∧
  (∀ kv ∈ S.fs.endToStart, 1 ≤ kv.2) ∧
  (∃ A, FS.AtomChain S0.fs A S.fs ∧ S.fs.txChanges = A) ∧
  vecRollback.go S.vec.index S.vec.txChanges = some S0.vec.index

theorem dstep_TxInv {S0 S S' : Db} {op : DOp}
    (hpage : S0.pageBuf.length ≤ S0.file.length)
    (hinv : TxInv S0 S) (h : dstep S op = some S') : TxInv S0 S' := by
  obtain ⟨hpb, hlen, hpre, hfsi, hw1, ⟨A, hch, htxA⟩, hvec⟩ := hinv
  have hPle : S0.pageBuf.length ≤ S.file.length := le_trans hpage hlen
  have hpush : ∀ {slot : Nat} {v : List Nat} {S1 : Db} {eh : EH},
      S.push slot v = some (S1, eh) → TxInv S0 S1 ∧ S1.vec = S.vec := by
    intro slot v S1 eh hp
    simp only [Db.push, Db.pushRaw] at hp
    rcases hh : S.currHead slot with _ | prev <;> simp only [hh] at hp
    · exact Option.noConfusion hp
    rcases htk : S.fs.takeForSize
        ((encodePointer prev ++ encBytes v).length + 0) with _ | ⟨fs', res⟩ <;>
      simp only [htk] at hp
    · exact Option.noConfusion hp
    rcases res with _ | p <;> simp only [] at hp
    · exact Option.noConfusion hp
    obtain ⟨hS1, -⟩ : _ = S1 ∧ _ := by simpa using hp
    obtain ⟨A1, hch1, htx1, hpf1, hfsi1⟩ := FS.takeForSize_chain hfsi htk
    obtain ⟨hw1', hp1⟩ := FS.takeForSize_wf1 hfsi hw1 htk
    have hp1' : 1 ≤ p := hp1 p rfl
    rw [← hS1]
    refine ⟨⟨hpb, ?_, ?_, hfsi1, hw1', ⟨A1 ++ A, FS.AtomChain.comp hch hch1,
      by rw [htx1, htxA]⟩, hvec⟩, rfl⟩
    · show S0.file.length ≤ (listWrite S.file _ _).length
      rw [listWrite_length]
      omega
    · show (listWrite S.file (S.ptrOff p) _).take S0.pageBuf.length = _
      rw [listWrite_take ?hoff hPle]
      · exact hpre
      · show S0.pageBuf.length ≤ p + S.pageBuf.length - 1
        rw [hpb]
        omega
  have hpop : ∀ {slot : Nat} {S1 : Db} {res : Option (List Nat)},
      S.pop slot = some (S1, res) → TxInv S0 S1 ∧ S1.vec = S.vec ∧
        (res = none → S1 = S) := by
    intro slot S1 res hp
    simp only [Db.pop] at hp
    rcases hh : S.currHead slot with _ | head <;> simp only [hh] at hp
    · exact Option.noConfusion hp
    by_cases hz : head = 0
    · rw [if_pos hz] at hp
      obtain ⟨rfl, -⟩ : S = S1 ∧ _ := by simpa using hp
      exact ⟨⟨hpb, hlen, hpre, hfsi, hw1, ⟨A, hch, htxA⟩, hvec⟩, rfl, fun _ => rfl⟩
    · rw [if_neg hz] at hp
      rcases hd1 : decodePointerAt S.file (S.ptrOff head) with _ | ⟨prev, c1⟩ <;>
        simp only [hd1] at hp
      · exact Option.noConfusion hp
      rcases hd2 : decodeBytesAt S.file (S.ptrOff head + c1) with _ | ⟨v, c2⟩ <;>
        simp only [hd2] at hp
      · exact Option.noConfusion hp
      obtain ⟨hS1, hres⟩ : _ = S1 ∧ some v = res := by simpa using hp
      rw [← hS1]
      refine ⟨⟨hpb, hlen, hpre, ?_, hw1, ⟨A, FS.AtomChain.bookkeep _ hch rfl, htxA⟩,
        hvec⟩, rfl, ?_⟩
      · show (S.fs.freeReg _).Inv
        rw [FS.Inv_congr (show (S.fs.freeReg _).core2 = S.fs.core2 from rfl)]
        exact hfsi
      · intro hres'
        rw [← hres] at hres'
        exact Option.noConfusion hres'
  rcases op with ⟨slot, v⟩ | slot | ⟨slot, v⟩ | slot
  · simp only [dstep, Option.map_eq_some'] at h
    obtain ⟨⟨S1, eh⟩, hp, hS'⟩ := h
    rw [← hS']
    exact (hpush hp).1
  · simp only [dstep, Option.map_eq_some'] at h
    obtain ⟨⟨S1, res⟩, hp, hS'⟩ := h
    rw [← hS']
    exact (hpop hp).1
  · simp only [dstep, Db.vecPush] at h
    rcases hp : S.push slot v with _ | ⟨S1, eh⟩ <;> simp only [hp] at h
    · exact Option.noConfusion h
    obtain ⟨⟨hpb1, hlen1, hpre1, hfsi1, hw11, hch1, hvec1⟩, hveq⟩ := hpush hp
    obtain hS' := (Option.some.inj h).symm
    rw [hS']
    refine ⟨hpb1, hlen1, hpre1, hfsi1, hw11, hch1, ?_⟩
    show vecRollback.go (S1.vec.index ++ [eh.valuePointer])
      (VChange.push :: S1.vec.txChanges) = some S0.vec.index
    rw [vecRollback.go, popLast?_concat]
    rw [hveq]
    exact hvec
  · simp only [dstep, Option.map_eq_some'] at h
    obtain ⟨⟨S1, res⟩, hp, hS'⟩ := h
    simp only [Db.vecPop] at hp
    rcases hp0 : S.pop slot with _ | ⟨S2, res2⟩ <;> simp only [hp0] at hp
    · exact Option.noConfusion hp
    obtain ⟨⟨hpb2, hlen2, hpre2, hfsi2, hw12, hch2, hvec2⟩, hveq2, hid2⟩ := hpop hp0
    rcases res2 with _ | v2
    · by_cases hz : S2.vec.index.length = 0
      · rw [if_pos hz] at hp
        obtain ⟨rfl, -⟩ : S2 = S1 ∧ _ := by simpa using hp
        rw [← hS']
        exact ⟨hpb2, hlen2, hpre2, hfsi2, hw12, hch2, hvec2⟩
      · rw [if_neg hz] at hp
        exact Option.noConfusion hp
    · rcases hpl : popLast? S2.vec.index with _ | ⟨q, rest⟩ <;> simp only [hpl] at hp
      · exact Option.noConfusion hp
      obtain ⟨hS1, -⟩ : _ = S1 ∧ _ := by simpa using hp
      rw [← hS', ← hS1]
      refine ⟨hpb2, hlen2, hpre2, hfsi2, hw12, hch2, ?_⟩
      show vecRollback.go rest (VChange.pop q :: S2.vec.txChanges) = some S0.vec.index
      rw [vecRollback.go]
      rw [← popLast?_eq_append hpl]
      exact hvec2

theorem runDOps_TxInv : ∀ {ops : List DOp} {S0 S S' : Db},
    S0.pageBuf.length ≤ S0.file.length →
    TxInv S0 S → runDOps S ops = some S' → TxInv S0 S' := by
  intro ops
  induction ops with
  | nil =>
    intro S0 S S' hpage hinv h
    cases h
    exact hinv
  | cons op rest ih =>
    intro S0 S S' hpage hinv h
    simp only [runDOps, Option.bind_eq_bind, Option.bind_eq_some] at h
    obtain ⟨S1, hstep, hrest⟩ := h
    exact ih hpage (dstep_TxInv hpage hinv hstep) hrest

set_option maxRecDepth 100000 in
/-- **C3 (counterexample to the claimed property).** Pushing `[10]`,
`[11]`, `[12]`, `[13]` and then unlinking `[11]`, `[12]`, `[13]`
(oldest-first, each via a fresh iteration, writing `Remap` records)
leaves `[10]` as the only non-unlinked entry, yet iteration visits
`[[11], [10]]`: the freed entry `[11]` is visited.  The iterator resolves
`curr` through `map_to_current` *before* processing the remap record it
just read, and `reverse_remap` holds a single predecessor per target, so
chained remaps to the same target lose links. -/
theorem mut_iter_visits_unlinked_entry : c3scenario = some [[11], [10]] := by rfl

/-- **C8.** For every pointer value `p`, `Pointer::encoded_len(p)` equals
the length of the on-disk encoding of `p` written by `encode_entry`
(1 byte if `p ≤ 250`, 3 bytes if `p ≤ 2^16 - 1`, 4 bytes if
`p ≤ 2^32 - 1`, else 5), with the encoder modelled from the spec because
the codec itself is an external crate. -/
theorem encoded_len_correct : ∀ p : Nat, encodedLen p = (encodePointer p).length := by
  intro p
  unfold encodedLen encodePointer
  split_ifs <;> simp

/-- **C9.** When key `k` is present in the ordered map and its stored
value decodes equal to the inserted value `v`, `insert(k, v)` writes
nothing to disk, allocates no space, leaves the backing list, the file,
and the in-memory index unchanged, and returns the previous value. -/
theorem btreemap_insert_idempotent (S : Db) (bt : BtSt) (slot k : Nat)
    (v : List Nat) (h : EH) (hl : lookupA k bt.index = some h)
    (hv : S.rawReadAt h.pointerToEnd = some v) :
    btInsert S bt slot k v = some (S, bt, some v) := by
  simp [btInsert, hl, hv]

set_option maxRecDepth 100000 in
theorem c9_witness : btInsert w9S w9bt 0 7 [42] = some (w9S, w9bt, some [42]) :=
  btreemap_insert_idempotent w9S w9bt 0 7 [42] ⟨1, 0, 1⟩ rfl (by decide)

/-- **C10.** For the append-only sequence index: `get(i)` with
`i ≥ len()` returns `Ok(None)` regardless of the file contents (no
backend read), and with `i < len()` returns the value decoded from the
`i`-th stored value pointer in insertion order. -/
theorem vec_get_spec (S : Db) (i : Nat) :
    (S.vec.index.length ≤ i → ∀ file : List Nat,
      Db.vecGet { S with file := file } i = some none) ∧
    (∀ p, S.vec.index.get? i = some p →
      S.vecGet i = (S.rawReadAt p).map some) := by
  constructor
  · intro hlen file
    have hnone : ({ S with file := file } : Db).vec.index.get? i = none :=
      List.get?_eq_none.2 hlen
    simp only [Db.vecGet]
    rw [show ({ S with file := file } : Db).vec = S.vec from rfl] at *
    rw [hnone]
  · intro p hp
    simp only [Db.vecGet]
    rw [hp]

set_option maxRecDepth 100000 in
theorem c10_witness :
    Db.vecGet { w10S with file := [] } 5 = some none ∧
    w10S.vecGet 0 = some (some [42]) :=
  ⟨(vec_get_spec w10S 5).1 (by decide) [],
   by rw [(vec_get_spec w10S 0).2 2 rfl]; decide⟩

/-- **C1 (amended).** After a transaction body fails, `execute`\'s rollback
restores the in-memory header page, the file length, the header page as
stored in the file, the free-space manager, the surviving index, and the
buffered heads to their pre-transaction state.  (The full claim is
corrected: file bytes inside free regions that the body allocated and
wrote are not rewritten by the truncate-only rollback, so the file is not
byte-identical in general — see the counterexample.) -/
theorem execute_rollback_restores (S S2 : Db) (ops : List DOp)
    (hfsi : S.fs.Inv) (htx : S.fs.txChanges = []) (hpf : S.fs.pendingFrees = [])
    (hcs : S.fs.persist.changedSlots = []) (hn : 1 ≤ S.fs.persist.state.length)
    (hw1 : ∀ kv ∈ S.fs.endToStart, 1 ≤ kv.2)
    (hvtx : S.vec.txChanges = []) (hch : S.changedHeads = [])
    (hpage : S.pageBuf.length ≤ S.file.length)
    (hexe : executeErr S ops = some S2) :
    S2.pageBuf = S.pageBuf ∧ S2.file.length = S.file.length ∧
    S2.file.take S.pageBuf.length = S.file.take S.pageBuf.length ∧
    S2.fs = S.fs ∧ S2.vec = S.vec ∧ S2.changedHeads = S.changedHeads := by
  simp only [executeErr, Option.bind_eq_bind, Option.bind_eq_some] at hexe
  obtain ⟨S1, hrun, hexe⟩ := hexe
  obtain ⟨fs', hroll, hexe⟩ := hexe
  simp only [Option.map_eq_some'] at hexe
  obtain ⟨v', hvroll, hS2⟩ := hexe
  have hstart : TxInv S S :=
    ⟨rfl, le_refl _, rfl, hfsi, hw1, ⟨[], FS.AtomChain.nil _, htx⟩,
      by rw [hvtx]; rfl⟩
  obtain ⟨hpb1, hlen1, hpre1, hfsi1, hw11, ⟨A, hch1, htxA⟩, hvec1⟩ :=
    runDOps_TxInv hpage hstart hrun
  have hrollv := FS.rollback_of_chain hfsi hn hch1 htxA
  have hfs' : fs' = S.fs := by
    have := Option.some.inj (hroll.symm.trans hrollv)
    rw [this]
    exact FS.cleaned_eq_self htx hpf hcs
  have hv' : v' = S.vec := by
    have hvr : vecRollback S1.vec = some ⟨S.vec.index, []⟩ := by
      simp only [vecRollback, hvec1]
      rfl
    have := Option.some.inj (hvroll.symm.trans hvr)
    rw [this]
    rcases hsv : S.vec with ⟨idx, chs⟩
    rw [hsv] at hvtx
    simp only at hvtx
    rw [hvtx]
  rw [← hS2]
  refine ⟨hpb1, ?_, ?_, hfs', hv', hch.symm⟩
  · show (S1.file.take S.file.length).length = S.file.length
    rw [List.length_take]
    omega
  · show (S1.file.take S.file.length).take S.pageBuf.length = _
    rw [take_take_of_le hpage]
    exact hpre1

set_option maxRecDepth 100000 in
theorem c1_counterexample :
    (executeErr w1S w1ops).isSome = true ∧
    (executeErr w1S w1ops).map Db.file ≠ some w1S.file := by
  constructor
  · decide
  · decide

set_option maxRecDepth 100000 in
theorem c1_witness :
    w1S2.pageBuf = w1S.pageBuf ∧ w1S2.file.length = w1S.file.length ∧
    w1S2.file.take w1S.pageBuf.length = w1S.file.take w1S.pageBuf.length ∧
    w1S2.fs = w1S.fs ∧ w1S2.vec = w1S.vec ∧ w1S2.changedHeads = w1S.changedHeads :=
  execute_rollback_restores w1S w1S2 w1ops (by decide) rfl rfl rfl (by decide)
    (by decide) rfl rfl (by decide) (by decide)

end Llsdb
